import Mathlib

/-!
# The generic FTS tokenizer (src/lib-fts/fts-tokenizer-generic.c)

A shallow embedding of the streaming word tokenizer: the token buffer with
truncation and apostrophe folding, the simple algorithm, the TR29 algorithm and
the lifecycle operations. Bytes and code points are natural numbers, a byte
array is a list, and a call that would stop in `i_assert`, `i_unreached` or
`i_panic` yields `Outcome.fault`.
-/

namespace Fts

/-! ## Results of a call -/

/-- The assertion or abort of the C code a call stopped in. -/
inductive Fault where
  /-- `i_assert(tok->max_length >= tok->token->used)` in `tok_append_truncated`. -/
  | assert_max_length
  /-- `i_unreached()` after `uni_utf8_get_char_n(...) <= 0`. -/
  | unreached
  /-- `i_assert(pos > 0)` in `fts_uni_strndup`. -/
  | assert_pos
  /-- `i_assert(tok->token->used == 0)` in `fts_tokenizer_generic_next_tr29`. -/
  | assert_used
  /-- `i_assert(len > 0)` in `fts_tokenizer_generic_tr29_current_token`. -/
  | assert_len
  /-- `i_assert(char_start_i >= start_skip && size >= start_skip)` and its twin. -/
  | assert_start_skip
  /-- `letter_panic`. -/
  | letter_panic
  /-- `data[len-1]` read with `len == 0` in the TR29 trailing trim. -/
  | read_before_buffer
  deriving DecidableEq

/-- What a modelled call produces: a value, a fault of the C code, or the
model's loop bound was used up (shown below never to happen). -/
inductive Outcome (α : Type) where
  | ok (a : α)
  | fault (f : Fault)
  | out_of_fuel
  deriving DecidableEq

/-- Sequencing of calls: a fault or an exhausted bound ends the computation. -/
def Outcome.bind {α β : Type} (x : Outcome α) (f : α → Outcome β) : Outcome β :=
  match x with
  | .ok a => f a
  | .fault e => .fault e
  | .out_of_fuel => .out_of_fuel

/-! ## Letter categories and tokenizer state -/

/-- Modelled from the spec: `enum letter_type` of
fts-tokenizer-generic-private.h is not under src/. The variants are those of
§3 in order; `SOT` and `EOT` are the two unused ordinals 17 and 18 that
`letter_fns` fills with `letter_panic`. -/
inductive LetterType where
  | LETTER_TYPE_NONE
  | LETTER_TYPE_CR
  | LETTER_TYPE_LF
  | LETTER_TYPE_NEWLINE
  | LETTER_TYPE_EXTEND
  | LETTER_TYPE_REGIONAL_INDICATOR
  | LETTER_TYPE_FORMAT
  | LETTER_TYPE_KATAKANA
  | LETTER_TYPE_HEBREW_LETTER
  | LETTER_TYPE_ALETTER
  | LETTER_TYPE_SINGLE_QUOTE
  | LETTER_TYPE_DOUBLE_QUOTE
  | LETTER_TYPE_MIDNUMLET
  | LETTER_TYPE_MIDLETTER
  | LETTER_TYPE_MIDNUM
  | LETTER_TYPE_NUMERIC
  | LETTER_TYPE_EXTENDNUMLET
  | LETTER_TYPE_SOT
  | LETTER_TYPE_EOT
  | LETTER_TYPE_APOSTROPHE
  | LETTER_TYPE_OTHER
  deriving DecidableEq

open LetterType

/-- Modelled from the spec: `enum boundary_algorithm` of
fts-tokenizer-generic-private.h is not under src/ (§3, `algorithm`). -/
inductive boundary_algorithm where
  | BOUNDARY_ALGORITHM_SIMPLE
  | BOUNDARY_ALGORITHM_TR29
  deriving DecidableEq

open boundary_algorithm

/-- Modelled from the spec: `struct generic_fts_tokenizer` of
fts-tokenizer-generic-private.h is not under src/ (§3, Tokenizer). `token` is
the used part of the buffer, `token->data[0 .. token->used)`. -/
structure generic_fts_tokenizer where
  max_length : Nat
  algorithm : boundary_algorithm
  token : List Nat
  prev_letter : LetterType
  prev_prev_letter : LetterType
  deriving DecidableEq

/-- What `next` hands back: the handle's new state, the return value (1 is
TOKEN_READY, 0 is NEED_MORE), `*skip_r`, and `*token_r` (empty when no token
is returned). -/
structure next_result where
  tok : generic_fts_tokenizer
  ret : Nat
  skip : Nat
  token : List Nat
  deriving DecidableEq

/-! ## Property tables -/

/-- Modelled from the spec: the property tables of word-break-data.c and
word-boundary-data.c are not under src/. Each is an ascending array of code
points (§3, Property Table); they are a parameter of everything below. -/
structure Tables where
  White_Space : List Nat
  Dash : List Nat
  Quotation_Mark : List Nat
  Terminal_Punctuation : List Nat
  STerm : List Nat
  Pattern_White_Space : List Nat
  CR : List Nat
  LF : List Nat
  Newline : List Nat
  Extend : List Nat
  Regional_Indicator : List Nat
  Format : List Nat
  Katakana : List Nat
  Hebrew_Letter : List Nat
  ALetter : List Nat
  Single_Quote : List Nat
  Double_Quote : List Nat
  MidNumLet : List Nat
  MidLetter : List Nat
  MidNum : List Nat
  Numeric : List Nat
  ExtendNumLet : List Nat

/-- Modelled from the spec: the macro `BINARY_NUMBER_SEARCH` of
bsearch-insert-pos.h is not under src/; §3 says a table supports binary search.
The window `[left_idx, right_idx)` halves on every turn, so `fuel` turns with
`fuel` above the table's length always reach the answer. -/
def binary_number_search (data : List Nat) (value : Nat) : Nat → Nat → Nat → Bool
  | 0, _, _ => false
  | fuel + 1, left_idx, right_idx =>
    if left_idx < right_idx then
      let idx := (left_idx + right_idx) / 2
      if data.getD idx 0 < value then
        binary_number_search data value fuel (idx + 1) right_idx
      else if data.getD idx 0 > value then
        binary_number_search data value fuel left_idx idx
      else true
    else false

/-- The function `uint32_find(data, count, value, idx_r)`; the index found is not used by any caller. -/
def uint32_find (data : List Nat) (value : Nat) : Bool :=
  binary_number_search data value (data.length + 1) 0 data.length

/-! ## UTF-8 helpers -/

/-- Modelled from the spec: `uni_utf8_char_bytes` of lib/unichar.h is not under
src/. The byte length of a code point is read off its lead byte (§4.1); a byte
that cannot start a code point counts as one byte. -/
def uni_utf8_char_bytes (b : Nat) : Nat :=
  if b < 0xC2 then 1
  else if b < 0xE0 then 2
  else if b < 0xF0 then 3
  else if b < 0xF5 then 4
  else 1

/-- A continuation byte `10xxxxxx`. -/
def is_continuation (b : Nat) : Bool := 0x80 ≤ b && b < 0xC0

/-- Modelled from the spec: `uni_utf8_get_char_n` of lib/unichar.c is not under
src/. `decode_one` of §4.1: the code point that starts `input`, or `none` when
the bytes there are malformed or incomplete (the C function returns a value
`<= 0` then). Code points are the scalar values of the glossary. -/
def uni_utf8_get_char_n (input : List Nat) : Option Nat :=
  match input with
  | [] => none
  | b0 :: rest =>
    if b0 < 0x80 then some b0
    else if b0 < 0xC2 then none
    else if b0 < 0xE0 then
      match rest with
      | b1 :: _ =>
        if is_continuation b1 then some ((b0 % 0x20) * 0x40 + b1 % 0x40) else none
      | _ => none
    else if b0 < 0xF0 then
      match rest with
      | b1 :: b2 :: _ =>
        let c := ((b0 % 0x10) * 0x40 + b1 % 0x40) * 0x40 + b2 % 0x40
        if is_continuation b1 && is_continuation b2 && 0x800 ≤ c
            && !(0xD800 ≤ c && c < 0xE000) then some c
        else none
      | _ => none
    else if b0 < 0xF5 then
      match rest with
      | b1 :: b2 :: b3 :: _ =>
        let c := (((b0 % 0x08) * 0x40 + b1 % 0x40) * 0x40 + b2 % 0x40) * 0x40 + b3 % 0x40
        if is_continuation b1 && is_continuation b2 && is_continuation b3
            && 0x10000 ≤ c && c < 0x110000 then some c
        else none
      | _ => none
    else none

/-- Modelled from the spec: `uni_utf8_partial_strlen_n` of lib/unichar.c is not
under src/. `complete_prefix_length` of §4.1: walk `input` from offset `i` by
lead-byte lengths and stop before a code point that does not fit. -/
def uni_utf8_partial_strlen_n (input : List Nat) : Nat → Nat → Nat
  | 0, i => i
  | fuel + 1, i =>
    if i < input.length then
      if i + uni_utf8_char_bytes (input.getD i 0) > input.length then i
      else uni_utf8_partial_strlen_n input fuel (i + uni_utf8_char_bytes (input.getD i 0))
    else i

/-- Modelled from the spec: `t_strndup` of lib/strfuncs.c is not under src/. A
token is a byte sequence (§3); as a C string it is the first `max_chars` bytes
up to the first NUL byte. -/
def t_strndup (str : List Nat) (max_chars : Nat) : List Nat :=
  (str.take max_chars).takeWhile (fun b => b != 0)

/-- Valid UTF-8: the bytes split into well-formed code points with nothing left over. -/
def valid_utf8_from : Nat → List Nat → Bool
  | _, [] => true
  | 0, _ :: _ => false
  | fuel + 1, b :: rest =>
    match uni_utf8_get_char_n (b :: rest) with
    | none => false
    | some _ => valid_utf8_from fuel ((b :: rest).drop (uni_utf8_char_bytes b))

/-- Valid UTF-8 for a whole byte sequence. -/
def valid_utf8 (s : List Nat) : Bool := valid_utf8_from s.length s

/-! ## Constants and the simple break predicate -/

/-- The macro `FTS_DEFAULT_TOKEN_MAX_LENGTH`. -/
def FTS_DEFAULT_TOKEN_MAX_LENGTH : Nat := 30

/-- The macro `IS_NONASCII_APOSTROPHE(c)`. -/
def IS_NONASCII_APOSTROPHE (c : Nat) : Bool := c == 0x2019 || c == 0xFF07

/-- The macro `IS_APOSTROPHE(c)`. -/
def IS_APOSTROPHE (c : Nat) : Bool := c == 0x0027 || IS_NONASCII_APOSTROPHE c

/-- The table `fts_ascii_word_breaks[128]`. -/
def fts_ascii_word_breaks : List Nat := [
  1, 1, 1, 1, 1, 1, 1, 1, 1, 1, 1, 1, 1, 1, 1, 1,
  1, 1, 1, 1, 1, 1, 1, 1, 1, 1, 1, 1, 1, 1, 1, 1,
  1, 1, 1, 1, 1, 1, 1, 0, 1, 1, 1, 1, 1, 1, 1, 1,
  0, 0, 0, 0, 0, 0, 0, 0, 0, 0, 1, 1, 1, 1, 1, 1,
  1, 0, 0, 0, 0, 0, 0, 0, 0, 0, 0, 0, 0, 0, 0, 0,
  0, 0, 0, 0, 0, 0, 0, 0, 0, 0, 0, 1, 1, 1, 1, 0,
  1, 0, 0, 0, 0, 0, 0, 0, 0, 0, 0, 0, 0, 0, 0, 0,
  0, 0, 0, 0, 0, 0, 0, 0, 0, 0, 0, 1, 1, 1, 1, 0]

/-- The function `fts_uni_word_break`. -/
def fts_uni_word_break (tb : Tables) (c : Nat) : Bool :=
  if c ≥ 0x2000 && c ≤ 0x206f then true
  else if uint32_find tb.White_Space c then true
  else if uint32_find tb.Dash c then true
  else if uint32_find tb.Quotation_Mark c then true
  else if uint32_find tb.Terminal_Punctuation c then true
  else if uint32_find tb.STerm c then true
  else if uint32_find tb.Pattern_White_Space c then true
  else false

/-- The function `fts_simple_is_word_break`. -/
def fts_simple_is_word_break (tb : Tables) (tok : generic_fts_tokenizer) (c : Nat)
    (apostrophe : Bool) : Bool :=
  if apostrophe then tok.prev_letter == LETTER_TYPE_SINGLE_QUOTE
  else if c < 0x80 then fts_ascii_word_breaks.getD c 0 != 0
  else fts_uni_word_break tb c

/-! ## Lifecycle -/

/-- The function `fts_tokenizer_generic_reset`. -/
def fts_tokenizer_generic_reset (tok : generic_fts_tokenizer) : generic_fts_tokenizer :=
  { tok with prev_letter := LETTER_TYPE_NONE, prev_prev_letter := LETTER_TYPE_NONE, token := [] }

/-! ## Token buffer: truncation and apostrophe folding -/

/-- The `while (pos < append_len)` loop of `tok_append_truncated`; the state is
`pos`, `appended` and the buffer. `data` is the span handed in, of `size` bytes. -/
def tok_append_loop (data : List Nat) (append_len : Nat) :
    Nat → Nat → Nat → List Nat → Outcome (Nat × List Nat)
  | 0, pos, appended, buf =>
    if pos < append_len then .out_of_fuel else .ok (appended, buf)
  | fuel + 1, pos, appended, buf =>
    if pos < append_len then
      match uni_utf8_get_char_n (data.drop pos) with
      | none => .fault .unreached
      | some c =>
        if IS_NONASCII_APOSTROPHE c then
          tok_append_loop data append_len fuel (pos + uni_utf8_char_bytes (data.getD pos 0))
            (pos + 1) (buf ++ data.take pos ++ [0x27])
        else
          tok_append_loop data append_len fuel (pos + uni_utf8_char_bytes (data.getD pos 0))
            appended buf
    else .ok (appended, buf)

/-- The function `tok_append_truncated(tok, data, size)` with `size = data.length`. -/
def tok_append_truncated (tok : generic_fts_tokenizer) (data : List Nat) :
    Outcome generic_fts_tokenizer :=
  if tok.max_length < tok.token.length then .fault .assert_max_length
  else
    let append_len := min data.length (tok.max_length - tok.token.length)
    (tok_append_loop data append_len append_len 0 0 tok.token).bind fun r =>
      if r.1 < append_len then
        .ok { tok with token := r.2 ++ (data.drop r.1).take (append_len - r.1) }
      else .ok { tok with token := r.2 }

/-- The function `fts_uni_strndup(data, size)` with `size = data.length`. -/
def fts_uni_strndup (data : List Nat) : Outcome (List Nat) :=
  let pos := uni_utf8_partial_strlen_n data data.length 0
  if pos > 0 then .ok (t_strndup data pos) else .fault .assert_pos

/-! ## The simple algorithm -/

/-- The function `fts_tokenizer_generic_simple_current_token`: the handle with its
buffer emptied, `*token_r`, and the return value. The two `while` loops drop the
trailing and then the leading bytes `0x27` of the buffer. -/
def fts_tokenizer_generic_simple_current_token (tok : generic_fts_tokenizer) :
    Outcome (generic_fts_tokenizer × List Nat × Bool) :=
  let stripped := (tok.token.rdropWhile (fun b => b == 0x27)).dropWhile (fun b => b == 0x27)
  if stripped.length == 0 then .ok ({ tok with token := [] }, [], false)
  else
    (fts_uni_strndup stripped).bind fun token_r =>
      .ok ({ tok with token := [] }, token_r, token_r.headD 0 != 0)

/-- The span `data[start .. i)`. -/
def span (data : List Nat) (start i : Nat) : List Nat := (data.drop start).take (i - start)

/-- The code of `fts_tokenizer_generic_next_simple` after its `for` loop, reached
with the loop's final `i` and `start`. -/
def next_simple_finish (data : List Nat) (i start : Nat) (tok : generic_fts_tokenizer) :
    Outcome next_result :=
  (tok_append_truncated tok (span data start i)).bind fun tok1 =>
    if data.length == 0 && tok1.token.length > 0 then
      (fts_tokenizer_generic_simple_current_token tok1).bind fun r =>
        if r.2.2 then .ok ⟨r.1, 1, i, r.2.1⟩ else .ok ⟨r.1, 0, i, []⟩
    else .ok ⟨tok1, 0, i, []⟩

/-- The `for` loop of `fts_tokenizer_generic_next_simple`, followed by the code
after it; the state is `i`, `start` and the handle. -/
def next_simple_loop (tb : Tables) (data : List Nat) :
    Nat → Nat → Nat → generic_fts_tokenizer → Outcome next_result
  | 0, i, start, tok =>
    if i < data.length then .out_of_fuel else next_simple_finish data i start tok
  | fuel + 1, i, start, tok =>
    if i < data.length then
      match uni_utf8_get_char_n (data.drop i) with
      | none => .fault .unreached
      | some c =>
        let char_size := uni_utf8_char_bytes (data.getD i 0)
        let apostrophe := IS_APOSTROPHE c
        if fts_simple_is_word_break tb tok c apostrophe then
          (tok_append_truncated tok (span data start i)).bind fun tok1 =>
            if tok1.token.length > 0 then
              (fts_tokenizer_generic_simple_current_token tok1).bind fun r =>
                if r.2.2 then .ok ⟨r.1, 1, i + char_size, r.2.1⟩
                else next_simple_loop tb data fuel (i + char_size) (i + char_size)
                  { r.1 with prev_letter := LETTER_TYPE_NONE }
            else next_simple_loop tb data fuel (i + char_size) (i + char_size)
              { tok1 with prev_letter := LETTER_TYPE_NONE }
        else
          next_simple_loop tb data fuel (i + char_size) start
            { tok with prev_letter :=
                if apostrophe then LETTER_TYPE_SINGLE_QUOTE else LETTER_TYPE_NONE }
    else next_simple_finish data i start tok

/-- The function `fts_tokenizer_generic_next_simple(tok, data, size, ...)` with
`size = data.length`. -/
def fts_tokenizer_generic_next_simple (tb : Tables) (tok : generic_fts_tokenizer)
    (data : List Nat) : Outcome next_result :=
  next_simple_loop tb data data.length 0 0 tok

/-! ## The TR29 algorithm -/

/-- The function `letter_type`. -/
def letter_type (tb : Tables) (c : Nat) : LetterType :=
  if IS_APOSTROPHE c then LETTER_TYPE_APOSTROPHE
  else if uint32_find tb.CR c then LETTER_TYPE_CR
  else if uint32_find tb.LF c then LETTER_TYPE_LF
  else if uint32_find tb.Newline c then LETTER_TYPE_NEWLINE
  else if uint32_find tb.Extend c then LETTER_TYPE_EXTEND
  else if uint32_find tb.Regional_Indicator c then LETTER_TYPE_REGIONAL_INDICATOR
  else if uint32_find tb.Format c then LETTER_TYPE_FORMAT
  else if uint32_find tb.Katakana c then LETTER_TYPE_KATAKANA
  else if uint32_find tb.Hebrew_Letter c then LETTER_TYPE_HEBREW_LETTER
  else if uint32_find tb.ALetter c then LETTER_TYPE_ALETTER
  else if uint32_find tb.Single_Quote c then LETTER_TYPE_SINGLE_QUOTE
  else if uint32_find tb.Double_Quote c then LETTER_TYPE_DOUBLE_QUOTE
  else if uint32_find tb.MidNumLet c then LETTER_TYPE_MIDNUMLET
  else if uint32_find tb.MidLetter c then LETTER_TYPE_MIDLETTER
  else if uint32_find tb.MidNum c then LETTER_TYPE_MIDNUM
  else if uint32_find tb.Numeric c then LETTER_TYPE_NUMERIC
  else if uint32_find tb.ExtendNumLet c then LETTER_TYPE_EXTENDNUMLET
  else LETTER_TYPE_OTHER

/-- The function `letter_panic`. -/
def letter_panic (_tok : generic_fts_tokenizer) : Outcome Bool := .fault .letter_panic

/-- The function `letter_cr_lf_newline`. -/
def letter_cr_lf_newline (_tok : generic_fts_tokenizer) : Outcome Bool := .ok true

/-- The function `letter_extend_format`. -/
def letter_extend_format (_tok : generic_fts_tokenizer) : Outcome Bool := .ok false

/-- The function `letter_regional_indicator`. -/
def letter_regional_indicator (tok : generic_fts_tokenizer) : Outcome Bool :=
  if tok.prev_letter == LETTER_TYPE_REGIONAL_INDICATOR then .ok false
  else .ok true

/-- The function `letter_katakana`. -/
def letter_katakana (tok : generic_fts_tokenizer) : Outcome Bool :=
  if tok.prev_letter == LETTER_TYPE_KATAKANA then .ok false
  else if tok.prev_letter == LETTER_TYPE_EXTENDNUMLET then .ok false
  else .ok true

/-- The function `letter_hebrew`. -/
def letter_hebrew (tok : generic_fts_tokenizer) : Outcome Bool :=
  if tok.prev_letter == LETTER_TYPE_HEBREW_LETTER then .ok false
  else if tok.prev_prev_letter == LETTER_TYPE_HEBREW_LETTER &&
      (tok.prev_letter == LETTER_TYPE_SINGLE_QUOTE ||
       tok.prev_letter == LETTER_TYPE_APOSTROPHE ||
       tok.prev_letter == LETTER_TYPE_MIDLETTER ||
       tok.prev_letter == LETTER_TYPE_DOUBLE_QUOTE) then .ok false
  else if tok.prev_letter == LETTER_TYPE_NUMERIC then .ok false
  else if tok.prev_letter == LETTER_TYPE_EXTENDNUMLET then .ok false
  else .ok true

/-- The function `letter_aletter`. -/
def letter_aletter (tok : generic_fts_tokenizer) : Outcome Bool :=
  if tok.prev_letter == LETTER_TYPE_ALETTER then .ok false
  else if tok.prev_prev_letter == LETTER_TYPE_ALETTER &&
      (tok.prev_letter == LETTER_TYPE_SINGLE_QUOTE ||
       tok.prev_letter == LETTER_TYPE_APOSTROPHE ||
       tok.prev_letter == LETTER_TYPE_MIDLETTER) then .ok false
  else if tok.prev_letter == LETTER_TYPE_NUMERIC then .ok false
  else if tok.prev_letter == LETTER_TYPE_EXTENDNUMLET then .ok false
  else .ok true

/-- The function `letter_single_quote`. -/
def letter_single_quote (tok : generic_fts_tokenizer) : Outcome Bool :=
  if tok.prev_letter == LETTER_TYPE_ALETTER ||
      tok.prev_letter == LETTER_TYPE_HEBREW_LETTER then .ok false
  else if tok.prev_letter == LETTER_TYPE_NUMERIC then .ok false
  else .ok true

/-- The function `letter_double_quote`. -/
def letter_double_quote (tok : generic_fts_tokenizer) : Outcome Bool :=
  if tok.prev_letter == LETTER_TYPE_DOUBLE_QUOTE then .ok false
  else .ok true

/-- The function `letter_midnumlet`. -/
def letter_midnumlet (_tok : generic_fts_tokenizer) : Outcome Bool := .ok true

/-- The function `letter_midletter`. -/
def letter_midletter (tok : generic_fts_tokenizer) : Outcome Bool :=
  if tok.prev_letter == LETTER_TYPE_ALETTER ||
      tok.prev_letter == LETTER_TYPE_HEBREW_LETTER then .ok false
  else .ok true

/-- The function `letter_midnum`. -/
def letter_midnum (tok : generic_fts_tokenizer) : Outcome Bool :=
  if tok.prev_letter == LETTER_TYPE_NUMERIC then .ok false
  else .ok true

/-- The function `letter_numeric`. -/
def letter_numeric (tok : generic_fts_tokenizer) : Outcome Bool :=
  if tok.prev_letter == LETTER_TYPE_NUMERIC then .ok false
  else if tok.prev_letter == LETTER_TYPE_ALETTER ||
      tok.prev_letter == LETTER_TYPE_HEBREW_LETTER then .ok false
  else if tok.prev_prev_letter == LETTER_TYPE_NUMERIC &&
      (tok.prev_letter == LETTER_TYPE_MIDNUM ||
       tok.prev_letter == LETTER_TYPE_MIDNUMLET ||
       tok.prev_letter == LETTER_TYPE_SINGLE_QUOTE) then .ok false
  else if tok.prev_letter == LETTER_TYPE_EXTENDNUMLET then .ok false
  else .ok true

/-- The function `letter_extendnumlet`. -/
def letter_extendnumlet (tok : generic_fts_tokenizer) : Outcome Bool :=
  if tok.prev_letter == LETTER_TYPE_ALETTER ||
      tok.prev_letter == LETTER_TYPE_HEBREW_LETTER ||
      tok.prev_letter == LETTER_TYPE_NUMERIC ||
      tok.prev_letter == LETTER_TYPE_KATAKANA ||
      tok.prev_letter == LETTER_TYPE_EXTENDNUMLET then .ok false
  else .ok true

/-- The function `letter_apostrophe`. -/
def letter_apostrophe (tok : generic_fts_tokenizer) : Outcome Bool :=
  if tok.prev_letter == LETTER_TYPE_ALETTER ||
      tok.prev_letter == LETTER_TYPE_HEBREW_LETTER then .ok false
  else .ok true

/-- The function `letter_other`. -/
def letter_other (_tok : generic_fts_tokenizer) : Outcome Bool := .ok true

/-- The function `add_prev_letter`. -/
def add_prev_letter (tok : generic_fts_tokenizer) (lt : LetterType) : generic_fts_tokenizer :=
  if tok.prev_letter != LETTER_TYPE_NONE then
    { tok with prev_prev_letter := tok.prev_letter, prev_letter := lt }
  else { tok with prev_letter := lt }

/-- The function `is_nontoken`. -/
def is_nontoken (lt : LetterType) : Bool :=
  if lt == LETTER_TYPE_REGIONAL_INDICATOR || lt == LETTER_TYPE_KATAKANA ||
      lt == LETTER_TYPE_HEBREW_LETTER || lt == LETTER_TYPE_ALETTER ||
      lt == LETTER_TYPE_NUMERIC then false
  else true

/-- The function `is_one_past_end`. -/
def is_one_past_end (tok : generic_fts_tokenizer) : Bool :=
  if tok.prev_letter == LETTER_TYPE_MIDLETTER ||
      tok.prev_letter == LETTER_TYPE_MIDNUMLET ||
      tok.prev_letter == LETTER_TYPE_APOSTROPHE ||
      tok.prev_letter == LETTER_TYPE_SINGLE_QUOTE then true
  else if tok.prev_letter == LETTER_TYPE_MIDNUM ||
      tok.prev_letter == LETTER_TYPE_MIDNUMLET ||
      tok.prev_letter == LETTER_TYPE_APOSTROPHE ||
      tok.prev_letter == LETTER_TYPE_SINGLE_QUOTE then true
  else false

/-- The loop `while ((data[len-1] & 0x80) != 0) len--;` of
`fts_tokenizer_generic_tr29_current_token`, started at `len`. With `len == 0`
the C code reads the byte before the buffer. -/
def tr29_trim_loop (data : List Nat) : Nat → Outcome Nat
  | 0 => .fault .read_before_buffer
  | len + 1 =>
    if (data.getD len 0) &&& 0x80 != 0 then tr29_trim_loop data len else .ok (len + 1)

/-- The function `fts_tokenizer_generic_tr29_current_token`: the handle after it and `*token_r`. -/
def fts_tokenizer_generic_tr29_current_token (tok : generic_fts_tokenizer) :
    Outcome (generic_fts_tokenizer × List Nat) :=
  (if is_one_past_end tok then
    (tr29_trim_loop tok.token tok.token.length).bind fun len =>
      if len > 0 then .ok (len - 1) else .fault .assert_len
   else .ok tok.token.length).bind fun len =>
    if len > 0 then
      (fts_uni_strndup (tok.token.take len)).bind fun token_r =>
        .ok ({ tok with prev_prev_letter := LETTER_TYPE_NONE, prev_letter := LETTER_TYPE_NONE,
                        token := [] }, token_r)
    else .fault .assert_len

/-- The ordinal of a letter type, its index into `letter_fns`. -/
def LetterType.ordinal : LetterType → Nat
  | LETTER_TYPE_NONE => 0
  | LETTER_TYPE_CR => 1
  | LETTER_TYPE_LF => 2
  | LETTER_TYPE_NEWLINE => 3
  | LETTER_TYPE_EXTEND => 4
  | LETTER_TYPE_REGIONAL_INDICATOR => 5
  | LETTER_TYPE_FORMAT => 6
  | LETTER_TYPE_KATAKANA => 7
  | LETTER_TYPE_HEBREW_LETTER => 8
  | LETTER_TYPE_ALETTER => 9
  | LETTER_TYPE_SINGLE_QUOTE => 10
  | LETTER_TYPE_DOUBLE_QUOTE => 11
  | LETTER_TYPE_MIDNUMLET => 12
  | LETTER_TYPE_MIDLETTER => 13
  | LETTER_TYPE_MIDNUM => 14
  | LETTER_TYPE_NUMERIC => 15
  | LETTER_TYPE_EXTENDNUMLET => 16
  | LETTER_TYPE_SOT => 17
  | LETTER_TYPE_EOT => 18
  | LETTER_TYPE_APOSTROPHE => 19
  | LETTER_TYPE_OTHER => 20

/-- The array `letter_fns[]`. -/
def letter_fns : List (generic_fts_tokenizer → Outcome Bool) := [
  letter_panic, letter_cr_lf_newline, letter_cr_lf_newline,
  letter_cr_lf_newline, letter_extend_format,
  letter_regional_indicator, letter_extend_format,
  letter_katakana, letter_hebrew, letter_aletter,
  letter_single_quote, letter_double_quote,
  letter_midnumlet, letter_midletter, letter_midnum,
  letter_numeric, letter_extendnumlet, letter_panic,
  letter_panic, letter_apostrophe, letter_other]

/-- The function `uni_found_word_boundary`: the handle after it and the return value. -/
def uni_found_word_boundary (tok : generic_fts_tokenizer) (lt : LetterType) :
    Outcome (generic_fts_tokenizer × Bool) :=
  (if tok.prev_letter != LETTER_TYPE_NONE then (letter_fns.getD lt.ordinal letter_panic) tok
   else .ok false).bind fun found =>
    if found then .ok (tok, true)
    else if lt == LETTER_TYPE_EXTEND || lt == LETTER_TYPE_FORMAT then .ok (tok, false)
    else .ok (add_prev_letter tok lt, false)

/-- The code of `fts_tokenizer_generic_next_tr29` after its `for` loop, reached
with the loop's final `i` and `start_skip`. -/
def next_tr29_finish (data : List Nat) (i start_skip : Nat) (tok : generic_fts_tokenizer) :
    Outcome next_result :=
  if i < start_skip || data.length < start_skip then .fault .assert_start_skip
  else
    (tok_append_truncated tok (span data start_skip i)).bind fun tok1 =>
      if data.length == 0 && tok1.token.length > 0 then
        (fts_tokenizer_generic_tr29_current_token tok1).bind fun r => .ok ⟨r.1, 1, 0, r.2⟩
      else .ok ⟨tok1, 0, i, []⟩

/-- The `for` loop of `fts_tokenizer_generic_next_tr29`, followed by the code
after it; the state is `i`, `start_skip` and the handle. -/
def next_tr29_loop (tb : Tables) (data : List Nat) :
    Nat → Nat → Nat → generic_fts_tokenizer → Outcome next_result
  | 0, i, start_skip, tok =>
    if i < data.length then .out_of_fuel else next_tr29_finish data i start_skip tok
  | fuel + 1, i, start_skip, tok =>
    if i < data.length then
      let char_start_i := i
      match uni_utf8_get_char_n (data.drop i) with
      | none => .fault .unreached
      | some c =>
        let i := i + uni_utf8_char_bytes (data.getD i 0)
        let lt := letter_type tb c
        if tok.prev_letter == LETTER_TYPE_NONE && is_nontoken lt then
          if tok.token.length == 0 then next_tr29_loop tb data fuel i i tok
          else .fault .assert_used
        else
          (uni_found_word_boundary tok lt).bind fun r =>
            if r.2 then
              if char_start_i < start_skip || data.length < start_skip then
                .fault .assert_start_skip
              else
                (tok_append_truncated r.1 (span data start_skip char_start_i)).bind fun tok1 =>
                  (fts_tokenizer_generic_tr29_current_token tok1).bind fun t =>
                    .ok ⟨t.1, 1, i, t.2⟩
            else next_tr29_loop tb data fuel i start_skip r.1
    else next_tr29_finish data i start_skip tok

/-- The function `fts_tokenizer_generic_next_tr29(tok, data, size, ...)` with
`size = data.length`. -/
def fts_tokenizer_generic_next_tr29 (tb : Tables) (tok : generic_fts_tokenizer)
    (data : List Nat) : Outcome next_result :=
  next_tr29_loop tb data data.length 0 0 tok

/-! ## Creation and the caller's protocol -/

/-- Modelled from the spec: `str_to_uint` of lib/strnum.c is not under src/. The
value of a non-empty string of decimal digits that fits an `unsigned int`
(§4.5: `maxlen` is an integer; §7: a non-integer `maxlen` is an error). -/
def str_to_uint (value : String) : Option Nat :=
  let digits := value.toList
  if digits.isEmpty || !digits.all Char.isDigit then none
  else
    let n := digits.foldl (fun acc ch => acc * 10 + (ch.toNat - 48)) 0
    if n < 2 ^ 32 then some n else none

/-- Modelled from the spec: the macros `ALGORITHM_SIMPLE_NAME` and
`ALGORITHM_TR29_NAME` of fts-tokenizer-generic-private.h are not under src/
(§6, Settings). -/
def ALGORITHM_SIMPLE_NAME : String := "simple"

/-- See `ALGORITHM_SIMPLE_NAME`. -/
def ALGORITHM_TR29_NAME : String := "tr29"

/-- The settings loop of `fts_tokenizer_generic_create`; the state is
`max_length` and `algo`, the result they end with or `*error_r`. -/
def create_settings_loop :
    List (String × String) → Nat → boundary_algorithm → Except String (Nat × boundary_algorithm)
  | [], max_length, algo => .ok (max_length, algo)
  | (key, value) :: rest, max_length, algo =>
    if key == "maxlen" then
      match str_to_uint value with
      | none => .error ("Invalid maxlen setting: " ++ value)
      | some v =>
        if v == 0 then .error ("Invalid maxlen setting: " ++ value)
        else create_settings_loop rest v algo
    else if key == "algorithm" then
      if value == ALGORITHM_TR29_NAME then
        create_settings_loop rest max_length BOUNDARY_ALGORITHM_TR29
      else if value == ALGORITHM_SIMPLE_NAME then create_settings_loop rest max_length algo
      else .error ("Invalid algorithm: " ++ value)
    else if key == "search" then create_settings_loop rest max_length algo
    else .error ("Unknown setting: " ++ key)

/-- The function `fts_tokenizer_generic_create`: `settings` are the key/value
pairs before the terminating NULL; `i_new` hands out zeroed memory, so both
history slots start as `LETTER_TYPE_NONE` (ordinal 0), and the buffer is empty. -/
def fts_tokenizer_generic_create (settings : List (String × String)) :
    Except String generic_fts_tokenizer :=
  match create_settings_loop settings FTS_DEFAULT_TOKEN_MAX_LENGTH BOUNDARY_ALGORITHM_SIMPLE with
  | .error e => .error e
  | .ok (max_length, algo) =>
    .ok { max_length := max_length, algorithm := algo, token := [],
          prev_letter := LETTER_TYPE_NONE, prev_prev_letter := LETTER_TYPE_NONE }

/-- The call `tok->v->next(...)`: `create` installs `generic_tokenizer_vfuncs_tr29`
for the TR29 algorithm and `generic_tokenizer_vfuncs_simple` otherwise. -/
def fts_tokenizer_next (tb : Tables) (tok : generic_fts_tokenizer) (data : List Nat) :
    Outcome next_result :=
  match tok.algorithm with
  | BOUNDARY_ALGORITHM_TR29 => fts_tokenizer_generic_next_tr29 tb tok data
  | BOUNDARY_ALGORITHM_SIMPLE => fts_tokenizer_generic_next_simple tb tok data

/-- Modelled from the spec: the caller's loop over one chunk is not under src/.
§4.2: the caller advances by `skip` and calls again with the remainder; here it
does so until NEED_MORE, collecting the tokens. Returns the handle and the tokens. -/
def feed (tb : Tables) :
    Nat → generic_fts_tokenizer → List Nat → Outcome (generic_fts_tokenizer × List (List Nat))
  | 0, _, _ => .out_of_fuel
  | fuel + 1, tok, data =>
    (fts_tokenizer_next tb tok data).bind fun r =>
      if r.ret == 1 then
        (feed tb fuel r.tok (data.drop r.skip)).bind fun p => .ok (p.1, r.token :: p.2)
      else .ok (r.tok, [])

/-- One chunk fed until NEED_MORE. Every TOKEN_READY on a non-empty remainder
consumes a byte and a flush empties the buffer, so `size + 2` calls are enough. -/
def feed_chunk (tb : Tables) (tok : generic_fts_tokenizer) (data : List Nat) :
    Outcome (generic_fts_tokenizer × List (List Nat)) :=
  feed tb (data.length + 2) tok data

/-- The chunks fed in order. -/
def feed_chunks (tb : Tables) :
    generic_fts_tokenizer → List (List Nat) → Outcome (generic_fts_tokenizer × List (List Nat))
  | tok, [] => .ok (tok, [])
  | tok, chunk :: rest =>
    (feed_chunk tb tok chunk).bind fun p =>
      (feed_chunks tb p.1 rest).bind fun q => .ok (q.1, p.2 ++ q.2)

/-- Modelled from the spec: the end-of-stream convention of §6. The chunks are
fed in order, then `next` is called with `size == 0` until NEED_MORE; the result
is the sequence of all tokens. -/
def tokenize (tb : Tables) (tok : generic_fts_tokenizer) (chunks : List (List Nat)) :
    Outcome (List (List Nat)) :=
  (feed_chunks tb tok chunks).bind fun p =>
    (feed_chunk tb p.1 []).bind fun q => .ok (p.2 ++ q.2)

/-! ## Proof vocabulary -/

/-- `x.ensures P`: the call returns, or stops in a fault of the C code, and a returned value satisfies `P`;
the model's bound is never the reason to stop. -/
def Outcome.ensures {α : Type} (P : α → Prop) (x : Outcome α) : Prop :=
  match x with
  | .ok a => P a
  | .fault _ => True
  | .out_of_fuel => False

/-- What `tok_append_truncated` leaves untouched and what it does to the buffer. -/
def append_post (tok : generic_fts_tokenizer) (sp : List Nat) (t : generic_fts_tokenizer) : Prop :=
  t.max_length = tok.max_length ∧ t.algorithm = tok.algorithm ∧
  t.prev_letter = tok.prev_letter ∧ t.prev_prev_letter = tok.prev_prev_letter ∧
  tok.token.length ≤ tok.max_length ∧
  ∃ X, t.token = tok.token ++ X ∧
    (X = [] ∨ X.head? = sp.head? ∨ X.head? = some 0x27) ∧
    (sp ≠ [] → tok.token.length < tok.max_length → X ≠ [])

/-- What every returning call of `next` guarantees, whatever the state it starts in. -/
def next_post (tok : generic_fts_tokenizer) (data : List Nat) (r : next_result) : Prop :=
  (r.ret = 1 ∨ (r.ret = 0 ∧ data.length ≤ r.skip)) ∧
  r.tok.max_length = tok.max_length ∧ r.tok.algorithm = tok.algorithm

/-- The state a TR29 tokenizer is in between calls: the cap is positive, the
buffer does not start with a NUL byte, and a history is only kept with a
non-empty buffer. -/
def tr29_inv (tok : generic_fts_tokenizer) : Prop :=
  1 ≤ tok.max_length ∧ tok.token.head? ≠ some 0 ∧
  (tok.prev_letter ≠ LETTER_TYPE_NONE → tok.token ≠ [])

/-- The same inside the loop of `fts_tokenizer_generic_next_tr29`, at offset `i`. -/
def tr29_loop_inv (data : List Nat) (i start_skip : Nat) (tok : generic_fts_tokenizer) : Prop :=
  1 ≤ tok.max_length ∧ tok.token.head? ≠ some 0 ∧ i ≤ data.length ∧ start_skip ≤ i ∧
  (tok.token = [] →
    (tok.prev_letter = LETTER_TYPE_NONE → start_skip = i) ∧
    (tok.prev_letter ≠ LETTER_TYPE_NONE → start_skip < i ∧ data.getD start_skip 0 ≠ 0))

/-- What a call that returns TOKEN_READY leaves behind: an empty buffer, and a
positive skip count when it was given data. -/
def ready_post (data : List Nat) (r : next_result) : Prop :=
  r.ret = 1 → r.tok.token = [] ∧ (data ≠ [] → 1 ≤ r.skip)

/-- The states a handle made by `create` goes through: `tok0` is what `create`
returned, and every later state comes from a `reset` or from a call of `next`
that returned. -/
inductive Reachable (tb : Tables) (tok0 : generic_fts_tokenizer) : generic_fts_tokenizer → Prop where
  | created : Reachable tb tok0 tok0
  | after_reset {tok : generic_fts_tokenizer} :
      Reachable tb tok0 tok → Reachable tb tok0 (fts_tokenizer_generic_reset tok)
  | after_next {tok : generic_fts_tokenizer} (data : List Nat) {r : next_result} :
      Reachable tb tok0 tok → fts_tokenizer_next tb tok data = .ok r → Reachable tb tok0 r.tok

/-- The results `(status, skip, token)` of calling `next` on each of `inputs` in
turn; a call that stops in a fault ends the sequence. -/
def next_calls (tb : Tables) :
    generic_fts_tokenizer → List (List Nat) → List (Outcome (Nat × Nat × List Nat))
  | _, [] => []
  | tok, data :: rest =>
    match fts_tokenizer_next tb tok data with
    | .ok r => .ok (r.ret, r.skip, r.token) :: next_calls tb r.tok rest
    | .fault f => [.fault f]
    | .out_of_fuel => [.out_of_fuel]

/-- Modelled from the spec: the property tables are not under src/. This is the
part of each table for the code points up to U+00FF, as Unicode's PropList.txt
and WordBreakProperty.txt give it; the examples that use it consult the tables
at such code points only. -/
def tables_latin1 : Tables where
  White_Space := [0x09, 0x0A, 0x0B, 0x0C, 0x0D, 0x20, 0x85, 0xA0]
  Dash := [0x2D]
  Quotation_Mark := [0x22, 0x27, 0xAB, 0xBB]
  Terminal_Punctuation := [0x21, 0x2C, 0x2E, 0x3A, 0x3B, 0x3F]
  STerm := [0x21, 0x2E, 0x3F]
  Pattern_White_Space := [0x09, 0x0A, 0x0B, 0x0C, 0x0D, 0x20, 0x85]
  CR := [0x0D]
  LF := [0x0A]
  Newline := [0x0B, 0x0C, 0x85]
  Extend := []
  Regional_Indicator := []
  Format := [0xAD]
  Katakana := []
  Hebrew_Letter := []
  ALetter := (List.range 26).map (fun k => 0x41 + k) ++ (List.range 26).map (fun k => 0x61 + k)
    ++ [0xAA, 0xB5, 0xBA] ++ (List.range 23).map (fun k => 0xC0 + k)
    ++ (List.range 31).map (fun k => 0xD8 + k) ++ (List.range 8).map (fun k => 0xF8 + k)
  Single_Quote := [0x27]
  Double_Quote := [0x22]
  MidNumLet := [0x2E]
  MidLetter := [0x3A, 0xB7]
  MidNum := [0x2C, 0x3B]
  Numeric := (List.range 10).map (fun k => 0x30 + k)
  ExtendNumLet := [0x5F]

/-- A handle as `create` makes it for the given cap and algorithm. -/
def fresh (max_length : Nat) (algo : boundary_algorithm) : generic_fts_tokenizer :=
  { max_length := max_length, algorithm := algo, token := [],
    prev_letter := LETTER_TYPE_NONE, prev_prev_letter := LETTER_TYPE_NONE }

/-! ## The simple algorithm on plain ASCII text -/

/-- Whether the ASCII break table marks the byte `b` as a break, read the way
`fts_simple_is_word_break` reads it. -/
def ascii_break (b : Nat) : Bool := fts_ascii_word_breaks.getD b 0 != 0

/-- The maximal runs of non-break bytes of `s`, in input order: the pieces of
`s` between its break bytes, without the empty ones. -/
def ascii_runs (s : List Nat) : List (List Nat) :=
  (s.splitOnP ascii_break).filter (fun run => !run.isEmpty)

/-- ASCII text without the apostrophe: every byte is below `0x80` and is not `0x27`. -/
def ascii_text (s : List Nat) : Prop := ∀ b ∈ s, b < 0x80 ∧ b ≠ 0x27

/-- The bytes of a word under construction: ASCII, no apostrophe, no break byte. -/
def word_bytes (w : List Nat) : Prop := ∀ b ∈ w, b < 0x80 ∧ b ≠ 0x27 ∧ ascii_break b = false

/-- One call of `next` on ASCII text, on lists: `w` is the word collected so
far (untruncated), the argument the bytes still to read. The result is the
return value, the token, the word pending after the call and the bytes the
call did not consume. -/
def simple_ascii_call (m : Nat) : List Nat → List Nat → Nat × List Nat × List Nat × List Nat
  | w, [] => (0, [], w, [])
  | w, b :: rest =>
    if ascii_break b then
      if w = [] then simple_ascii_call m [] rest else (1, w.take m, [], rest)
    else simple_ascii_call m (w ++ [b]) rest

/-- A chunk of ASCII text fed until NEED_MORE, on lists: the tokens and the
word pending afterwards. -/
def simple_ascii_feed (m : Nat) : List Nat → List Nat → List (List Nat) × List Nat
  | w, [] => ([], w)
  | w, b :: rest =>
    if ascii_break b then
      if w = [] then simple_ascii_feed m [] rest
      else (w.take m :: (simple_ascii_feed m [] rest).1, (simple_ascii_feed m [] rest).2)
    else simple_ascii_feed m (w ++ [b]) rest

/-- The words of ASCII text, untruncated, the pending word `w` in front. -/
def ascii_words : List Nat → List Nat → List (List Nat)
  | w, [] => if w = [] then [] else [w]
  | w, b :: rest =>
    if ascii_break b then
      if w = [] then ascii_words [] rest else w :: ascii_words [] rest
    else ascii_words (w ++ [b]) rest

/-- The `next_result` that a call described on lists stands for. -/
def ascii_result (m : Nat) (tok : generic_fts_tokenizer) (size : Nat)
    (c : Nat × List Nat × List Nat × List Nat) : next_result :=
  ⟨{ tok with token := c.2.2.1.take m }, c.1, size - c.2.2.2.length, c.2.1⟩

/-- Membership in `ascii_text` is decidable. -/
instance ascii_text_decidable (s : List Nat) : Decidable (ascii_text s) :=
  inferInstanceAs (Decidable (∀ b ∈ s, b < 0x80 ∧ b ≠ 0x27))

/-! ## The spec's tables and rules, as the spec words them -/

/-- The ASCII break table in the words of §6 of the spec, for an index `c` in 0..127. -/
def spec_ascii_break (c : Nat) : Bool :=
  if c ≤ 0x1F then true
  else if c ≤ 0x2F then c != 0x27
  else if c ≤ 0x39 then false
  else if c ≤ 0x3F then true
  else if c == 0x40 then true
  else if c ≤ 0x5A then false
  else if c ≤ 0x5E then true
  else if c == 0x5F then false
  else if c == 0x60 then false
  else if c ≤ 0x7A then false
  else if c ≤ 0x7E then true
  else false

/-- The table of §6 with its one entry changed to what `fts_ascii_word_breaks`
holds: `0x60` (backtick) breaks. -/
def spec_ascii_break_amended (c : Nat) : Bool :=
  if c == 0x60 then true else spec_ascii_break c

/-- The settings pair that §4.5 and §7 of the spec call a configuration error:
an unknown key, a `maxlen` that is no unsigned integer or is zero, an
`algorithm` other than `simple` and `tr29`. -/
def setting_invalid (kv : String × String) : Bool :=
  if kv.1 == "maxlen" then
    match str_to_uint kv.2 with
    | none => true
    | some v => v == 0
  else if kv.1 == "algorithm" then !(kv.2 == "simple" || kv.2 == "tr29")
  else !(kv.1 == "search")

/-- The fold of §4.4 in the spec's words: every U+2019 (`E2 80 99`) and every
U+FF07 (`EF BC 87`) becomes the single byte `0x27`, every other byte is copied. -/
def spec_fold : List Nat → List Nat
  | 0xE2 :: 0x80 :: 0x99 :: rest => 0x27 :: spec_fold rest
  | 0xEF :: 0xBC :: 0x87 :: rest => 0x27 :: spec_fold rest
  | b :: rest => b :: spec_fold rest
  | [] => []

/-- The rule table of §4.3.1 of the spec: whether category `lt` declares a
boundary after the history `prev`, `prev_prev`. The table has no row for the
two unused ordinals; its `NONE` row is the panic. -/
def spec_rule (lt prev prev_prev : LetterType) : Bool :=
  match lt with
  | LETTER_TYPE_NONE => false
  | LETTER_TYPE_CR => true
  | LETTER_TYPE_LF => true
  | LETTER_TYPE_NEWLINE => true
  | LETTER_TYPE_EXTEND => false
  | LETTER_TYPE_FORMAT => false
  | LETTER_TYPE_REGIONAL_INDICATOR => prev != LETTER_TYPE_REGIONAL_INDICATOR
  | LETTER_TYPE_KATAKANA =>
    !(prev == LETTER_TYPE_KATAKANA || prev == LETTER_TYPE_EXTENDNUMLET)
  | LETTER_TYPE_HEBREW_LETTER =>
    prev != LETTER_TYPE_HEBREW_LETTER &&
    !(prev_prev == LETTER_TYPE_HEBREW_LETTER &&
      (prev == LETTER_TYPE_SINGLE_QUOTE || prev == LETTER_TYPE_APOSTROPHE ||
       prev == LETTER_TYPE_MIDLETTER || prev == LETTER_TYPE_DOUBLE_QUOTE)) &&
    prev != LETTER_TYPE_NUMERIC && prev != LETTER_TYPE_EXTENDNUMLET
  | LETTER_TYPE_ALETTER =>
    prev != LETTER_TYPE_ALETTER &&
    !(prev_prev == LETTER_TYPE_ALETTER &&
      (prev == LETTER_TYPE_SINGLE_QUOTE || prev == LETTER_TYPE_APOSTROPHE ||
       prev == LETTER_TYPE_MIDLETTER)) &&
    prev != LETTER_TYPE_NUMERIC && prev != LETTER_TYPE_EXTENDNUMLET
  | LETTER_TYPE_SINGLE_QUOTE =>
    !(prev == LETTER_TYPE_ALETTER || prev == LETTER_TYPE_HEBREW_LETTER) &&
    prev != LETTER_TYPE_NUMERIC
  | LETTER_TYPE_DOUBLE_QUOTE => prev != LETTER_TYPE_DOUBLE_QUOTE
  | LETTER_TYPE_MIDNUMLET => true
  | LETTER_TYPE_MIDLETTER =>
    !(prev == LETTER_TYPE_ALETTER || prev == LETTER_TYPE_HEBREW_LETTER)
  | LETTER_TYPE_MIDNUM => prev != LETTER_TYPE_NUMERIC
  | LETTER_TYPE_NUMERIC =>
    prev != LETTER_TYPE_NUMERIC &&
    !(prev == LETTER_TYPE_ALETTER || prev == LETTER_TYPE_HEBREW_LETTER) &&
    !(prev_prev == LETTER_TYPE_NUMERIC &&
      (prev == LETTER_TYPE_MIDNUM || prev == LETTER_TYPE_MIDNUMLET ||
       prev == LETTER_TYPE_SINGLE_QUOTE)) &&
    prev != LETTER_TYPE_EXTENDNUMLET
  | LETTER_TYPE_EXTENDNUMLET =>
    !(prev == LETTER_TYPE_ALETTER || prev == LETTER_TYPE_HEBREW_LETTER ||
      prev == LETTER_TYPE_NUMERIC || prev == LETTER_TYPE_KATAKANA ||
      prev == LETTER_TYPE_EXTENDNUMLET)
  | LETTER_TYPE_SOT => false
  | LETTER_TYPE_EOT => false
  | LETTER_TYPE_APOSTROPHE =>
    !(prev == LETTER_TYPE_ALETTER || prev == LETTER_TYPE_HEBREW_LETTER)
  | LETTER_TYPE_OTHER => true

/-- The buffer without its last code point, in the words of §4.3.2 of the spec:
the trailing continuation bytes are removed, and then one lead byte. -/
def spec_drop_last (buf : List Nat) : List Nat :=
  ((buf.reverse.dropWhile is_continuation).drop 1).reverse

/-- Modelled from the spec: the word-break property tables of
`word-break-data.c` are generated at build time and are not under src/. This is
`tables_latin1` with the entries of U+3040..U+30FF added: U+3099, U+309A are
`Extend`; U+309B, U+309C, U+30A0..U+30FA and U+30FC..U+30FF are `Katakana`;
U+30A0 is also a `Dash`. The Hiragana letters U+3041..U+3096 are in no table. -/
def tables_kana : Tables :=
  { tables_latin1 with
    Dash := [0x2D, 0x30A0]
    Extend := [0x3099, 0x309A]
    Katakana := [0x309B, 0x309C] ++ (List.range 91).map (fun k => 0x30A0 + k)
      ++ [0x30FC, 0x30FD, 0x30FE, 0x30FF] }

/-! ## Code points as byte chunks -/

/-- The bytes `q` are exactly one well-formed code point, and `letter_type`
gives it the category `lt`. -/
def cp_has (tb : Tables) (lt : LetterType) (q : List Nat) : Bool :=
  match uni_utf8_get_char_n q with
  | some c => q.length == uni_utf8_char_bytes (q.headD 0) && letter_type tb c == lt
  | none => false

/-- The bytes begin with a well-formed code point of a token category
(`is_nontoken` is false for it). -/
def starts_with_token_cp (tb : Tables) (buf : List Nat) : Bool :=
  match uni_utf8_get_char_n buf with
  | some c => !is_nontoken (letter_type tb c)
  | none => false

/-- The buffer is the first `max_length` bytes of a code point of a token
category that is longer than `max_length` bytes: the cap has cut it. -/
def cut_token_cp (tb : Tables) (max_length : Nat) (buf : List Nat) : Prop :=
  ∃ l c, uni_utf8_get_char_n l = some c ∧ is_nontoken (letter_type tb c) = false ∧
    max_length < uni_utf8_char_bytes (l.headD 0) ∧ buf = l.take max_length

/-- The buffer of a TR29 tokenizer holds nothing, or begins with a code point
of a token category, whole or cut by the cap. -/
def tr29_head_inv (tb : Tables) (tok : generic_fts_tokenizer) : Prop :=
  tok.token = [] ∨ starts_with_token_cp tb tok.token = true ∨
    cut_token_cp tb tok.max_length tok.token

/-- The bytes `q` are exactly one well-formed code point, other than U+0000 and
other than the non-ASCII apostrophes U+2019 and U+FF07. -/
def text_cp (q : List Nat) : Bool :=
  match uni_utf8_get_char_n q with
  | some c => q.length == uni_utf8_char_bytes (q.headD 0) && !IS_NONASCII_APOSTROPHE c && c != 0
  | none => false

/-- The state inside the loop of `fts_tokenizer_generic_next_tr29`, at offset `i`
with the pending span starting at `start_skip`: what the buffer holds begins with
a code point of a token category, and with an empty buffer and a history the
pending span does. -/
def tr29_head_loop_inv (tb : Tables) (data : List Nat) (i start_skip : Nat)
    (tok : generic_fts_tokenizer) : Prop :=
  1 ≤ tok.max_length ∧ start_skip ≤ i ∧ tr29_head_inv tb tok ∧
  (tok.token = [] →
    (tok.prev_letter = LETTER_TYPE_NONE → start_skip = i) ∧
    (tok.prev_letter ≠ LETTER_TYPE_NONE →
      starts_with_token_cp tb (data.drop start_skip) = true ∧
      start_skip + uni_utf8_char_bytes ((data.drop start_skip).headD 0) ≤ i))

/-! ## Faults, and the state between calls -/

/-- `x.ensures_within S P`: the call returns a value that satisfies `P`, or stops
in a fault of the C code that satisfies `S`; the model's bound is never the
reason to stop. -/
def Outcome.ensures_within {α : Type} (S : Fault → Prop) (P : α → Prop) (x : Outcome α) : Prop :=
  match x with
  | .ok a => P a
  | .fault f => S f
  | .out_of_fuel => False

/-- The faults of the TR29 `next` other than `letter_panic` and the assertion
`tok->token->used == 0` of the leading-skip branch. -/
def tr29_other_fault : Fault → Bool
  | .unreached => true
  | .assert_start_skip => true
  | .assert_max_length => true
  | .read_before_buffer => true
  | .assert_len => true
  | .assert_pos => true
  | .assert_used => false
  | .letter_panic => false

/-- The state of a TR29 tokenizer between calls: the cap is positive, the
buffer is empty exactly when there is no history, and `prev_prev_letter` is
only set together with `prev_letter`. -/
def tr29_state_inv (tok : generic_fts_tokenizer) : Prop :=
  1 ≤ tok.max_length ∧ (tok.token = [] ↔ tok.prev_letter = LETTER_TYPE_NONE) ∧
  (tok.prev_prev_letter ≠ LETTER_TYPE_NONE → tok.prev_letter ≠ LETTER_TYPE_NONE)

/-- The same inside the loop of `fts_tokenizer_generic_next_tr29`, at offset `i`
with the pending span starting at `start_skip`: without a history nothing is
buffered or pending, with one something is. -/
def tr29_state_loop_inv (data : List Nat) (i start_skip : Nat) (tok : generic_fts_tokenizer) :
    Prop :=
  1 ≤ tok.max_length ∧ start_skip ≤ i ∧ i ≤ data.length ∧
  (tok.prev_prev_letter ≠ LETTER_TYPE_NONE → tok.prev_letter ≠ LETTER_TYPE_NONE) ∧
  (tok.prev_letter = LETTER_TYPE_NONE → tok.token = [] ∧ start_skip = i) ∧
  (tok.prev_letter ≠ LETTER_TYPE_NONE → tok.token ≠ [] ∨ start_skip < i)

/-- Modelled from the spec: the word-break property tables of
`word-break-data.c` are generated at build time and are not under src/. This is
`tables_latin1` with the entries of the Hebrew block U+0590..U+05FF added, as
Unicode's PropList.txt and WordBreakProperty.txt give them: U+05D0..U+05EA and
U+05EF..U+05F2 are `Hebrew_Letter`, U+05F3 is `ALetter`, U+05F4 is `MidLetter`,
the points U+0591..U+05C7 other than U+05BE, U+05C0, U+05C3 and U+05C6 are
`Extend`, U+05BE is a `Dash` and U+05C3 a `Terminal_Punctuation`. -/
def tables_hebrew : Tables :=
  { tables_latin1 with
    Dash := [0x2D, 0x5BE]
    Terminal_Punctuation := [0x21, 0x2C, 0x2E, 0x3A, 0x3B, 0x3F, 0x5C3]
    Extend := (List.range 45).map (fun k => 0x591 + k) ++ [0x5BF, 0x5C1, 0x5C2, 0x5C4, 0x5C5, 0x5C7]
    Hebrew_Letter := (List.range 27).map (fun k => 0x5D0 + k) ++ [0x5EF, 0x5F0, 0x5F1, 0x5F2]
    ALetter := tables_latin1.ALetter ++ [0x5F3]
    MidLetter := [0x3A, 0xB7, 0x5F4] }

/-! ## Theorems -/

@[simp] theorem Outcome.bind_ok {α β : Type} (a : α) (f : α → Outcome β) :
    (Outcome.ok a).bind f = f a := rfl

@[simp] theorem Outcome.bind_fault {α β : Type} (e : Fault) (f : α → Outcome β) :
    (Outcome.fault e : Outcome α).bind f = .fault e := rfl

@[simp] theorem Outcome.bind_out_of_fuel {α β : Type} (f : α → Outcome β) :
    (Outcome.out_of_fuel : Outcome α).bind f = .out_of_fuel := rfl

@[simp] theorem Outcome.ensures_ok {α : Type} (P : α → Prop) (a : α) :
    (Outcome.ok a).ensures P ↔ P a := Iff.rfl

@[simp] theorem Outcome.ensures_fault {α : Type} (P : α → Prop) (e : Fault) :
    (Outcome.fault e : Outcome α).ensures P ↔ True := Iff.rfl

@[simp] theorem Outcome.ensures_out_of_fuel {α : Type} (P : α → Prop) :
    (Outcome.out_of_fuel : Outcome α).ensures P ↔ False := Iff.rfl

theorem Outcome.ensures_bind {α β : Type} {x : Outcome α} {f : α → Outcome β}
    {Q : α → Prop} {P : β → Prop} (hx : x.ensures Q) (hf : ∀ a, Q a → (f a).ensures P) :
    (x.bind f).ensures P := by
  cases x with
  | ok a => exact hf a hx
  | fault e => trivial
  | out_of_fuel => exact hx

theorem Outcome.ensures_mono {α : Type} {x : Outcome α} {P Q : α → Prop}
    (hx : x.ensures P) (h : ∀ a, P a → Q a) : x.ensures Q := by
  cases x with
  | ok a => exact h a hx
  | fault e => trivial
  | out_of_fuel => exact hx

theorem Outcome.ensures_and {α : Type} {x : Outcome α} {P Q : α → Prop}
    (hp : x.ensures P) (hq : x.ensures Q) : x.ensures (fun a => P a ∧ Q a) := by
  cases x with
  | ok a => exact ⟨hp, hq⟩
  | fault e => trivial
  | out_of_fuel => exact hp

theorem Outcome.ensures_iff {α : Type} {x : Outcome α} {P : α → Prop} :
    x.ensures P ↔ x ≠ .out_of_fuel ∧ ∀ a, x = .ok a → P a := by
  cases x with
  | ok a => simp
  | fault e => simp
  | out_of_fuel => simp

theorem uni_utf8_char_bytes_pos (b : Nat) : 1 ≤ uni_utf8_char_bytes b := by
  unfold uni_utf8_char_bytes
  split_ifs <;> omega

/-! ### The buffer append -/

theorem tok_append_loop_ensures (data : List Nat) (append_len : Nat) (P : Nat × List Nat → Prop) (I : Nat → List Nat → Prop)
    (hstep : ∀ pos appended buf, I appended buf → pos < append_len → I (pos + 1) (buf ++ data.take pos ++ [0x27]))
    (hend : ∀ appended buf, I appended buf → P (appended, buf)) :
    ∀ fuel pos appended buf, append_len ≤ pos + fuel → I appended buf →
      (tok_append_loop data append_len fuel pos appended buf).ensures P := by
  intro fuel
  induction fuel with
  | zero =>
    intro pos appended buf hf hI
    simp only [tok_append_loop]
    rw [if_neg (by omega)]
    exact hend _ _ hI
  | succ n ih =>
    intro pos appended buf hf hI
    simp only [tok_append_loop]
    split_ifs with hlt
    · have hb := uni_utf8_char_bytes_pos (data.getD pos 0)
      cases hdec : uni_utf8_get_char_n (List.drop pos data) with
      | none => trivial
      | some c =>
        simp only []
        split_ifs
        · exact ih _ _ _ (by omega) (hstep _ _ _ hI hlt)
        · exact ih _ _ _ (by omega) hI
    · exact hend _ _ hI

theorem tok_append_truncated_ensures (tok : generic_fts_tokenizer) (sp : List Nat) :
    (tok_append_truncated tok sp).ensures (append_post tok sp) := by
  unfold tok_append_truncated
  split_ifs with hmax
  · trivial
  · refine Outcome.ensures_bind
      (Q := fun r => ∃ Y, r.2 = tok.token ++ Y ∧ (r.1 = 0 → Y = []) ∧
        (r.1 ≠ 0 → Y ≠ [] ∧ (Y.head? = sp.head? ∨ Y.head? = some 0x27))) ?_ ?_
    · refine tok_append_loop_ensures sp _ _
        (fun appended buf => ∃ Y, buf = tok.token ++ Y ∧ (appended = 0 → Y = []) ∧
          (appended ≠ 0 → Y ≠ [] ∧ (Y.head? = sp.head? ∨ Y.head? = some 0x27)))
        ?_ ?_ _ 0 0 tok.token (by omega) ⟨[], by simp, by simp, by simp⟩
      · rintro pos appended buf ⟨Y, hbuf, h0, h1⟩ hpos
        refine ⟨Y ++ sp.take pos ++ [0x27], by simp [hbuf], by omega, fun _ => ⟨by simp, ?_⟩⟩
        by_cases ha : appended = 0
        · have hY := h0 ha
          subst hY
          cases sp with
          | nil => simp at hpos
          | cons b rest =>
            cases pos with
            | zero => right; simp
            | succ p => left; simp
        · obtain ⟨hne, hh⟩ := h1 ha
          cases Y with
          | nil => exact absurd rfl hne
          | cons y ys => simpa using hh
      · intro appended buf h
        exact h
    · rintro ⟨appended, buf⟩ ⟨Y, hbuf, h0, h1⟩
      simp only at hbuf h0 h1
      have hroom : tok.token.length ≤ tok.max_length := by omega
      split_ifs with hlt
      · simp only [Outcome.ensures_ok, append_post, true_and]
        refine ⟨hroom, Y ++ (sp.drop appended).take (min sp.length (tok.max_length - tok.token.length) - appended),
          by simp [hbuf], ?_, ?_⟩
        · by_cases ha : appended = 0
          · have hY := h0 ha
            subst hY
            subst ha
            cases sp with
            | nil => left; simp
            | cons b rest =>
              right; left
              simp only [List.drop_zero, Nat.sub_zero, List.nil_append]
              have : 0 < min (b :: rest).length (tok.max_length - tok.token.length) := hlt
              obtain ⟨k, hk⟩ : ∃ k, min (b :: rest).length (tok.max_length - tok.token.length) = k + 1 :=
                ⟨_, (Nat.succ_pred_eq_of_pos this).symm⟩
              rw [hk]
              simp
          · obtain ⟨hne, hh⟩ := h1 ha
            cases Y with
            | nil => exact absurd rfl hne
            | cons y ys => right; simpa using hh
        · intro hsp hlen
          by_cases ha : appended = 0
          · have hY := h0 ha
            subst hY
            subst ha
            cases sp with
            | nil => exact absurd rfl hsp
            | cons b rest =>
              have : 0 < min (b :: rest).length (tok.max_length - tok.token.length) := hlt
              obtain ⟨k, hk⟩ : ∃ k, min (b :: rest).length (tok.max_length - tok.token.length) = k + 1 :=
                ⟨_, (Nat.succ_pred_eq_of_pos this).symm⟩
              simp only [List.drop_zero, Nat.sub_zero, List.nil_append, hk]
              simp
          · have := (h1 ha).1
            simp [this]
      · simp only [Outcome.ensures_ok, append_post, true_and]
        refine ⟨hroom, Y, hbuf, ?_, ?_⟩
        · by_cases ha : appended = 0
          · left; exact h0 ha
          · right; exact (h1 ha).2
        · intro hsp hlen
          by_cases ha : appended = 0
          · exfalso
            have : 0 < sp.length := List.length_pos.mpr hsp
            have : 0 < min sp.length (tok.max_length - tok.token.length) := by
              rw [Nat.lt_min]; omega
            omega
          · exact (h1 ha).1

/-! ### Returning the current token -/

theorem fts_uni_strndup_ensures (data : List Nat) :
    (fts_uni_strndup data).ensures (fun token_r => data.head? ≠ some 0 → token_r ≠ []) := by
  unfold fts_uni_strndup
  cases data with
  | nil => simp [uni_utf8_partial_strlen_n]
  | cons b rest =>
    simp only []
    generalize uni_utf8_partial_strlen_n (b :: rest) (b :: rest).length 0 = pos
    split_ifs with hpos
    · simp only [Outcome.ensures_ok, List.head?_cons, ne_eq, Option.some.injEq]
      intro hb
      obtain ⟨k, hk⟩ : ∃ k, pos = k + 1 := ⟨_, (Nat.succ_pred_eq_of_pos hpos).symm⟩
      simp [t_strndup, hk, List.takeWhile, hb]
    · trivial

theorem simple_current_token_ensures (tok : generic_fts_tokenizer) :
    (fts_tokenizer_generic_simple_current_token tok).ensures
      (fun r => r.1 = { tok with token := [] } ∧ (r.2.2 = true → r.2.1 ≠ [])) := by
  unfold fts_tokenizer_generic_simple_current_token
  simp only []
  split_ifs
  · simp
  · refine Outcome.ensures_bind (fts_uni_strndup_ensures _) ?_
    intro token_r _
    simp only [Outcome.ensures_ok, true_and]
    intro h hnil
    simp [hnil] at h

theorem tr29_trim_loop_ensures (data : List Nat) (len : Nat) :
    (tr29_trim_loop data len).ensures (fun _ => True) := by
  induction len with
  | zero => simp [tr29_trim_loop]
  | succ n ih =>
    simp only [tr29_trim_loop]
    split_ifs
    · exact ih
    · trivial

theorem tr29_current_token_ensures (tok : generic_fts_tokenizer) :
    (fts_tokenizer_generic_tr29_current_token tok).ensures
      (fun r => r.1 = { tok with prev_prev_letter := LETTER_TYPE_NONE,
                                 prev_letter := LETTER_TYPE_NONE, token := [] } ∧
        (tok.token.head? ≠ some 0 → r.2 ≠ [])) := by
  unfold fts_tokenizer_generic_tr29_current_token
  refine Outcome.ensures_bind (Q := fun _ => True) ?_ ?_
  · split_ifs
    · refine Outcome.ensures_bind (tr29_trim_loop_ensures _ _) ?_
      intro len _
      split_ifs <;> trivial
    · trivial
  · intro len _
    split_ifs with hlen
    · refine Outcome.ensures_bind (fts_uni_strndup_ensures _) ?_
      intro token_r htok
      simp only [Outcome.ensures_ok, true_and]
      intro hhead
      apply htok
      cases htk : tok.token with
      | nil => simp
      | cons b rest =>
        obtain ⟨k, hk⟩ : ∃ k, len = k + 1 := ⟨_, (Nat.succ_pred_eq_of_pos hlen).symm⟩
        rw [htk] at hhead
        simpa [hk] using hhead
    · trivial

/-! ### One call of the simple algorithm -/

theorem next_simple_finish_ensures (data : List Nat) (i start : Nat) (tok : generic_fts_tokenizer)
    (hi : data.length ≤ i) :
    (next_simple_finish data i start tok).ensures
      (fun r => next_post tok data r ∧ (r.ret = 1 → r.token ≠ [])) := by
  unfold next_simple_finish
  refine Outcome.ensures_bind (tok_append_truncated_ensures _ _) ?_
  rintro tok1 ⟨hm, ha, -⟩
  split_ifs
  · refine Outcome.ensures_bind (simple_current_token_ensures _) ?_
    rintro ⟨t, tk, b⟩ ⟨ht, hb⟩
    simp only at ht hb
    subst ht
    split_ifs with hb2
    · simp [next_post, hm, ha, hb hb2]
    · simp [next_post, hm, ha, hi]
  · simp [next_post, hm, ha, hi]

theorem next_simple_loop_ensures (tb : Tables) (data : List Nat) :
    ∀ fuel i start tok, data.length ≤ i + fuel →
      (next_simple_loop tb data fuel i start tok).ensures
        (fun r => next_post tok data r ∧ (r.ret = 1 → r.token ≠ [])) := by
  intro fuel
  induction fuel with
  | zero =>
    intro i start tok hf
    simp only [next_simple_loop]
    rw [if_neg (by omega)]
    exact next_simple_finish_ensures data i start tok (by omega)
  | succ n ih =>
    intro i start tok hf
    simp only [next_simple_loop]
    split_ifs with hlt
    · have hb := uni_utf8_char_bytes_pos (data.getD i 0)
      cases hdec : uni_utf8_get_char_n (List.drop i data) with
      | none => trivial
      | some c =>
        simp only []
        split_ifs with hbr
        · refine Outcome.ensures_bind (tok_append_truncated_ensures _ _) ?_
          rintro tok1 ⟨hm, ha, -⟩
          split_ifs
          · refine Outcome.ensures_bind (simple_current_token_ensures _) ?_
            rintro ⟨t, tk, b⟩ ⟨ht, hb'⟩
            simp only at ht hb'
            subst ht
            split_ifs with hb2
            · simp [next_post, hm, ha, hb' hb2]
            · refine Outcome.ensures_mono (ih _ _ _ (by omega)) ?_
              rintro r ⟨⟨h1, h2, h3⟩, h4⟩
              exact ⟨⟨h1, by simpa [hm] using h2, by simpa [ha] using h3⟩, h4⟩
          · refine Outcome.ensures_mono (ih _ _ _ (by omega)) ?_
            rintro r ⟨⟨h1, h2, h3⟩, h4⟩
            exact ⟨⟨h1, by simpa [hm] using h2, by simpa [ha] using h3⟩, h4⟩
        · refine Outcome.ensures_mono (ih _ _ _ (by omega)) ?_
          rintro r ⟨⟨h1, h2, h3⟩, h4⟩
          exact ⟨⟨h1, h2, h3⟩, h4⟩
        · refine Outcome.ensures_mono (ih _ _ _ (by omega)) ?_
          rintro r ⟨⟨h1, h2, h3⟩, h4⟩
          exact ⟨⟨h1, h2, h3⟩, h4⟩
    · exact next_simple_finish_ensures data i start tok (by omega)

/-! ### One call of the TR29 algorithm -/

theorem uni_utf8_get_char_n_some {l : List Nat} {c : Nat} (h : uni_utf8_get_char_n l = some c) :
    uni_utf8_char_bytes (l.headD 0) ≤ l.length ∧ (l.headD 0 = 0 → c = 0) := by
  unfold uni_utf8_char_bytes
  rcases l with _ | ⟨b0, _ | ⟨b1, _ | ⟨b2, _ | ⟨b3, r3⟩⟩⟩⟩ <;>
    simp only [uni_utf8_get_char_n] at h <;>
    simp only [List.headD_cons, List.length_cons, List.length_nil] <;>
    (try split_ifs at h) <;>
    first
    | exact Option.noConfusion h
    | (simp only [Option.some.injEq] at h
       refine ⟨by split_ifs <;> omega, fun hb => by omega⟩)

theorem getD_eq_headD_drop (data : List Nat) (i : Nat) :
    data.getD i 0 = (data.drop i).headD 0 := by
  induction data generalizing i with
  | nil => simp
  | cons b rest ih =>
    cases i with
    | zero => simp
    | succ k => simp [ih k]

theorem span_self (data : List Nat) (s : Nat) : span data s s = [] := by
  simp [span]

theorem span_head (data : List Nat) {s i : Nat} (hs : s < i) (hi : s < data.length) :
    span data s i ≠ [] ∧ (span data s i).head? = some (data.getD s 0) := by
  unfold span
  obtain ⟨k, hk⟩ : ∃ k, i - s = k + 1 := ⟨i - s - 1, by omega⟩
  rw [hk, getD_eq_headD_drop]
  cases hd : List.drop s data with
  | nil =>
    have := congrArg List.length hd
    simp at this
    omega
  | cons b rest => simp

theorem ite_ne_of_ne {α : Type} {c : Prop} [Decidable c] {a b x : α} (ha : a ≠ x) (hb : b ≠ x) :
    (if c then a else b) ≠ x := by
  split_ifs <;> assumption

theorem letter_type_ne_none (tb : Tables) (c : Nat) : letter_type tb c ≠ LETTER_TYPE_NONE := by
  unfold letter_type
  repeat (refine ite_ne_of_ne (by decide) ?_)
  decide

/-- The entry of `letter_fns` a letter type selects. -/
theorem letter_fns_dispatch (lt : LetterType) :
    letter_fns.getD lt.ordinal letter_panic =
      match lt with
      | LETTER_TYPE_NONE => letter_panic
      | LETTER_TYPE_CR => letter_cr_lf_newline
      | LETTER_TYPE_LF => letter_cr_lf_newline
      | LETTER_TYPE_NEWLINE => letter_cr_lf_newline
      | LETTER_TYPE_EXTEND => letter_extend_format
      | LETTER_TYPE_REGIONAL_INDICATOR => letter_regional_indicator
      | LETTER_TYPE_FORMAT => letter_extend_format
      | LETTER_TYPE_KATAKANA => letter_katakana
      | LETTER_TYPE_HEBREW_LETTER => letter_hebrew
      | LETTER_TYPE_ALETTER => letter_aletter
      | LETTER_TYPE_SINGLE_QUOTE => letter_single_quote
      | LETTER_TYPE_DOUBLE_QUOTE => letter_double_quote
      | LETTER_TYPE_MIDNUMLET => letter_midnumlet
      | LETTER_TYPE_MIDLETTER => letter_midletter
      | LETTER_TYPE_MIDNUM => letter_midnum
      | LETTER_TYPE_NUMERIC => letter_numeric
      | LETTER_TYPE_EXTENDNUMLET => letter_extendnumlet
      | LETTER_TYPE_SOT => letter_panic
      | LETTER_TYPE_EOT => letter_panic
      | LETTER_TYPE_APOSTROPHE => letter_apostrophe
      | LETTER_TYPE_OTHER => letter_other := by
  cases lt <;> rfl

theorem letter_fns_ensures (lt : LetterType) (tok : generic_fts_tokenizer) :
    ((letter_fns.getD lt.ordinal letter_panic) tok).ensures (fun _ => True) := by
  rw [letter_fns_dispatch]
  cases lt <;>
    simp only [letter_panic, letter_cr_lf_newline, letter_extend_format, letter_regional_indicator,
      letter_katakana, letter_hebrew, letter_aletter, letter_single_quote, letter_double_quote,
      letter_midnumlet, letter_midletter, letter_midnum, letter_numeric, letter_extendnumlet,
      letter_apostrophe, letter_other] <;>
    (try split_ifs) <;> trivial

theorem uni_found_word_boundary_ensures (tok : generic_fts_tokenizer) (lt : LetterType) :
    (uni_found_word_boundary tok lt).ensures (fun r =>
      (r.2 = true → r.1 = tok ∧ tok.prev_letter ≠ LETTER_TYPE_NONE) ∧
      (r.2 = false → r.1.max_length = tok.max_length ∧ r.1.algorithm = tok.algorithm ∧
        r.1.token = tok.token ∧
        ((lt = LETTER_TYPE_EXTEND ∨ lt = LETTER_TYPE_FORMAT) → r.1 = tok) ∧
        (¬ (lt = LETTER_TYPE_EXTEND ∨ lt = LETTER_TYPE_FORMAT) → r.1.prev_letter = lt))) := by
  unfold uni_found_word_boundary
  refine Outcome.ensures_bind
    (Q := fun found => found = true → tok.prev_letter ≠ LETTER_TYPE_NONE) ?_ ?_
  · split_ifs with hp
    · refine Outcome.ensures_mono (letter_fns_ensures lt tok) ?_
      intro _ _ _
      simpa using hp
    · simp
  · intro found hfound
    split_ifs with h1 h2
    · simp [hfound h1]
    · simp only [Bool.or_eq_true, beq_iff_eq] at h2
      simp [h2]
    · simp only [Bool.or_eq_true, beq_iff_eq] at h2
      simp only [Outcome.ensures_ok, reduceCtorEq, false_implies, true_and, forall_const]
      unfold add_prev_letter
      split_ifs <;> simp [h2]

theorem tr29_appended_head {data : List Nat} {i start_skip : Nat} {tok tok1 : generic_fts_tokenizer}
    (hJ : tr29_loop_inv data i start_skip tok)
    (hp : append_post tok (span data start_skip i) tok1) :
    tok1.max_length = tok.max_length ∧ tok1.algorithm = tok.algorithm ∧
    tok1.prev_letter = tok.prev_letter ∧ tok1.prev_prev_letter = tok.prev_prev_letter ∧
    tok1.token.head? ≠ some 0 ∧ (tok.prev_letter ≠ LETTER_TYPE_NONE → tok1.token ≠ []) := by
  obtain ⟨hmax, hhead, hi, hs, hempty⟩ := hJ
  obtain ⟨h1, h2, h3, h4, hroom, X, hX, hXh, hXne⟩ := hp
  refine ⟨h1, h2, h3, h4, ?_, ?_⟩
  · rw [hX]
    cases htk : tok.token with
    | cons b rest => rw [htk] at hhead; simpa using hhead
    | nil =>
      simp only [List.nil_append]
      obtain ⟨hn, hnn⟩ := hempty htk
      rcases hXh with hx | hx | hx
      · simp [hx]
      · rw [hx]
        by_cases hpl : tok.prev_letter = LETTER_TYPE_NONE
        · rw [hn hpl, span_self]; simp
        · obtain ⟨hlt, hd⟩ := hnn hpl
          rw [(span_head data hlt (by omega)).2]
          simpa using hd
      · rw [hx]; simp
  · intro hpl
    rw [hX]
    cases htk : tok.token with
    | cons b rest => simp
    | nil =>
      obtain ⟨hlt, hd⟩ := (hempty htk).2 hpl
      simp only [List.nil_append]
      exact hXne (span_head data hlt (by omega)).1 (by rw [htk]; simpa using hmax)

theorem next_tr29_finish_ensures (data : List Nat) (i start_skip : Nat)
    (tok : generic_fts_tokenizer) (hJ : tr29_loop_inv data i start_skip tok)
    (hi : data.length ≤ i) :
    (next_tr29_finish data i start_skip tok).ensures
      (fun r => next_post tok data r ∧ (r.ret = 1 → r.token ≠ []) ∧ tr29_inv r.tok) := by
  unfold next_tr29_finish
  split_ifs
  · trivial
  · refine Outcome.ensures_bind (tok_append_truncated_ensures _ _) ?_
    intro tok1 hp
    obtain ⟨h1, h2, h3, h4, hhead, hne⟩ := tr29_appended_head hJ hp
    split_ifs
    · refine Outcome.ensures_bind (tr29_current_token_ensures _) ?_
      rintro ⟨t, tk⟩ ⟨ht, htk⟩
      simp only at ht htk
      subst ht
      simp only [Outcome.ensures_ok, next_post, tr29_inv, true_or, true_and, forall_const]
      refine ⟨⟨h1, h2⟩, htk hhead, ?_, by simp, by simp⟩
      rw [h1]; exact hJ.1
    · simp only [Outcome.ensures_ok, next_post, tr29_inv]
      refine ⟨⟨Or.inr ⟨by simp, hi⟩, h1, h2⟩, by simp, ?_, hhead, ?_⟩
      · rw [h1]; exact hJ.1
      · rw [h3]; exact hne

theorem next_tr29_loop_ensures (tb : Tables) (data : List Nat)
    (h0 : is_nontoken (letter_type tb 0) = true) :
    ∀ fuel i start_skip tok, data.length ≤ i + fuel → tr29_loop_inv data i start_skip tok →
      (next_tr29_loop tb data fuel i start_skip tok).ensures
        (fun r => next_post tok data r ∧ (r.ret = 1 → r.token ≠ []) ∧ tr29_inv r.tok) := by
  intro fuel
  induction fuel with
  | zero =>
    intro i start_skip tok hf hJ
    simp only [next_tr29_loop]
    rw [if_neg (by omega)]
    exact next_tr29_finish_ensures data i start_skip tok hJ (by omega)
  | succ n ih =>
    intro i start_skip tok hf hJ
    simp only [next_tr29_loop]
    by_cases hlt : i < data.length
    · rw [if_pos hlt]
      have hb := uni_utf8_char_bytes_pos (data.getD i 0)
      cases hdec : uni_utf8_get_char_n (List.drop i data) with
      | none => trivial
      | some c =>
        simp only []
        obtain ⟨hcb, hc0⟩ := uni_utf8_get_char_n_some hdec
        rw [← getD_eq_headD_drop] at hcb hc0
        simp only [List.length_drop] at hcb
        have hi' : i + uni_utf8_char_bytes (data.getD i 0) ≤ data.length := by omega
        obtain ⟨hmax, hhead, hi, hs, hempty⟩ := hJ
        by_cases hskip : (tok.prev_letter == LETTER_TYPE_NONE && is_nontoken (letter_type tb c)) = true
        · -- a leading non-token code point is skipped
          rw [if_pos hskip]
          simp only [Bool.and_eq_true, beq_iff_eq] at hskip
          by_cases hused : (tok.token.length == 0) = true
          · rw [if_pos hused]
            refine ih _ _ _ (by omega) ⟨hmax, hhead, hi', le_refl _, ?_⟩
            intro _
            exact ⟨fun _ => rfl, fun hne => absurd hskip.1 hne⟩
          · rw [if_neg hused]
            trivial
        · rw [if_neg hskip]
          simp only [Bool.and_eq_true, beq_iff_eq, not_and] at hskip
          refine Outcome.ensures_bind (uni_found_word_boundary_ensures _ _) ?_
          rintro ⟨t, found⟩ ⟨hT, hF⟩
          simp only at hT hF
          by_cases hfound : found = true
          · -- a boundary: the span is appended and the token returned
            simp only [hfound, if_true]
            obtain ⟨ht, hprev⟩ := hT hfound
            subst ht
            split_ifs with hassert
            · trivial
            · refine Outcome.ensures_bind (tok_append_truncated_ensures _ _) ?_
              intro tok1 hp
              obtain ⟨h1, h2, h3, h4, hhead1, hne⟩ :=
                tr29_appended_head (i := i) ⟨hmax, hhead, hi, hs, hempty⟩ hp
              refine Outcome.ensures_bind (tr29_current_token_ensures _) ?_
              rintro ⟨t2, tk⟩ ⟨ht2, htk⟩
              simp only at ht2 htk
              subst ht2
              simp only [Outcome.ensures_ok, next_post, tr29_inv, true_or, true_and, forall_const]
              exact ⟨⟨h1, h2⟩, htk hhead1, by rw [h1]; exact hmax, by simp, by simp⟩
          · -- no boundary: the history moves on
            have hfound' : found = false := by simpa using hfound
            simp only [hfound', Bool.false_eq_true, if_false]
            obtain ⟨hm, ha, htok, hext, hnext⟩ := hF hfound'
            have hJ' : tr29_loop_inv data (i + uni_utf8_char_bytes (data.getD i 0)) start_skip t := by
              refine ⟨by rw [hm]; exact hmax, by rw [htok]; exact hhead, hi', by omega, ?_⟩
              intro htnil
              rw [htok] at htnil
              obtain ⟨hn, hnn⟩ := hempty htnil
              by_cases hx : letter_type tb c = LETTER_TYPE_EXTEND ∨ letter_type tb c = LETTER_TYPE_FORMAT
              · have := hext hx
                subst this
                have hpl : t.prev_letter ≠ LETTER_TYPE_NONE := by
                  intro hpl
                  have := hskip hpl
                  rcases hx with hx | hx <;> rw [hx] at this <;> simp [is_nontoken] at this
                refine ⟨fun h => absurd h hpl, fun _ => ?_⟩
                obtain ⟨hlt2, hd⟩ := hnn hpl
                exact ⟨by omega, hd⟩
              · have hpl := hnext hx
                have hne : t.prev_letter ≠ LETTER_TYPE_NONE := by
                  rw [hpl]; exact letter_type_ne_none tb c
                refine ⟨fun h => absurd h hne, fun _ => ?_⟩
                by_cases hq : tok.prev_letter = LETTER_TYPE_NONE
                · have hsi := hn hq
                  subst hsi
                  refine ⟨by omega, ?_⟩
                  intro hz
                  have hcz := hc0 hz
                  subst hcz
                  have := hskip hq
                  rw [h0] at this
                  exact this rfl
                · obtain ⟨hlt2, hd⟩ := hnn hq
                  exact ⟨by omega, hd⟩
            refine Outcome.ensures_mono (ih _ _ _ (by omega) hJ') ?_
            rintro r ⟨⟨q1, q2, q3⟩, q4, q5⟩
            exact ⟨⟨q1, by rw [q2, hm], by rw [q3, ha]⟩, q4, q5⟩
    · rw [if_neg hlt]
      exact next_tr29_finish_ensures data i start_skip tok hJ (by omega)

/-! ### C1 to C5: the apostrophe fold of `tok_append_truncated` at concrete inputs

At a non-ASCII apostrophe found at offset `pos` the loop appends `data[0 .. pos)`,
the bytes from the start of the span and not from `appended`, and then sets
`appended = pos + 1`, one byte and not the three of the code point. -/

/-- C1. Chunk-invariance fails on the code: with `maxlen = 30`, the simple
algorithm turns the valid UTF-8 input `a’b’c` (two U+2019) fed as one chunk into
one token, and fed as the chunks `a’b`, `’c`, which end on code point
boundaries, into a different token. -/
theorem chunk_invariance_two_apostrophes (tb : Tables) :
    valid_utf8 [0x61, 0xE2, 0x80, 0x99, 0x62, 0xE2, 0x80, 0x99, 0x63] = true ∧
    valid_utf8 [0x61, 0xE2, 0x80, 0x99, 0x62] = true ∧
    valid_utf8 [0xE2, 0x80, 0x99, 0x63] = true ∧
    [0x61, 0xE2, 0x80, 0x99, 0x62, 0xE2, 0x80, 0x99, 0x63] =
      [0x61, 0xE2, 0x80, 0x99, 0x62] ++ [0xE2, 0x80, 0x99, 0x63] ∧
    tokenize tb (fresh 30 BOUNDARY_ALGORITHM_SIMPLE)
        [[0x61, 0xE2, 0x80, 0x99, 0x62, 0xE2, 0x80, 0x99, 0x63]] =
      .ok [[0x61, 0x27, 0x61, 0xE2, 0x80, 0x99, 0x62, 0x27, 0x80, 0x99, 0x63]] ∧
    tokenize tb (fresh 30 BOUNDARY_ALGORITHM_SIMPLE)
        [[0x61, 0xE2, 0x80, 0x99, 0x62], [0xE2, 0x80, 0x99, 0x63]] =
      .ok [[0x61, 0x27, 0x80, 0x99, 0x62, 0x27, 0x80, 0x99, 0x63]] ∧
    tokenize tb (fresh 30 BOUNDARY_ALGORITHM_SIMPLE)
        [[0x61, 0xE2, 0x80, 0x99, 0x62, 0xE2, 0x80, 0x99, 0x63]] ≠
      tokenize tb (fresh 30 BOUNDARY_ALGORITHM_SIMPLE)
        [[0x61, 0xE2, 0x80, 0x99, 0x62], [0xE2, 0x80, 0x99, 0x63]] :=
  ⟨rfl, rfl, rfl, rfl, rfl, rfl,
    (by decide :
      (Outcome.ok [[0x61, 0x27, 0x61, 0xE2, 0x80, 0x99, 0x62, 0x27, 0x80, 0x99, 0x63]] :
        Outcome (List (List Nat))) ≠
      Outcome.ok [[0x61, 0x27, 0x80, 0x99, 0x62, 0x27, 0x80, 0x99, 0x63]])⟩

/-- C2. The length cap fails on the code: with `max_length = 9` and an empty
buffer, `tok_append_truncated` on the 9-byte span `a’b’c` leaves 11 bytes in the
buffer, and `next` on `a’b’c ` returns that 11-byte token. -/
theorem length_cap_two_apostrophes (tb : Tables) :
    tok_append_truncated (fresh 9 BOUNDARY_ALGORITHM_SIMPLE)
        [0x61, 0xE2, 0x80, 0x99, 0x62, 0xE2, 0x80, 0x99, 0x63] =
      .ok { fresh 9 BOUNDARY_ALGORITHM_SIMPLE with
            token := [0x61, 0x27, 0x61, 0xE2, 0x80, 0x99, 0x62, 0x27, 0x80, 0x99, 0x63] } ∧
    fts_tokenizer_next tb (fresh 9 BOUNDARY_ALGORITHM_SIMPLE)
        [0x61, 0xE2, 0x80, 0x99, 0x62, 0xE2, 0x80, 0x99, 0x63, 0x20] =
      .ok ⟨fresh 9 BOUNDARY_ALGORITHM_SIMPLE, 1, 10,
        [0x61, 0x27, 0x61, 0xE2, 0x80, 0x99, 0x62, 0x27, 0x80, 0x99, 0x63]⟩ ∧
    9 < [0x61, 0x27, 0x61, 0xE2, 0x80, 0x99, 0x62, 0x27, 0x80, 0x99, 0x63].length :=
  ⟨rfl, rfl, by decide⟩

/-- C3. UTF-8 output fails on the code: with `maxlen = 30`, the simple
algorithm turns the valid UTF-8 input `don’t stop` (one U+2019) into the tokens
`don'` `0x80 0x99` `t` and `stop`; the first is not valid UTF-8, the two
continuation bytes of the apostrophe are still in it. -/
theorem utf8_output_one_apostrophe (tb : Tables) :
    valid_utf8 [0x64, 0x6F, 0x6E, 0xE2, 0x80, 0x99, 0x74, 0x20, 0x73, 0x74, 0x6F, 0x70] = true ∧
    tokenize tb (fresh 30 BOUNDARY_ALGORITHM_SIMPLE)
        [[0x64, 0x6F, 0x6E, 0xE2, 0x80, 0x99, 0x74, 0x20, 0x73, 0x74, 0x6F, 0x70]] =
      .ok [[0x64, 0x6F, 0x6E, 0x27, 0x80, 0x99, 0x74], [0x73, 0x74, 0x6F, 0x70]] ∧
    valid_utf8 [0x64, 0x6F, 0x6E, 0x27, 0x80, 0x99, 0x74] = false :=
  ⟨rfl, rfl, rfl⟩

/-- C4. The apostrophe fold fails on the code: with `maxlen = 30`, the simple
algorithm turns the valid UTF-8 input `a’b’c` followed by a space into one token
that still holds the bytes `E2 80 99` of U+2019. -/
theorem apostrophe_fold_two_apostrophes (tb : Tables) :
    tokenize tb (fresh 30 BOUNDARY_ALGORITHM_SIMPLE)
        [[0x61, 0xE2, 0x80, 0x99, 0x62, 0xE2, 0x80, 0x99, 0x63, 0x20]] =
      .ok [[0x61, 0x27, 0x61] ++ [0xE2, 0x80, 0x99] ++ [0x62, 0x27, 0x80, 0x99, 0x63]] ∧
    [0xE2, 0x80, 0x99] <:+:
      [0x61, 0x27, 0x61] ++ [0xE2, 0x80, 0x99] ++ [0x62, 0x27, 0x80, 0x99, 0x63] :=
  ⟨rfl, ⟨[0x61, 0x27, 0x61], [0x62, 0x27, 0x80, 0x99, 0x63], rfl⟩⟩

set_option maxRecDepth 100000 in
/-- C5. A simple-mode token can end with `0x27`: with `maxlen = 3` the input
`a'é` followed by a space (U+00E9 is two bytes and no break code point) leaves
`a'` `0xC3` in the buffer; the trailing apostrophes are stripped first, there are
none, and only then `fts_uni_strndup` drops the partial code point, so the token
returned is `a'`. -/
theorem simple_token_ends_with_apostrophe :
    valid_utf8 [0x61, 0x27, 0xC3, 0xA9, 0x20] = true ∧
    fts_uni_word_break tables_latin1 0xE9 = false ∧
    tokenize tables_latin1 (fresh 3 BOUNDARY_ALGORITHM_SIMPLE) [[0x61, 0x27, 0xC3, 0xA9, 0x20]] =
      .ok [[0x61, 0x27]] ∧
    [0x61, 0x27].getLast? = some 0x27 :=
  ⟨by decide, by decide, by decide, rfl⟩

/-! ### C6: the simple algorithm on plain ASCII text -/

theorem ascii_get_char {b : Nat} (h : b < 0x80) (l : List Nat) :
    uni_utf8_get_char_n (b :: l) = some b := by
  simp [uni_utf8_get_char_n, h]

theorem ascii_char_bytes {b : Nat} (h : b < 0x80) : uni_utf8_char_bytes b = 1 := by
  unfold uni_utf8_char_bytes
  rw [if_pos (by omega)]

theorem drop_eq_getD_cons {data : List Nat} {i : Nat} (h : i < data.length) :
    data.drop i = data.getD i 0 :: data.drop (i + 1) := by
  induction data generalizing i with
  | nil => simp at h
  | cons b rest ih =>
    cases i with
    | zero => simp
    | succ k =>
      simp only [List.length_cons, Nat.add_lt_add_iff_right] at h
      simpa using ih h

theorem getD_mem {data : List Nat} {i : Nat} (h : i < data.length) : data.getD i 0 ∈ data := by
  have := drop_eq_getD_cons h
  have hm : data.getD i 0 ∈ data.drop i := by rw [this]; simp
  exact List.mem_of_mem_drop hm

theorem span_succ {data : List Nat} {start i : Nat} (hs : start ≤ i) (hi : i < data.length) :
    span data start (i + 1) = span data start i ++ [data.getD i 0] := by
  unfold span
  have h1 : i + 1 - start = (i - start) + 1 := by omega
  rw [h1, List.take_succ]
  congr 1
  have h2 : (List.drop start data)[i - start]? = some (data.getD i 0) := by
    rw [List.getElem?_drop]
    have : start + (i - start) = i := by omega
    rw [this, List.getD_eq_getElem?_getD, List.getElem?_eq_getElem hi]
    simp
  rw [h2]
  rfl

theorem span_subset {data : List Nat} {start i : Nat} : ∀ b ∈ span data start i, b ∈ data := by
  intro b hb
  unfold span at hb
  exact List.mem_of_mem_drop (List.mem_of_mem_take hb)

theorem tok_append_loop_ascii (data : List Nat) (append_len : Nat)
    (hascii : ∀ b ∈ data, b < 0x80) (hlen : append_len ≤ data.length) :
    ∀ fuel pos buf, append_len ≤ pos + fuel →
      tok_append_loop data append_len fuel pos 0 buf = .ok (0, buf) := by
  intro fuel
  induction fuel with
  | zero =>
    intro pos buf hf
    simp only [tok_append_loop]
    rw [if_neg (by omega)]
  | succ n ih =>
    intro pos buf hf
    simp only [tok_append_loop]
    by_cases hlt : pos < append_len
    · rw [if_pos hlt]
      have hpos : pos < data.length := by omega
      have hb := hascii _ (getD_mem hpos)
      rw [drop_eq_getD_cons hpos, ascii_get_char hb, ascii_char_bytes hb]
      have hna : IS_NONASCII_APOSTROPHE (data.getD pos 0) = false := by
        simp only [IS_NONASCII_APOSTROPHE, Bool.or_eq_false_iff, beq_eq_false_iff_ne]
        omega
      simp only [hna]
      exact ih _ _ (by omega)
    · rw [if_neg hlt]

theorem tok_append_truncated_ascii (tok : generic_fts_tokenizer) (u : List Nat)
    (hascii : ∀ b ∈ u, b < 0x80) (hroom : tok.token.length ≤ tok.max_length) :
    tok_append_truncated tok u =
      .ok { tok with token := tok.token ++ u.take (tok.max_length - tok.token.length) } := by
  unfold tok_append_truncated
  rw [if_neg (by omega)]
  simp only []
  rw [tok_append_loop_ascii u _ hascii (Nat.min_le_left _ _) _ _ _ (by omega)]
  simp only [Outcome.bind_ok, List.drop_zero, Nat.sub_zero]
  have htake : u.take (min u.length (tok.max_length - tok.token.length))
      = u.take (tok.max_length - tok.token.length) := by
    rw [List.take_eq_take]
    simp [Nat.min_comm]
  split_ifs with h
  · rw [htake]
  · have h0 : min u.length (tok.max_length - tok.token.length) = 0 := by omega
    rw [← htake, h0]
    simp

theorem take_append_take (w u : List Nat) (m : Nat) :
    w.take m ++ u.take (m - (w.take m).length) = (w ++ u).take m := by
  rw [List.take_append_eq_append_take]
  by_cases h : w.length ≤ m
  · rw [List.take_of_length_le h]
  · have h1 : (w.take m).length = m := by
      rw [List.length_take]; omega
    have h2 : m - w.length = 0 := by omega
    rw [h1, h2]
    simp

theorem partial_strlen_ascii (l : List Nat) (hascii : ∀ b ∈ l, b < 0x80) :
    ∀ fuel i, i ≤ l.length → l.length ≤ i + fuel → uni_utf8_partial_strlen_n l fuel i = l.length := by
  intro fuel
  induction fuel with
  | zero =>
    intro i h1 h2
    simp only [uni_utf8_partial_strlen_n]
    omega
  | succ n ih =>
    intro i h1 h2
    simp only [uni_utf8_partial_strlen_n]
    by_cases hlt : i < l.length
    · rw [if_pos hlt, ascii_char_bytes (hascii _ (getD_mem hlt)), if_neg (by omega)]
      exact ih _ (by omega) (by omega)
    · rw [if_neg hlt]
      omega


theorem word_bytes_take {w : List Nat} (h : word_bytes w) (m : Nat) : word_bytes (w.take m) :=
  fun b hb => h b (List.mem_of_mem_take hb)

theorem word_bytes_ne_zero {w : List Nat} (h : word_bytes w) : ∀ b ∈ w, b ≠ 0 := by
  intro b hb h0
  have := (h b hb).2.2
  rw [h0] at this
  exact absurd this (by decide)

theorem simple_current_token_ascii (tok : generic_fts_tokenizer) (hne : tok.token ≠ [])
    (hw : word_bytes tok.token) :
    fts_tokenizer_generic_simple_current_token tok =
      .ok ({ tok with token := [] }, tok.token, true) := by
  unfold fts_tokenizer_generic_simple_current_token
  have h1 : tok.token.rdropWhile (fun b => b == 0x27) = tok.token := by
    rw [List.rdropWhile_eq_self_iff]
    intro hl
    have := (hw _ (List.getLast_mem hl)).2.1
    simpa using this
  have h2 : tok.token.dropWhile (fun b => b == 0x27) = tok.token := by
    cases htk : tok.token with
    | nil => rfl
    | cons b rest =>
      have hb : (b == 0x27) = false := by
        simpa using (hw b (by rw [htk]; simp)).2.1
      simp [List.dropWhile, hb]
  simp only [h1, h2]
  rw [if_neg (by simpa using hne)]
  have hs : fts_uni_strndup tok.token = .ok tok.token := by
    unfold fts_uni_strndup
    simp only []
    rw [partial_strlen_ascii _ (fun b hb => (hw b hb).1) _ _ (Nat.zero_le _) (by omega)]
    rw [if_pos (List.length_pos.mpr hne)]
    congr 1
    unfold t_strndup
    rw [List.take_length, List.takeWhile_eq_self_iff]
    intro b hb
    simpa using word_bytes_ne_zero hw b hb
  rw [hs]
  simp only [Outcome.bind_ok]
  congr 3
  cases htk : tok.token with
  | nil => exact absurd htk hne
  | cons b rest =>
    simpa using word_bytes_ne_zero hw b (by rw [htk]; simp)

theorem simple_break_ascii (tb : Tables) (tok : generic_fts_tokenizer) {b : Nat}
    (h : b < 0x80 ∧ b ≠ 0x27) :
    IS_APOSTROPHE b = false ∧
      fts_simple_is_word_break tb tok b false = ascii_break b := by
  have ha : IS_APOSTROPHE b = false := by
    simp only [IS_APOSTROPHE, IS_NONASCII_APOSTROPHE, Bool.or_eq_false_iff, beq_eq_false_iff_ne]
    omega
  refine ⟨ha, ?_⟩
  unfold fts_simple_is_word_break
  simp only [Bool.false_eq_true, if_false]
  rw [if_pos h.1]
  rfl

theorem tok_eta_prev {tok : generic_fts_tokenizer} (h : tok.prev_letter = LETTER_TYPE_NONE) :
    { tok with prev_letter := LETTER_TYPE_NONE } = tok := by
  cases tok
  simp only at h
  simp [h]

theorem tok_eta_token {tok : generic_fts_tokenizer} {t : List Nat} (h : tok.token = t) :
    { tok with token := t } = tok := by
  cases tok
  simp only at h
  simp [h]


theorem tok_append_truncated_word (tok : generic_fts_tokenizer) (m : Nat) (w u : List Nat)
    (hm : tok.max_length = m) (ht : tok.token = w.take m) (hascii : ∀ b ∈ u, b < 0x80) :
    tok_append_truncated tok u = .ok { tok with token := (w ++ u).take m } := by
  have hroom : tok.token.length ≤ tok.max_length := by
    rw [ht, hm, List.length_take]; omega
  rw [tok_append_truncated_ascii tok u hascii hroom, hm, ht, take_append_take]

theorem next_simple_finish_ascii (data : List Nat) (m : Nat) (hascii : ascii_text data)
    (hne : data ≠ []) (i start : Nat) (tok : generic_fts_tokenizer) (w : List Nat)
    (hi : i = data.length) (hm : tok.max_length = m) (ht : tok.token = w.take m) :
    next_simple_finish data i start tok =
      .ok (ascii_result m tok data.length (simple_ascii_call m (w ++ span data start i) [])) := by
  unfold next_simple_finish
  rw [tok_append_truncated_word tok m w _ hm ht (fun b hb => (hascii b (span_subset b hb)).1)]
  have hlen : (data.length == 0) = false := by
    simpa using hne
  simp only [Outcome.bind_ok, hlen, Bool.false_and, Bool.false_eq_true, if_false]
  simp [ascii_result, simple_ascii_call, hi]

theorem next_simple_loop_ascii (tb : Tables) (data : List Nat) (m : Nat)
    (hascii : ascii_text data) (hm1 : 1 ≤ m) (hne : data ≠ []) :
    ∀ fuel i start tok w, data.length ≤ i + fuel → start ≤ i → i ≤ data.length →
      tok.max_length = m → tok.prev_letter = LETTER_TYPE_NONE → tok.token = w.take m →
      word_bytes (w ++ span data start i) →
      next_simple_loop tb data fuel i start tok =
        .ok (ascii_result m tok data.length
          (simple_ascii_call m (w ++ span data start i) (data.drop i))) := by
  intro fuel
  induction fuel with
  | zero =>
    intro i start tok w hf hs hi hm hp ht hw
    simp only [next_simple_loop]
    rw [if_neg (by omega)]
    have hi' : i = data.length := by omega
    rw [next_simple_finish_ascii data m hascii hne i start tok w hi' hm ht]
    rw [hi', List.drop_length]
  | succ n ih =>
    intro i start tok w hf hs hi hm hp ht hw
    simp only [next_simple_loop]
    by_cases hlt : i < data.length
    · rw [if_pos hlt]
      have hb := hascii _ (getD_mem hlt)
      obtain ⟨hapo, hbrk⟩ := simple_break_ascii tb tok hb
      rw [drop_eq_getD_cons hlt, ascii_get_char hb.1]
      simp only [ascii_char_bytes hb.1, hbrk, hapo, simple_ascii_call]
      by_cases hbr : ascii_break (data.getD i 0) = true
      · -- a break byte
        simp only [hbr, if_true]
        rw [tok_append_truncated_word tok m w _ hm ht
          (fun b hb => (hascii b (span_subset b hb)).1)]
        simp only [Outcome.bind_ok]
        by_cases hW : w ++ span data start i = []
        · -- nothing collected: go on behind the break
          simp only [hW, List.take_nil, List.length_nil, gt_iff_lt, Nat.lt_irrefl, if_false,
            if_true]
          have hwnil : w = [] := (List.append_eq_nil.mp hW).1
          have htok : ({ { tok with token := [] } with prev_letter := LETTER_TYPE_NONE }
              : generic_fts_tokenizer) = tok := by
            cases tok
            simp only at hp ht
            simp [hp, ht, hwnil]
          rw [htok]
          have := ih (i + 1) (i + 1) tok [] (by omega) (le_refl _) (by omega) hm hp
            (by rw [ht, hwnil]) (by simp [span_self, word_bytes])
          rw [this, span_self]
          rfl
        · -- a word ends here
          have hne2 : (w ++ span data start i).take m ≠ [] := by
            obtain ⟨k, hk⟩ : ∃ k, m = k + 1 := ⟨m - 1, by omega⟩
            cases hc : w ++ span data start i with
            | nil => exact absurd hc hW
            | cons x xs => simp [hk]
          rw [if_pos (List.length_pos.mpr hne2)]
          rw [simple_current_token_ascii _ hne2 (word_bytes_take hw m)]
          simp only [Outcome.bind_ok, if_true, hW, if_false]
          have hskip : data.length - (data.length - (i + 1)) = i + 1 := by omega
          simp only [ascii_result, List.take_nil, List.length_drop, hskip]
      · -- an ordinary byte joins the word
        have hbr' : ascii_break (data.getD i 0) = false := by simpa using hbr
        simp only [hbr', Bool.false_eq_true, if_false]
        rw [tok_eta_prev hp]
        have hw' : word_bytes (w ++ span data start (i + 1)) := by
          rw [span_succ hs hlt, ← List.append_assoc]
          intro b hbm
          rcases List.mem_append.mp hbm with h | h
          · exact hw b h
          · simp only [List.mem_singleton] at h
            subst h
            exact ⟨hb.1, hb.2, hbr'⟩
        have := ih (i + 1) start tok w (by omega) (by omega) (by omega) hm hp ht hw'
        rw [this, span_succ hs hlt, ← List.append_assoc]
    · rw [if_neg hlt]
      have hi' : i = data.length := by omega
      rw [next_simple_finish_ascii data m hascii hne i start tok w hi' hm ht]
      rw [hi', List.drop_length]


theorem simple_ascii_call_spec (m : Nat) :
    ∀ rest w, ascii_text rest → word_bytes w →
      ((simple_ascii_call m w rest).1 = 1 ∧
        (simple_ascii_call m w rest).2.2.2.length < rest.length ∧
        (simple_ascii_call m w rest).2.2.2 <:+ rest ∧
        (simple_ascii_call m w rest).2.2.1 = [] ∧
        simple_ascii_feed m w rest =
          ((simple_ascii_call m w rest).2.1 ::
              (simple_ascii_feed m [] (simple_ascii_call m w rest).2.2.2).1,
            (simple_ascii_feed m [] (simple_ascii_call m w rest).2.2.2).2)) ∨
      ((simple_ascii_call m w rest).1 = 0 ∧
        word_bytes (simple_ascii_call m w rest).2.2.1 ∧
        simple_ascii_feed m w rest = ([], (simple_ascii_call m w rest).2.2.1)) := by
  intro rest
  induction rest with
  | nil =>
    intro w _ hw
    right
    exact ⟨rfl, hw, rfl⟩
  | cons b rest ih =>
    intro w ha hw
    have ha' : ascii_text rest := fun x hx => ha x (List.mem_cons_of_mem _ hx)
    have hb := ha b (List.mem_cons_self _ _)
    simp only [simple_ascii_call, simple_ascii_feed]
    by_cases hbr : ascii_break b = true
    · simp only [hbr, if_true]
      by_cases hw0 : w = []
      · simp only [hw0, if_true]
        rcases ih [] ha' (by simp [word_bytes]) with ⟨h1, h2, h3, h4, h5⟩ | ⟨h1, h2, h3⟩
        · left
          refine ⟨h1, ?_, ?_, h4, h5⟩
          · simp only [List.length_cons]; omega
          · exact h3.trans (List.suffix_cons _ _)
        · right
          exact ⟨h1, h2, h3⟩
      · simp only [hw0, if_false]
        left
        exact ⟨by simp, by simp, List.suffix_cons _ _, by simp, by simp⟩
    · have hbr' : ascii_break b = false := by simpa using hbr
      simp only [hbr', Bool.false_eq_true, if_false]
      have hw' : word_bytes (w ++ [b]) := by
        intro x hx
        rcases List.mem_append.mp hx with h | h
        · exact hw x h
        · simp only [List.mem_singleton] at h
          subst h
          exact ⟨hb.1, hb.2, hbr'⟩
      rcases ih (w ++ [b]) ha' hw' with ⟨h1, h2, h3, h4, h5⟩ | ⟨h1, h2, h3⟩
      · left
        refine ⟨h1, ?_, ?_, h4, h5⟩
        · simp only [List.length_cons]; omega
        · exact h3.trans (List.suffix_cons _ _)
      · right
        exact ⟨h1, h2, h3⟩

theorem drop_of_suffix {rem data : List Nat} (h : rem <:+ data) :
    data.drop (data.length - rem.length) = rem := by
  obtain ⟨p, hp⟩ := h
  subst hp
  have : (p ++ rem).length - rem.length = p.length := by simp
  rw [this, List.drop_left]

theorem ascii_text_suffix {rem data : List Nat} (h : rem <:+ data) (ha : ascii_text data) :
    ascii_text rem :=
  fun b hb => ha b (h.subset hb)

theorem next_simple_empty (tb : Tables) (tok : generic_fts_tokenizer)
    (hroom : tok.token.length ≤ tok.max_length) :
    fts_tokenizer_generic_next_simple tb tok [] =
      (if tok.token.length > 0 then
        (fts_tokenizer_generic_simple_current_token tok).bind fun r =>
          if r.2.2 then .ok ⟨r.1, 1, 0, r.2.1⟩ else .ok ⟨r.1, 0, 0, []⟩
      else .ok ⟨tok, 0, 0, []⟩) := by
  unfold fts_tokenizer_generic_next_simple
  simp only [List.length_nil, next_simple_loop, Nat.lt_irrefl, if_false, next_simple_finish]
  rw [tok_append_truncated_ascii tok _ (fun b hb => by simp [span] at hb) hroom]
  simp [span]

theorem feed_ascii (tb : Tables) (m : Nat) (hm1 : 1 ≤ m) :
    ∀ fuel data tok w, data.length + 2 ≤ fuel → ascii_text data → (data ≠ [] ∨ w = []) →
      tok.algorithm = BOUNDARY_ALGORITHM_SIMPLE → tok.max_length = m →
      tok.prev_letter = LETTER_TYPE_NONE → tok.token = w.take m → word_bytes w →
      feed tb fuel tok data =
        .ok ({ tok with token := (simple_ascii_feed m w data).2.take m },
          (simple_ascii_feed m w data).1) := by
  intro fuel
  induction fuel with
  | zero =>
    intro data tok w hf
    omega
  | succ n ih =>
    intro data tok w hf ha hd halg hm hp ht hw
    simp only [feed, fts_tokenizer_next, halg]
    by_cases hdn : data = []
    · subst hdn
      have hw0 : w = [] := by
        rcases hd with h | h
        · exact absurd rfl h
        · exact h
      subst hw0
      have ht0 : tok.token = [] := by simpa using ht
      rw [next_simple_empty tb tok (by rw [ht0]; simp)]
      obtain ⟨ml, alg, tkn, pl, ppl⟩ := tok
      simp only at ht0 halg
      subst ht0 halg
      simp [simple_ascii_feed]
    · unfold fts_tokenizer_generic_next_simple
      have hloop := next_simple_loop_ascii tb data m ha hm1 hdn data.length 0 0 tok w
        (by omega) (le_refl _) (Nat.zero_le _) hm hp ht (by simpa [span_self] using hw)
      rw [hloop, span_self, List.append_nil, List.drop_zero]
      simp only [Outcome.bind_ok]
      rcases simple_ascii_call_spec m data w ha hw with ⟨h1, h2, h3, h4, h5⟩ | ⟨h1, h2, h3⟩
      · simp only [ascii_result, h1, beq_self_eq_true, if_true, h4, List.take_nil]
        rw [drop_of_suffix h3]
        have hrec := ih (simple_ascii_call m w data).2.2.2 { tok with token := [] } []
          (by omega) (ascii_text_suffix h3 ha) (Or.inr rfl) halg hm hp (by simp)
          (by simp [word_bytes])
        rw [hrec]
        simp only [Outcome.bind_ok, h5, halg]
      · simp only [ascii_result, h1, h3]
        simp [halg]


theorem flush_ascii (tb : Tables) (m : Nat) (hm1 : 1 ≤ m) (tok : generic_fts_tokenizer)
    (w : List Nat) (halg : tok.algorithm = BOUNDARY_ALGORITHM_SIMPLE) (hm : tok.max_length = m)
    (hp : tok.prev_letter = LETTER_TYPE_NONE) (ht : tok.token = w.take m) (hw : word_bytes w) :
    feed_chunk tb tok [] =
      .ok ({ tok with token := [] }, if w = [] then [] else [w.take m]) := by
  unfold feed_chunk
  by_cases hw0 : w = []
  · subst hw0
    rw [feed_ascii tb m hm1 _ [] tok [] (by simp) (by simp [ascii_text]) (Or.inr rfl) halg hm hp
      ht hw]
    simp [simple_ascii_feed]
  · have hne : tok.token ≠ [] := by
      rw [ht]
      obtain ⟨k, hk⟩ : ∃ k, m = k + 1 := ⟨m - 1, by omega⟩
      cases w with
      | nil => exact absurd rfl hw0
      | cons x xs => simp [hk]
    have hroom : tok.token.length ≤ tok.max_length := by
      rw [ht, hm, List.length_take]; omega
    have hwt : word_bytes tok.token := by rw [ht]; exact word_bytes_take hw m
    simp only [List.length_nil, Nat.zero_add, feed, fts_tokenizer_next, halg]
    rw [next_simple_empty tb tok hroom, if_pos (List.length_pos.mpr hne),
      simple_current_token_ascii tok hne hwt]
    simp only [Outcome.bind_ok, if_true, beq_self_eq_true, List.drop_zero]
    rw [next_simple_empty tb _ (by simp)]
    simp [hw0, ht, halg]

theorem simple_ascii_feed_append (m : Nat) :
    ∀ a w b, simple_ascii_feed m w (a ++ b) =
      ((simple_ascii_feed m w a).1 ++ (simple_ascii_feed m (simple_ascii_feed m w a).2 b).1,
        (simple_ascii_feed m (simple_ascii_feed m w a).2 b).2) := by
  intro a
  induction a with
  | nil => intro w b; simp [simple_ascii_feed]
  | cons x xs ih =>
    intro w b
    simp only [List.cons_append, simple_ascii_feed]
    by_cases hbr : ascii_break x = true
    · simp only [hbr, if_true]
      by_cases hw0 : w = []
      · simp only [hw0, if_true]
        exact ih _ _
      · simp only [hw0, if_false, List.append_eq, ih, List.cons_append]
    · have hbr' : ascii_break x = false := by simpa using hbr
      simp only [hbr', Bool.false_eq_true, if_false]
      exact ih _ _

theorem simple_ascii_feed_word (m : Nat) :
    ∀ s w, ascii_text s → word_bytes w → word_bytes (simple_ascii_feed m w s).2 := by
  intro s
  induction s with
  | nil => intro w _ hw; exact hw
  | cons b rest ih =>
    intro w ha hw
    have ha' : ascii_text rest := fun x hx => ha x (List.mem_cons_of_mem _ hx)
    have hb := ha b (List.mem_cons_self _ _)
    simp only [simple_ascii_feed]
    split_ifs with h1 h2
    · exact ih _ ha' (by simp [word_bytes])
    · exact ih _ ha' (by simp [word_bytes])
    · refine ih _ ha' ?_
      intro x hx
      rcases List.mem_append.mp hx with h | h
      · exact hw x h
      · simp only [List.mem_singleton] at h
        subst h
        exact ⟨hb.1, hb.2, by simpa using h1⟩

theorem feed_chunks_ascii (tb : Tables) (m : Nat) (hm1 : 1 ≤ m) :
    ∀ chunks tok w, (∀ c ∈ chunks, c ≠ [] ∧ ascii_text c) →
      tok.algorithm = BOUNDARY_ALGORITHM_SIMPLE → tok.max_length = m →
      tok.prev_letter = LETTER_TYPE_NONE → tok.token = w.take m → word_bytes w →
      feed_chunks tb tok chunks =
        .ok ({ tok with token := (simple_ascii_feed m w chunks.flatten).2.take m },
          (simple_ascii_feed m w chunks.flatten).1) := by
  intro chunks
  induction chunks with
  | nil =>
    intro tok w _ _ _ _ ht _
    simp only [feed_chunks, List.flatten_nil, simple_ascii_feed]
    rw [tok_eta_token ht]
  | cons c cs ih =>
    intro tok w hc halg hm hp ht hw
    obtain ⟨hcne, hca⟩ := hc c (List.mem_cons_self _ _)
    simp only [feed_chunks, feed_chunk]
    rw [feed_ascii tb m hm1 _ c tok w (le_refl _) hca (Or.inl hcne) halg hm hp ht hw]
    simp only [Outcome.bind_ok]
    have hrec := ih { tok with token := (simple_ascii_feed m w c).2.take m }
      (simple_ascii_feed m w c).2 (fun x hx => hc x (List.mem_cons_of_mem _ hx)) halg hm hp rfl
      (simple_ascii_feed_word m c w hca hw)
    rw [hrec]
    simp only [Outcome.bind_ok, List.flatten_cons, simple_ascii_feed_append]

theorem simple_ascii_feed_words (m : Nat) :
    ∀ s w, (simple_ascii_feed m w s).1 ++
        (if (simple_ascii_feed m w s).2 = [] then [] else [(simple_ascii_feed m w s).2.take m]) =
      (ascii_words w s).map (List.take m) := by
  intro s
  induction s with
  | nil =>
    intro w
    simp only [simple_ascii_feed, ascii_words, List.nil_append]
    split_ifs <;> simp
  | cons b rest ih =>
    intro w
    simp only [simple_ascii_feed, ascii_words]
    by_cases hbr : ascii_break b = true
    · simp only [hbr, if_true]
      by_cases hw0 : w = []
      · simp only [hw0, if_true]
        exact ih _
      · simp only [hw0, if_false, List.cons_append, List.map_cons, ih]
    · have hbr' : ascii_break b = false := by simpa using hbr
      simp only [hbr', Bool.false_eq_true, if_false]
      exact ih _

theorem ascii_words_eq_split :
    ∀ s w, ascii_words w s =
      ((s.splitOnP ascii_break).modifyHead (fun run => w ++ run)).filter
        (fun run => !run.isEmpty) := by
  intro s
  induction s with
  | nil =>
    intro w
    simp only [ascii_words, List.splitOnP_nil, List.modifyHead_cons, List.append_nil]
    cases w <;> simp
  | cons b rest ih =>
    intro w
    simp only [ascii_words, List.splitOnP_cons]
    by_cases hbr : ascii_break b = true
    · simp only [hbr, if_true, List.modifyHead_cons, List.append_nil]
      have h0 : ascii_words [] rest =
          (rest.splitOnP ascii_break).filter (fun run => !run.isEmpty) := by
        rw [ih []]
        congr 1
        have : (fun run : List Nat => [] ++ run) = id := by funext run; simp
        rw [this, List.modifyHead_id]
        rfl
      cases w with
      | nil => simp [h0]
      | cons x xs => simp [h0]
    · have hbr' : ascii_break b = false := by simpa using hbr
      simp only [hbr', Bool.false_eq_true, if_false, List.modifyHead_modifyHead]
      rw [ih]
      congr 2
      funext run
      simp

theorem ascii_words_eq_runs (s : List Nat) : ascii_words [] s = ascii_runs s := by
  rw [ascii_words_eq_split]
  unfold ascii_runs
  congr 1
  have : (fun run : List Nat => [] ++ run) = id := by funext run; simp
  rw [this, List.modifyHead_id]
  rfl

/-- C6. The simple algorithm on plain ASCII text: for every cap `maxlen >= 1`
and every input split into non-empty chunks whose bytes are ASCII other than
`0x27`, feeding the chunks to a fresh tokenizer and flushing with `size == 0`
returns, in input order, one token per maximal run of bytes that the ASCII
table does not mark as a break, each the first `min(run length, maxlen)` bytes
of its run. -/
theorem simple_ascii_tokens (tb : Tables) (maxlen : Nat) (chunks : List (List Nat))
    (hmax : 1 ≤ maxlen) (hne : ∀ c ∈ chunks, c ≠ [])
    (hascii : ∀ c ∈ chunks, ascii_text c) :
    tokenize tb (fresh maxlen BOUNDARY_ALGORITHM_SIMPLE) chunks =
      .ok ((ascii_runs chunks.flatten).map (List.take maxlen)) := by
  unfold tokenize
  rw [feed_chunks_ascii tb maxlen hmax chunks (fresh maxlen BOUNDARY_ALGORITHM_SIMPLE) []
    (fun c hc => ⟨hne c hc, hascii c hc⟩) rfl rfl rfl (by simp [fresh]) (by simp [word_bytes])]
  simp only [Outcome.bind_ok]
  have hw := simple_ascii_feed_word maxlen chunks.flatten []
    (fun b hb => by
      obtain ⟨c, hc, hbc⟩ := List.mem_flatten.mp hb
      exact hascii c hc b hbc) (by simp [word_bytes])
  rw [flush_ascii tb maxlen hmax _ (simple_ascii_feed maxlen [] chunks.flatten).2 rfl rfl rfl rfl
    hw]
  simp only [Outcome.bind_ok]
  rw [simple_ascii_feed_words, ascii_words_eq_runs]

set_option maxRecDepth 100000 in
/-- C6, at three inputs: `"Hello, world!"`, fifty `a` with
`maxlen = 10`, and the chunks `"foo"`, `" bar"`. -/
theorem simple_ascii_tokens_witness :
    tokenize tables_latin1 (fresh 30 BOUNDARY_ALGORITHM_SIMPLE)
        [[0x48, 0x65, 0x6C, 0x6C, 0x6F, 0x2C, 0x20, 0x77, 0x6F, 0x72, 0x6C, 0x64, 0x21]] =
      .ok [[0x48, 0x65, 0x6C, 0x6C, 0x6F], [0x77, 0x6F, 0x72, 0x6C, 0x64]] ∧
    tokenize tables_latin1 (fresh 10 BOUNDARY_ALGORITHM_SIMPLE) [List.replicate 50 0x61] =
      .ok [List.replicate 10 0x61] ∧
    tokenize tables_latin1 (fresh 30 BOUNDARY_ALGORITHM_SIMPLE)
        [[0x66, 0x6F, 0x6F], [0x20, 0x62, 0x61, 0x72]] =
      .ok [[0x66, 0x6F, 0x6F], [0x62, 0x61, 0x72]] :=
  ⟨(simple_ascii_tokens tables_latin1 30 _ (by decide) (by decide) (by decide)).trans
      (by decide),
    (simple_ascii_tokens tables_latin1 10 _ (by decide) (by decide) (by decide)).trans
      (by decide),
    (simple_ascii_tokens tables_latin1 30 _ (by decide) (by decide) (by decide)).trans
      (by decide)⟩


/-! ### Every call, from every state -/

theorem next_tr29_finish_post (data : List Nat) (i start_skip : Nat)
    (tok : generic_fts_tokenizer) (hi : data.length ≤ i) :
    (next_tr29_finish data i start_skip tok).ensures (next_post tok data) := by
  unfold next_tr29_finish
  split_ifs
  · trivial
  · refine Outcome.ensures_bind (tok_append_truncated_ensures _ _) ?_
    rintro tok1 ⟨h1, h2, -⟩
    split_ifs
    · refine Outcome.ensures_bind (tr29_current_token_ensures _) ?_
      rintro ⟨t, tk⟩ ⟨ht, -⟩
      simp only at ht
      subst ht
      simp [next_post, h1, h2]
    · simp [next_post, h1, h2, hi]

theorem next_tr29_loop_post (tb : Tables) (data : List Nat) :
    ∀ fuel i start_skip tok, data.length ≤ i + fuel →
      (next_tr29_loop tb data fuel i start_skip tok).ensures (next_post tok data) := by
  intro fuel
  induction fuel with
  | zero =>
    intro i start_skip tok hf
    simp only [next_tr29_loop]
    rw [if_neg (by omega)]
    exact next_tr29_finish_post data i start_skip tok (by omega)
  | succ n ih =>
    intro i start_skip tok hf
    simp only [next_tr29_loop]
    by_cases hlt : i < data.length
    · rw [if_pos hlt]
      have hb := uni_utf8_char_bytes_pos (data.getD i 0)
      cases hdec : uni_utf8_get_char_n (List.drop i data) with
      | none => trivial
      | some c =>
        simp only []
        by_cases hskip :
            (tok.prev_letter == LETTER_TYPE_NONE && is_nontoken (letter_type tb c)) = true
        · rw [if_pos hskip]
          split_ifs
          · exact ih _ _ _ (by omega)
          · trivial
        · rw [if_neg hskip]
          refine Outcome.ensures_bind (uni_found_word_boundary_ensures _ _) ?_
          rintro ⟨t, found⟩ ⟨hT, hF⟩
          simp only at hT hF
          by_cases hfound : found = true
          · simp only [hfound, if_true]
            obtain ⟨ht, -⟩ := hT hfound
            subst ht
            split_ifs
            · trivial
            · refine Outcome.ensures_bind (tok_append_truncated_ensures _ _) ?_
              rintro tok1 ⟨h1, h2, -⟩
              refine Outcome.ensures_bind (tr29_current_token_ensures _) ?_
              rintro ⟨t2, tk⟩ ⟨ht2, -⟩
              simp only at ht2
              subst ht2
              simp [next_post, h1, h2]
          · have hfound' : found = false := by simpa using hfound
            simp only [hfound', Bool.false_eq_true, if_false]
            obtain ⟨hm, ha, -⟩ := hF hfound'
            refine Outcome.ensures_mono (ih _ _ _ (by omega)) ?_
            rintro r ⟨q1, q2, q3⟩
            exact ⟨q1, by rw [q2, hm], by rw [q3, ha]⟩
    · rw [if_neg hlt]
      exact next_tr29_finish_post data i start_skip tok (by omega)

theorem fts_tokenizer_next_post (tb : Tables) (tok : generic_fts_tokenizer) (data : List Nat) :
    (fts_tokenizer_next tb tok data).ensures (next_post tok data) := by
  unfold fts_tokenizer_next
  split
  · exact next_tr29_loop_post tb data _ _ _ _ (by omega)
  · exact Outcome.ensures_mono (next_simple_loop_ensures tb data _ _ _ _ (by omega))
      (fun _ h => h.1)

/-! ### Reachable states -/

theorem create_settings_loop_pos :
    ∀ (settings : List (String × String)) (m : Nat) (a : boundary_algorithm)
      (m2 : Nat) (a2 : boundary_algorithm),
      1 ≤ m → create_settings_loop settings m a = .ok (m2, a2) → 1 ≤ m2 := by
  intro settings
  induction settings with
  | nil =>
    intro m a m2 a2 hm h
    simp only [create_settings_loop, Except.ok.injEq, Prod.mk.injEq] at h
    omega
  | cons kv rest ih =>
    intro m a m2 a2 hm h
    obtain ⟨key, value⟩ := kv
    simp only [create_settings_loop] at h
    split_ifs at h with h1 h2 h3 h4
    · cases hv : str_to_uint value with
      | none => simp [hv] at h
      | some v =>
        simp only [hv] at h
        split_ifs at h with hz
        have hz' : v ≠ 0 := by simpa using hz
        exact ih _ _ _ _ (by omega) h
    · exact ih _ _ _ _ hm h
    · exact ih _ _ _ _ hm h
    · exact ih _ _ _ _ hm h

theorem create_ok {settings : List (String × String)} {tok0 : generic_fts_tokenizer}
    (h : fts_tokenizer_generic_create settings = .ok tok0) :
    1 ≤ tok0.max_length ∧ tok0.token = [] ∧ tok0.prev_letter = LETTER_TYPE_NONE ∧
      tok0.prev_prev_letter = LETTER_TYPE_NONE := by
  unfold fts_tokenizer_generic_create at h
  split at h
  · cases h
  · rename_i m a hc
    simp only [Except.ok.injEq] at h
    subst h
    exact ⟨create_settings_loop_pos _ _ _ _ _ (by decide) hc, rfl, rfl, rfl⟩

theorem reachable_frame {tb : Tables} {tok0 tok : generic_fts_tokenizer}
    (hr : Reachable tb tok0 tok) :
    tok.max_length = tok0.max_length ∧ tok.algorithm = tok0.algorithm := by
  induction hr with
  | created => exact ⟨rfl, rfl⟩
  | after_reset _ ih => exact ih
  | after_next data _ hn ih =>
    have := (Outcome.ensures_iff.mp (fts_tokenizer_next_post tb _ data)).2 _ hn
    exact ⟨this.2.1.trans ih.1, this.2.2.trans ih.2⟩

theorem reachable_tr29_inv {tb : Tables} {settings : List (String × String)}
    {tok0 tok : generic_fts_tokenizer}
    (h0 : is_nontoken (letter_type tb 0) = true)
    (hc : fts_tokenizer_generic_create settings = .ok tok0)
    (hr : Reachable tb tok0 tok) (ha : tok.algorithm = BOUNDARY_ALGORITHM_TR29) :
    tr29_inv tok := by
  obtain ⟨hm, ht, hp, -⟩ := create_ok hc
  induction hr with
  | created => exact ⟨hm, by simp [ht], fun h => absurd hp h⟩
  | after_reset hr _ =>
    refine ⟨?_, by simp [fts_tokenizer_generic_reset], fun h => absurd rfl h⟩
    show 1 ≤ _
    have := (reachable_frame hr).1
    simp only [fts_tokenizer_generic_reset]
    omega
  | after_next data hr hn ih =>
    rename_i tk r
    have hpost := (Outcome.ensures_iff.mp (fts_tokenizer_next_post tb _ data)).2 _ hn
    have ha' : tk.algorithm = BOUNDARY_ALGORITHM_TR29 := by rw [← hpost.2.2]; exact ha
    obtain ⟨i1, i2, i3⟩ := ih ha'
    unfold fts_tokenizer_next at hn
    rw [ha'] at hn
    have hJ : tr29_loop_inv data 0 0 tk :=
      ⟨i1, i2, Nat.zero_le _, le_refl _, fun hnil => ⟨fun _ => rfl, fun hne => absurd hnil (i3 hne)⟩⟩
    exact ((Outcome.ensures_iff.mp
      (next_tr29_loop_ensures tb data h0 _ _ _ _ (by omega) hJ)).2 _ hn).2.2

/-! ### Single calls and reset -/

/-- C7. No empty tokens: in either algorithm, a call of `next` on a handle that
`create` made (in any state it has reached since) that returns TOKEN_READY
returns a token of at least one byte, from a boundary in the chunk as from a
`size == 0` flush. A token is a C string, so for the TR29 algorithm the tables
must give U+0000 no token category (in Unicode it is OTHER); the simple
algorithm needs nothing of the tables. -/
theorem no_empty_token (tb : Tables) (settings : List (String × String))
    (tok0 tok : generic_fts_tokenizer) (data : List Nat) (r : next_result)
    (h0 : tok.algorithm = BOUNDARY_ALGORITHM_TR29 → is_nontoken (letter_type tb 0) = true)
    (hc : fts_tokenizer_generic_create settings = .ok tok0)
    (hr : Reachable tb tok0 tok)
    (hn : fts_tokenizer_next tb tok data = .ok r) (hret : r.ret = 1) :
    1 ≤ r.token.length := by
  have key : r.token ≠ [] := by
    cases ha : tok.algorithm with
    | BOUNDARY_ALGORITHM_SIMPLE =>
      unfold fts_tokenizer_next at hn
      rw [ha] at hn
      exact ((Outcome.ensures_iff.mp
        (next_simple_loop_ensures tb data _ _ _ _ (by omega))).2 _ hn).2 hret
    | BOUNDARY_ALGORITHM_TR29 =>
      obtain ⟨i1, i2, i3⟩ := reachable_tr29_inv (h0 ha) hc hr ha
      unfold fts_tokenizer_next at hn
      rw [ha] at hn
      have hJ : tr29_loop_inv data 0 0 tok :=
        ⟨i1, i2, Nat.zero_le _, le_refl _,
          fun hnil => ⟨fun _ => rfl, fun hne => absurd hnil (i3 hne)⟩⟩
      exact ((Outcome.ensures_iff.mp
        (next_tr29_loop_ensures tb data (h0 ha) _ _ _ _ (by omega) hJ)).2 _ hn).2.1 hret
  exact List.length_pos.mpr key

set_option maxRecDepth 100000 in
/-- C7, at a concrete input: TR29 over the Latin-1 tables, `"ab "` gives the token `"ab"`. -/
theorem no_empty_token_witness :
    fts_tokenizer_next tables_latin1 (fresh 30 BOUNDARY_ALGORITHM_TR29) [0x61, 0x62, 0x20]
        = .ok ⟨fresh 30 BOUNDARY_ALGORITHM_TR29, 1, 3, [0x61, 0x62]⟩ ∧
      1 ≤ [0x61, 0x62].length :=
  ⟨by decide, no_empty_token tables_latin1 [("algorithm", "tr29")]
    (fresh 30 BOUNDARY_ALGORITHM_TR29) (fresh 30 BOUNDARY_ALGORITHM_TR29) [0x61, 0x62, 0x20]
    ⟨fresh 30 BOUNDARY_ALGORITHM_TR29, 1, 3, [0x61, 0x62]⟩ (fun _ => by decide) rfl
    Reachable.created (by decide) rfl⟩

/-- Progress of a call that returns: in either algorithm and from every state,
a call of `next` with `size > 0` that does not stop in an assertion returns
TOKEN_READY or a skip count of at least 1; the model's loop bound is never what
ends the call. -/
theorem next_progress (tb : Tables) (tok : generic_fts_tokenizer) (data : List Nat)
    (hsize : 0 < data.length) :
    fts_tokenizer_next tb tok data ≠ .out_of_fuel ∧
      ∀ r, fts_tokenizer_next tb tok data = .ok r → r.ret = 1 ∨ 1 ≤ r.skip := by
  obtain ⟨h1, h2⟩ := Outcome.ensures_iff.mp (fts_tokenizer_next_post tb tok data)
  refine ⟨h1, fun r hr => ?_⟩
  rcases (h2 r hr).1 with h | ⟨-, h⟩
  · exact Or.inl h
  · exact Or.inr (by omega)

set_option maxRecDepth 100000 in
/-- The same at a concrete input: the simple algorithm on `"ab"` returns NEED_MORE with skip 2. -/
theorem next_progress_witness :
    fts_tokenizer_next tables_latin1 (fresh 30 BOUNDARY_ALGORITHM_SIMPLE) [0x61, 0x62]
        = .ok ⟨{ fresh 30 BOUNDARY_ALGORITHM_SIMPLE with token := [0x61, 0x62] }, 0, 2, []⟩ ∧
      ((0 : Nat) = 1 ∨ 1 ≤ 2) :=
  ⟨by decide, (next_progress tables_latin1 (fresh 30 BOUNDARY_ALGORITHM_SIMPLE) [0x61, 0x62]
    (by decide)).2
    ⟨{ fresh 30 BOUNDARY_ALGORITHM_SIMPLE with token := [0x61, 0x62] }, 0, 2, []⟩ (by decide)⟩

set_option maxRecDepth 100000 in
/-- C9. Assertions of the simple algorithm fail on valid input. `create` accepts
`maxlen = 9`; after the chunk `a’b’c` (two U+2019) the buffer holds 11 bytes, and
the next call, here the `size == 0` flush, stops in
`i_assert(tok->max_length >= tok->token->used)`. `create` accepts `maxlen = 1`;
on the input `é` followed by a space the buffer holds the first byte of U+00E9
only, and `fts_uni_strndup` stops in `i_assert(pos > 0)`. -/
theorem simple_assertions_fail (tb : Tables) :
    fts_tokenizer_generic_create [("maxlen", "9")] = .ok (fresh 9 BOUNDARY_ALGORITHM_SIMPLE) ∧
    fts_tokenizer_next tb (fresh 9 BOUNDARY_ALGORITHM_SIMPLE)
        [0x61, 0xE2, 0x80, 0x99, 0x62, 0xE2, 0x80, 0x99, 0x63] =
      .ok ⟨{ fresh 9 BOUNDARY_ALGORITHM_SIMPLE with
             token := [0x61, 0x27, 0x61, 0xE2, 0x80, 0x99, 0x62, 0x27, 0x80, 0x99, 0x63] },
           0, 9, []⟩ ∧
    fts_tokenizer_next tb
        { fresh 9 BOUNDARY_ALGORITHM_SIMPLE with
          token := [0x61, 0x27, 0x61, 0xE2, 0x80, 0x99, 0x62, 0x27, 0x80, 0x99, 0x63] } [] =
      .fault .assert_max_length ∧
    tokenize tb (fresh 9 BOUNDARY_ALGORITHM_SIMPLE)
        [[0x61, 0xE2, 0x80, 0x99, 0x62, 0xE2, 0x80, 0x99, 0x63]] =
      .fault .assert_max_length ∧
    fts_tokenizer_generic_create [("maxlen", "1")] = .ok (fresh 1 BOUNDARY_ALGORITHM_SIMPLE) ∧
    fts_tokenizer_next tables_latin1 (fresh 1 BOUNDARY_ALGORITHM_SIMPLE) [0xC3, 0xA9, 0x20] =
      .fault .assert_pos :=
  ⟨rfl, rfl, rfl, rfl, rfl, by decide⟩

/-- C10. Reset equivalence: for a handle that `create` made, in any state it has
reached, `reset` gives back exactly the state `create` produced (empty buffer,
both history slots NONE, the same cap and algorithm), so every later sequence
of calls of `next` yields the same (status, skip, token) results as on a
freshly created handle. -/
theorem reset_equivalence (tb : Tables) (settings : List (String × String))
    (tok0 tok : generic_fts_tokenizer) (inputs : List (List Nat))
    (hc : fts_tokenizer_generic_create settings = .ok tok0)
    (hr : Reachable tb tok0 tok) :
    fts_tokenizer_generic_reset tok = tok0 ∧
      next_calls tb (fts_tokenizer_generic_reset tok) inputs = next_calls tb tok0 inputs ∧
      (fts_tokenizer_generic_reset tok).token = [] ∧
      (fts_tokenizer_generic_reset tok).prev_letter = LETTER_TYPE_NONE ∧
      (fts_tokenizer_generic_reset tok).prev_prev_letter = LETTER_TYPE_NONE := by
  obtain ⟨-, ht, hp, hpp⟩ := create_ok hc
  obtain ⟨hm, ha⟩ := reachable_frame hr
  have heq : fts_tokenizer_generic_reset tok = tok0 := by
    cases tok0
    cases tok
    simp only [fts_tokenizer_generic_reset] at *
    simp [hm, ha, ht, hp, hpp]
  refine ⟨heq, by rw [heq], rfl, rfl, rfl⟩

set_option maxRecDepth 100000 in
/-- C10, at a concrete input: a TR29 handle with `maxlen = 12` after the chunk `"ab"`. -/
theorem reset_equivalence_witness :
    fts_tokenizer_next tables_latin1 (fresh 12 BOUNDARY_ALGORITHM_TR29) [0x61, 0x62] =
      .ok ⟨{ fresh 12 BOUNDARY_ALGORITHM_TR29 with
             token := [0x61, 0x62], prev_letter := LETTER_TYPE_ALETTER,
             prev_prev_letter := LETTER_TYPE_ALETTER }, 0, 2, []⟩ ∧
    fts_tokenizer_generic_reset
        { fresh 12 BOUNDARY_ALGORITHM_TR29 with
          token := [0x61, 0x62], prev_letter := LETTER_TYPE_ALETTER,
          prev_prev_letter := LETTER_TYPE_ALETTER } = fresh 12 BOUNDARY_ALGORITHM_TR29 :=
  ⟨by decide,
    (reset_equivalence tables_latin1 [("maxlen", "12"), ("algorithm", "tr29")]
      (fresh 12 BOUNDARY_ALGORITHM_TR29)
      { fresh 12 BOUNDARY_ALGORITHM_TR29 with
        token := [0x61, 0x62], prev_letter := LETTER_TYPE_ALETTER,
        prev_prev_letter := LETTER_TYPE_ALETTER } [] rfl
      (Reachable.after_next [0x61, 0x62]
        (r := ⟨{ fresh 12 BOUNDARY_ALGORITHM_TR29 with
                 token := [0x61, 0x62], prev_letter := LETTER_TYPE_ALETTER,
                 prev_prev_letter := LETTER_TYPE_ALETTER }, 0, 2, []⟩)
        Reachable.created (by decide))).1⟩

/-! ### The caller's loop always ends -/

theorem next_simple_finish_ready (data : List Nat) (i start : Nat)
    (tok : generic_fts_tokenizer) :
    (next_simple_finish data i start tok).ensures (ready_post data) := by
  unfold next_simple_finish
  refine Outcome.ensures_bind (tok_append_truncated_ensures _ _) ?_
  intro tok1 _
  split_ifs with hcond
  · refine Outcome.ensures_bind (simple_current_token_ensures _) ?_
    rintro ⟨t, tk, b⟩ ⟨ht, -⟩
    simp only at ht
    subst ht
    have hd : data = [] := by
      simp only [Bool.and_eq_true, beq_iff_eq, List.length_eq_zero] at hcond
      exact hcond.1
    split_ifs
    · simp [ready_post, hd]
    · simp [ready_post]
  · simp [ready_post]

theorem next_simple_loop_ready (tb : Tables) (data : List Nat) :
    ∀ fuel i start tok, data.length ≤ i + fuel →
      (next_simple_loop tb data fuel i start tok).ensures (ready_post data) := by
  intro fuel
  induction fuel with
  | zero =>
    intro i start tok hf
    simp only [next_simple_loop]
    rw [if_neg (by omega)]
    exact next_simple_finish_ready data i start tok
  | succ n ih =>
    intro i start tok hf
    simp only [next_simple_loop]
    by_cases hlt : i < data.length
    · rw [if_pos hlt]
      have hb := uni_utf8_char_bytes_pos (data.getD i 0)
      cases hdec : uni_utf8_get_char_n (List.drop i data) with
      | none => trivial
      | some c =>
        simp only []
        by_cases hbr : fts_simple_is_word_break tb tok c (IS_APOSTROPHE c) = true
        · rw [if_pos hbr]
          refine Outcome.ensures_bind (tok_append_truncated_ensures _ _) ?_
          intro tok1 _
          split_ifs
          · refine Outcome.ensures_bind (simple_current_token_ensures _) ?_
            rintro ⟨t, tk, b⟩ ⟨ht, -⟩
            simp only at ht
            subst ht
            split_ifs
            · simp only [Outcome.ensures_ok, ready_post]
              intro _
              exact ⟨trivial, fun _ => by omega⟩
            · exact ih _ _ _ (by omega)
          · exact ih _ _ _ (by omega)
        · rw [if_neg hbr]
          exact ih _ _ _ (by omega)
    · rw [if_neg hlt]
      exact next_simple_finish_ready data i start tok

theorem next_tr29_finish_ready (data : List Nat) (i start_skip : Nat)
    (tok : generic_fts_tokenizer) :
    (next_tr29_finish data i start_skip tok).ensures (ready_post data) := by
  unfold next_tr29_finish
  split_ifs
  · trivial
  · refine Outcome.ensures_bind (tok_append_truncated_ensures _ _) ?_
    intro tok1 _
    split_ifs with hcond
    · refine Outcome.ensures_bind (tr29_current_token_ensures _) ?_
      rintro ⟨t, tk⟩ ⟨ht, -⟩
      simp only at ht
      subst ht
      have hd : data = [] := by
        simp only [Bool.and_eq_true, beq_iff_eq, List.length_eq_zero] at hcond
        exact hcond.1
      simp [ready_post, hd]
    · simp [ready_post]

theorem next_tr29_loop_ready (tb : Tables) (data : List Nat) :
    ∀ fuel i start_skip tok, data.length ≤ i + fuel →
      (next_tr29_loop tb data fuel i start_skip tok).ensures (ready_post data) := by
  intro fuel
  induction fuel with
  | zero =>
    intro i start_skip tok hf
    simp only [next_tr29_loop]
    rw [if_neg (by omega)]
    exact next_tr29_finish_ready data i start_skip tok
  | succ n ih =>
    intro i start_skip tok hf
    simp only [next_tr29_loop]
    by_cases hlt : i < data.length
    · rw [if_pos hlt]
      have hb := uni_utf8_char_bytes_pos (data.getD i 0)
      cases hdec : uni_utf8_get_char_n (List.drop i data) with
      | none => trivial
      | some c =>
        simp only []
        by_cases hskip :
            (tok.prev_letter == LETTER_TYPE_NONE && is_nontoken (letter_type tb c)) = true
        · rw [if_pos hskip]
          split_ifs
          · exact ih _ _ _ (by omega)
          · trivial
        · rw [if_neg hskip]
          refine Outcome.ensures_bind (uni_found_word_boundary_ensures _ _) ?_
          rintro ⟨t, found⟩ _
          by_cases hfound : found = true
          · simp only [hfound, if_true]
            split_ifs
            · trivial
            · refine Outcome.ensures_bind (tok_append_truncated_ensures _ _) ?_
              intro tok1 _
              refine Outcome.ensures_bind (tr29_current_token_ensures _) ?_
              rintro ⟨t2, tk⟩ ⟨ht2, -⟩
              simp only at ht2
              subst ht2
              simp only [Outcome.ensures_ok, ready_post]
              intro _
              exact ⟨trivial, fun _ => by omega⟩
          · have hfound' : found = false := by simpa using hfound
            simp only [hfound', Bool.false_eq_true, if_false]
            exact ih _ _ _ (by omega)
    · rw [if_neg hlt]
      exact next_tr29_finish_ready data i start_skip tok

theorem fts_tokenizer_next_ready (tb : Tables) (tok : generic_fts_tokenizer) (data : List Nat) :
    (fts_tokenizer_next tb tok data).ensures (ready_post data) := by
  unfold fts_tokenizer_next
  split
  · exact next_tr29_loop_ready tb data _ _ _ _ (by omega)
  · exact next_simple_loop_ready tb data _ _ _ _ (by omega)

theorem tok_append_truncated_nil (tok : generic_fts_tokenizer) :
    (tok_append_truncated tok []).ensures (fun t => t = tok) := by
  unfold tok_append_truncated
  split_ifs
  · trivial
  · simp [tok_append_loop]

/-- On an empty buffer a call with `size == 0` returns NEED_MORE. -/
theorem fts_tokenizer_next_idle (tb : Tables) (tok : generic_fts_tokenizer)
    (ht : tok.token = []) :
    (fts_tokenizer_next tb tok []).ensures (fun r => r.ret = 0) := by
  unfold fts_tokenizer_next
  split
  · simp only [fts_tokenizer_generic_next_tr29, List.length_nil, next_tr29_loop, Nat.lt_irrefl,
      if_false, next_tr29_finish]
    simp only [Nat.lt_irrefl, decide_False, Bool.or_self, Bool.false_eq_true, if_false]
    refine Outcome.ensures_bind (tok_append_truncated_nil tok |> fun h => by simpa [span] using h) ?_
    intro tok1 h1
    subst h1
    simp [ht]
  · simp only [fts_tokenizer_generic_next_simple, List.length_nil, next_simple_loop,
      Nat.lt_irrefl, if_false, next_simple_finish]
    refine Outcome.ensures_bind (tok_append_truncated_nil tok |> fun h => by simpa [span] using h) ?_
    intro tok1 h1
    subst h1
    simp [ht]

theorem feed_ensures (tb : Tables) :
    ∀ fuel tok data, (data.length + 2 ≤ fuel ∨ (tok.token = [] ∧ data.length + 1 ≤ fuel)) →
      (feed tb fuel tok data).ensures (fun _ => True) := by
  intro fuel
  induction fuel with
  | zero =>
    intro tok data h
    omega
  | succ n ih =>
    intro tok data h
    simp only [feed]
    refine Outcome.ensures_bind
      (Outcome.ensures_and (fts_tokenizer_next_ready tb tok data)
        (Q := fun r => data = [] → tok.token = [] → r.ret = 0) ?_) ?_
    · by_cases hd : data = []
      · by_cases ht : tok.token = []
        · subst hd
          exact Outcome.ensures_mono (fts_tokenizer_next_idle tb tok ht) (fun r hr _ _ => hr)
        · exact Outcome.ensures_mono (fts_tokenizer_next_ready tb tok data)
            (fun r _ _ h2 => absurd h2 ht)
      · exact Outcome.ensures_mono (fts_tokenizer_next_ready tb tok data)
          (fun r _ h1 _ => absurd h1 hd)
    · rintro r ⟨hready, hidle⟩
      split_ifs with hret
      · have hret' : r.ret = 1 := by simpa using hret
        obtain ⟨htok, hskip⟩ := hready hret'
        refine Outcome.ensures_bind (Q := fun _ => True) (ih _ _ ?_) (fun _ _ => trivial)
        right
        refine ⟨htok, ?_⟩
        by_cases hd : data = []
        · subst hd
          rcases h with h | ⟨ht, h⟩
          · simp only [List.drop_nil, List.length_nil] at *
            omega
          · have := hidle rfl ht
            omega
        · have h1 := hskip hd
          have h2 : 0 < data.length := List.length_pos.mpr hd
          simp only [List.length_drop]
          omega
      · trivial

/-- The caller's loop over a chunk always ends: `feed_chunk` returns, or a call
of `next` in it stopped in an assertion; its bound of `size + 2` calls is never
what ends it. -/
theorem feed_chunk_ensures (tb : Tables) (tok : generic_fts_tokenizer) (data : List Nat) :
    (feed_chunk tb tok data).ensures (fun _ => True) :=
  feed_ensures tb _ tok data (Or.inl (le_refl _))

/-! ### The bounds of the modelled helpers are enough -/

theorem uni_utf8_partial_strlen_n_fuel (l : List Nat) :
    ∀ fuel k i, l.length ≤ i + fuel →
      uni_utf8_partial_strlen_n l (fuel + k) i = uni_utf8_partial_strlen_n l fuel i := by
  intro fuel
  induction fuel with
  | zero =>
    intro k i h
    cases k with
    | zero => rfl
    | succ k =>
      simp only [Nat.zero_add, uni_utf8_partial_strlen_n]
      rw [if_neg (by omega)]
  | succ n ih =>
    intro k i h
    have hb := uni_utf8_char_bytes_pos (l.getD i 0)
    rw [show n + 1 + k = (n + k) + 1 by omega]
    simp only [uni_utf8_partial_strlen_n]
    split_ifs
    · rfl
    · exact ih k _ (by omega)
    · rfl

theorem binary_number_search_fuel (data : List Nat) (value : Nat) :
    ∀ fuel k left_idx right_idx, right_idx - left_idx < fuel →
      binary_number_search data value (fuel + k) left_idx right_idx =
        binary_number_search data value fuel left_idx right_idx := by
  intro fuel
  induction fuel with
  | zero =>
    intro k l r h
    omega
  | succ n ih =>
    intro k l r h
    rw [show n + 1 + k = (n + k) + 1 by omega]
    simp only [binary_number_search]
    split_ifs with h1 h2 h3
    · exact ih k _ _ (by omega)
    · exact ih k _ _ (by omega)
    · rfl
    · rfl

theorem valid_utf8_from_fuel :
    ∀ fuel k (l : List Nat), l.length ≤ fuel →
      valid_utf8_from (fuel + k) l = valid_utf8_from fuel l := by
  intro fuel
  induction fuel with
  | zero =>
    intro k l h
    have : l = [] := List.length_eq_zero.mp (by omega)
    subst this
    cases k <;> rfl
  | succ n ih =>
    intro k l h
    rw [show n + 1 + k = (n + k) + 1 by omega]
    cases l with
    | nil => rfl
    | cons b rest =>
      simp only [valid_utf8_from]
      cases uni_utf8_get_char_n (b :: rest) with
      | none => rfl
      | some c =>
        simp only []
        have hb := uni_utf8_char_bytes_pos b
        refine ih k _ ?_
        simp only [List.length_drop, List.length_cons] at h ⊢
        omega



/-! ### C11: the ASCII break table -/

set_option maxRecDepth 100000 in
/-- C11, as stated, fails at index `0x60`: the table of the code marks the
backtick as a break, the table of §6 of the spec says it does not break. -/
theorem ascii_table_backtick :
    fts_ascii_word_breaks.getD 0x60 0 = 1 ∧ ascii_break 0x60 = true ∧
      spec_ascii_break 0x60 = false ∧
      ¬ (∀ c, c < 128 → ascii_break c = spec_ascii_break c) :=
  ⟨by decide, by decide, by decide, by decide⟩

set_option maxRecDepth 100000 in
/-- C11, amended. `fts_ascii_word_breaks` agrees with the table of §6 at every
index 0..127 except `0x60`, which breaks: `0x00`-`0x1F` break; `0x20`-`0x2F`
break except `0x27`; `0x30`-`0x39` do not; `0x3A`-`0x40` break; `0x41`-`0x5A` do
not; `0x5B`-`0x5E` break; `0x5F` does not; `0x60` breaks; `0x61`-`0x7A` do not;
`0x7B`-`0x7E` break; `0x7F` does not. For a code point below `0x80` that is no
apostrophe this entry is the answer of `fts_simple_is_word_break`. -/
theorem ascii_table_amended (tb : Tables) (tok : generic_fts_tokenizer) (c : Nat)
    (h : c < 128) :
    fts_ascii_word_breaks.length = 128 ∧
      ascii_break c = spec_ascii_break_amended c ∧
      fts_simple_is_word_break tb tok c false = spec_ascii_break_amended c := by
  have key : ∀ c, c < 128 → ascii_break c = spec_ascii_break_amended c := by decide
  refine ⟨by decide, key c h, ?_⟩
  unfold fts_simple_is_word_break
  simp only [Bool.false_eq_true, if_false]
  rw [if_pos h]
  exact key c h

/-- C11 amended, at the indices `0x60` (backtick) and `0x5F` (underscore). -/
theorem ascii_table_amended_witness :
    ascii_break 0x60 = true ∧ ascii_break 0x5F = false :=
  ⟨((ascii_table_amended tables_latin1 (fresh 30 BOUNDARY_ALGORITHM_SIMPLE) 0x60
      (by decide)).2.1).trans (by decide),
    ((ascii_table_amended tables_latin1 (fresh 30 BOUNDARY_ALGORITHM_SIMPLE) 0x5F
      (by decide)).2.1).trans (by decide)⟩

/-! ### C14: `create` and its settings -/

theorem create_settings_loop_error_iff :
    ∀ (settings : List (String × String)) (m : Nat) (a : boundary_algorithm),
      (∃ e, create_settings_loop settings m a = .error e) ↔
        ∃ kv ∈ settings, setting_invalid kv = true := by
  intro settings
  induction settings with
  | nil =>
    intro m a
    simp [create_settings_loop]
  | cons kv rest ih =>
    intro m a
    obtain ⟨key, value⟩ := kv
    simp only [create_settings_loop, List.mem_cons, exists_eq_or_imp, setting_invalid,
      ALGORITHM_TR29_NAME, ALGORITHM_SIMPLE_NAME]
    by_cases h1 : (key == "maxlen") = true
    · simp only [h1, if_true]
      cases hv : str_to_uint value with
      | none => simp
      | some v =>
        simp only []
        by_cases hz : (v == 0) = true
        · simp [hz]
        · simp only [hz, Bool.false_eq_true, if_false, false_or]
          exact ih v a
    · simp only [h1, Bool.false_eq_true, if_false]
      by_cases h2 : (key == "algorithm") = true
      · simp only [h2, if_true]
        by_cases h3 : (value == "tr29") = true
        · simp only [h3, if_true, Bool.or_true, Bool.not_true, Bool.false_eq_true, false_or]
          exact ih m BOUNDARY_ALGORITHM_TR29
        · simp only [h3, Bool.false_eq_true, if_false, Bool.or_false]
          by_cases h4 : (value == "simple") = true
          · simp only [h4, if_true, Bool.not_true, Bool.false_eq_true, false_or]
            exact ih m a
          · simp [h4]
      · simp only [h2, Bool.false_eq_true, if_false]
        by_cases h5 : (key == "search") = true
        · simp only [h5, if_true, Bool.not_true, Bool.false_eq_true, false_or]
          exact ih m a
        · simp [h5]

theorem create_settings_loop_defaults :
    ∀ (settings : List (String × String)) (m : Nat) (a : boundary_algorithm)
      (m2 : Nat) (a2 : boundary_algorithm),
      create_settings_loop settings m a = .ok (m2, a2) →
        ((∀ kv ∈ settings, kv.1 ≠ "maxlen") → m2 = m) ∧
        ((∀ kv ∈ settings, kv.1 ≠ "algorithm") → a2 = a) := by
  intro settings
  induction settings with
  | nil =>
    intro m a m2 a2 h
    simp only [create_settings_loop, Except.ok.injEq, Prod.mk.injEq] at h
    exact ⟨fun _ => h.1.symm, fun _ => h.2.symm⟩
  | cons kv rest ih =>
    intro m a m2 a2 h
    obtain ⟨key, value⟩ := kv
    simp only [create_settings_loop] at h
    simp only [List.mem_cons, forall_eq_or_imp]
    by_cases h1 : (key == "maxlen") = true
    · simp only [h1, if_true] at h
      have hk : key = "maxlen" := by simpa using h1
      cases hv : str_to_uint value with
      | none => simp [hv] at h
      | some v =>
        simp only [hv] at h
        split_ifs at h
        refine ⟨fun hno => absurd hk hno.1, fun hno => (ih _ _ _ _ h).2 hno.2⟩
    · simp only [h1, Bool.false_eq_true, if_false] at h
      by_cases h2 : (key == "algorithm") = true
      · simp only [h2, if_true] at h
        have hk : key = "algorithm" := by simpa using h2
        split_ifs at h
        · exact ⟨fun hno => (ih _ _ _ _ h).1 hno.2, fun hno => absurd hk hno.1⟩
        · exact ⟨fun hno => (ih _ _ _ _ h).1 hno.2, fun hno => absurd hk hno.1⟩
      · simp only [h2, Bool.false_eq_true, if_false] at h
        split_ifs at h
        exact ⟨fun hno => (ih _ _ _ _ h).1 hno.2, fun hno => (ih _ _ _ _ h).2 hno.2⟩

theorem create_settings_loop_search :
    ∀ (settings : List (String × String)) (m : Nat) (a : boundary_algorithm),
      create_settings_loop (settings.filter (fun kv => kv.1 != "search")) m a =
        create_settings_loop settings m a := by
  intro settings
  induction settings with
  | nil => intro m a; rfl
  | cons kv rest ih =>
    intro m a
    obtain ⟨key, value⟩ := kv
    by_cases h5 : (key == "search") = true
    · have hk : key = "search" := by simpa using h5
      subst hk
      rw [List.filter_cons_of_neg (by simp)]
      rw [ih]
      simp only [create_settings_loop]
      rw [if_neg (by decide), if_neg (by decide), if_pos (by decide)]
    · rw [List.filter_cons_of_pos (by simpa using h5)]
      simp only [create_settings_loop, ih]

/-- C14. `fts_tokenizer_generic_create` fails, with an error message and no
handle, exactly when the settings hold a key other than `maxlen`, `algorithm`
and `search`, or a `maxlen` that `str_to_uint` rejects or that is 0, or an
`algorithm` other than `simple` and `tr29`; otherwise it succeeds, with
`max_length = 30` when no `maxlen` is given and the simple algorithm when no
`algorithm` is given; and the `search` pairs have no effect on the result. -/
theorem create_settings_spec (settings : List (String × String)) :
    ((∃ e, fts_tokenizer_generic_create settings = .error e) ↔
        ∃ kv ∈ settings, setting_invalid kv = true) ∧
      ((∃ tok, fts_tokenizer_generic_create settings = .ok tok) ↔
        ∀ kv ∈ settings, setting_invalid kv = false) ∧
      (∀ tok, fts_tokenizer_generic_create settings = .ok tok →
        ((∀ kv ∈ settings, kv.1 ≠ "maxlen") → tok.max_length = 30) ∧
        ((∀ kv ∈ settings, kv.1 ≠ "algorithm") →
          tok.algorithm = BOUNDARY_ALGORITHM_SIMPLE)) ∧
      fts_tokenizer_generic_create (settings.filter (fun kv => kv.1 != "search")) =
        fts_tokenizer_generic_create settings := by
  have herr : (∃ e, fts_tokenizer_generic_create settings = .error e) ↔
      ∃ kv ∈ settings, setting_invalid kv = true := by
    rw [← create_settings_loop_error_iff settings FTS_DEFAULT_TOKEN_MAX_LENGTH
      BOUNDARY_ALGORITHM_SIMPLE]
    unfold fts_tokenizer_generic_create
    cases create_settings_loop settings FTS_DEFAULT_TOKEN_MAX_LENGTH BOUNDARY_ALGORITHM_SIMPLE with
    | error e => simp
    | ok p => simp
  refine ⟨herr, ?_, ?_, ?_⟩
  · constructor
    · rintro ⟨tok, htok⟩ kv hkv
      by_contra hinv
      obtain ⟨e, he⟩ := herr.mpr ⟨kv, hkv, by simpa using hinv⟩
      rw [htok] at he
      cases he
    · intro hall
      cases hc : fts_tokenizer_generic_create settings with
      | ok tok => exact ⟨tok, rfl⟩
      | error e =>
        obtain ⟨kv, hkv, hinv⟩ := herr.mp ⟨e, hc⟩
        rw [hall kv hkv] at hinv
        cases hinv
  · intro tok htok
    unfold fts_tokenizer_generic_create at htok
    cases hl : create_settings_loop settings FTS_DEFAULT_TOKEN_MAX_LENGTH
        BOUNDARY_ALGORITHM_SIMPLE with
    | error e => simp [hl] at htok
    | ok p =>
      obtain ⟨m2, a2⟩ := p
      simp only [hl, Except.ok.injEq] at htok
      subst htok
      exact create_settings_loop_defaults _ _ _ _ _ hl
  · unfold fts_tokenizer_generic_create
    rw [create_settings_loop_search]


/-- C14 at three settings lists: `maxlen=0` fails, an unknown key fails, and
`search` next to `algorithm=tr29` is accepted with the default cap. -/
theorem create_settings_spec_witness :
    (∃ e, fts_tokenizer_generic_create [("maxlen", "0")] = .error e) ∧
      (∃ e, fts_tokenizer_generic_create [("maxlen", "10"), ("foo", "")] = .error e) ∧
      fts_tokenizer_generic_create [("search", ""), ("algorithm", "tr29")] =
        .ok (fresh 30 BOUNDARY_ALGORITHM_TR29) :=
  ⟨(create_settings_spec [("maxlen", "0")]).1.mpr ⟨("maxlen", "0"), by simp, by decide⟩,
    (create_settings_spec [("maxlen", "10"), ("foo", "")]).1.mpr ⟨("foo", ""), by simp, by decide⟩,
    rfl⟩


/-! ### C15 to C19: the fold, the rule table, the TR29 finalize, the simple history -/

/-- C15. The fold of `tok_append_truncated` fails on the code: with room for
all of it, the valid UTF-8 span `don’t` (one U+2019) should be appended as
`don't`; the code appends `don'`, then the two continuation bytes `80 99` of the
apostrophe, then `t`, so in simple mode `don’t stop` yields the tokens
`don'` `80 99` `t` and `stop`, not `don't` and `stop`. -/
theorem fold_one_apostrophe (tb : Tables) :
    valid_utf8 [0x64, 0x6F, 0x6E, 0xE2, 0x80, 0x99, 0x74] = true ∧
    spec_fold [0x64, 0x6F, 0x6E, 0xE2, 0x80, 0x99, 0x74] = [0x64, 0x6F, 0x6E, 0x27, 0x74] ∧
    tok_append_truncated (fresh 30 BOUNDARY_ALGORITHM_SIMPLE)
        [0x64, 0x6F, 0x6E, 0xE2, 0x80, 0x99, 0x74] =
      .ok { fresh 30 BOUNDARY_ALGORITHM_SIMPLE with
            token := [0x64, 0x6F, 0x6E, 0x27, 0x80, 0x99, 0x74] } ∧
    tokenize tb (fresh 30 BOUNDARY_ALGORITHM_SIMPLE)
        [[0x64, 0x6F, 0x6E, 0xE2, 0x80, 0x99, 0x74, 0x20, 0x73, 0x74, 0x6F, 0x70]] =
      .ok [[0x64, 0x6F, 0x6E, 0x27, 0x80, 0x99, 0x74], [0x73, 0x74, 0x6F, 0x70]] ∧
    [0x64, 0x6F, 0x6E, 0x27, 0x80, 0x99, 0x74] ≠ [0x64, 0x6F, 0x6E, 0x27, 0x74] :=
  ⟨rfl, rfl, rfl, rfl, by decide⟩

theorem letter_type_ne_sot (tb : Tables) (c : Nat) : letter_type tb c ≠ LETTER_TYPE_SOT := by
  unfold letter_type
  repeat (refine ite_ne_of_ne (by decide) ?_)
  decide

theorem letter_type_ne_eot (tb : Tables) (c : Nat) : letter_type tb c ≠ LETTER_TYPE_EOT := by
  unfold letter_type
  repeat (refine ite_ne_of_ne (by decide) ?_)
  decide

/-- The function that `letter_fns[lt]` dispatches to computes the rule of §4.3.1. -/
theorem letter_fns_spec_rule (tok : generic_fts_tokenizer) (lt : LetterType)
    (h1 : lt ≠ LETTER_TYPE_NONE) (h2 : lt ≠ LETTER_TYPE_SOT) (h3 : lt ≠ LETTER_TYPE_EOT) :
    (letter_fns.getD lt.ordinal letter_panic) tok =
      .ok (spec_rule lt tok.prev_letter tok.prev_prev_letter) := by
  rw [letter_fns_dispatch]
  obtain ⟨ml, alg, tk, p, pp⟩ := tok
  cases lt <;> first
    | exact absurd rfl h1 | exact absurd rfl h2 | exact absurd rfl h3
    | (cases p <;> cases pp <;> rfl)

/-- The function `uni_found_word_boundary` with a history. -/
theorem uni_found_word_boundary_eq (tok : generic_fts_tokenizer) (lt : LetterType)
    (h1 : lt ≠ LETTER_TYPE_NONE) (h2 : lt ≠ LETTER_TYPE_SOT) (h3 : lt ≠ LETTER_TYPE_EOT)
    (hp : tok.prev_letter ≠ LETTER_TYPE_NONE) :
    uni_found_word_boundary tok lt =
      .ok (if spec_rule lt tok.prev_letter tok.prev_prev_letter then (tok, true)
           else if lt = LETTER_TYPE_EXTEND ∨ lt = LETTER_TYPE_FORMAT then (tok, false)
           else ({ tok with prev_prev_letter := tok.prev_letter, prev_letter := lt }, false)) := by
  unfold uni_found_word_boundary
  have hp2 : (tok.prev_letter != LETTER_TYPE_NONE) = true := by simpa using hp
  rw [if_pos hp2, letter_fns_spec_rule tok lt h1 h2 h3, Outcome.bind_ok]
  cases hr : spec_rule lt tok.prev_letter tok.prev_prev_letter
  · simp only [Bool.false_eq_true, if_false, add_prev_letter, hp2, if_true]
    by_cases he : lt = LETTER_TYPE_EXTEND ∨ lt = LETTER_TYPE_FORMAT
    · rw [if_pos he, if_pos (by simpa using he)]
    · rw [if_neg he, if_neg (by simpa using he)]
  · simp

/-- The function `uni_found_word_boundary` without a history: no rule is consulted. -/
theorem uni_found_word_boundary_first (tok : generic_fts_tokenizer) (lt : LetterType)
    (hp : tok.prev_letter = LETTER_TYPE_NONE) :
    uni_found_word_boundary tok lt =
      .ok (if lt = LETTER_TYPE_EXTEND ∨ lt = LETTER_TYPE_FORMAT then (tok, false)
           else ({ tok with prev_letter := lt }, false)) := by
  unfold uni_found_word_boundary
  have hp2 : (tok.prev_letter != LETTER_TYPE_NONE) = false := by simp [hp]
  rw [if_neg (by simp [hp]), Outcome.bind_ok]
  simp only [Bool.false_eq_true, if_false, add_prev_letter, hp2]
  by_cases he : lt = LETTER_TYPE_EXTEND ∨ lt = LETTER_TYPE_FORMAT
  · rw [if_pos he, if_pos (by simpa using he)]
  · rw [if_neg he, if_neg (by simpa using he)]

/-- C16. For every current category `lt` that `letter_type` can return (it
returns neither `NONE` nor the two unused values `SOT` and `EOT`) and every
history, the function dispatched through `letter_fns[lt]` returns the boundary
predicate of the rule table of §4.3.1; with `prev_letter != NONE` this is what
`uni_found_word_boundary` returns, and when it is `false` the history is
updated as §4.3 says. -/
theorem letter_fns_rule_table (tb : Tables) (tok : generic_fts_tokenizer) (lt : LetterType)
    (h1 : lt ≠ LETTER_TYPE_NONE) (h2 : lt ≠ LETTER_TYPE_SOT) (h3 : lt ≠ LETTER_TYPE_EOT)
    (hp : tok.prev_letter ≠ LETTER_TYPE_NONE) :
    (letter_fns.getD lt.ordinal letter_panic) tok =
        .ok (spec_rule lt tok.prev_letter tok.prev_prev_letter) ∧
      uni_found_word_boundary tok lt =
        .ok (if spec_rule lt tok.prev_letter tok.prev_prev_letter then (tok, true)
             else if lt = LETTER_TYPE_EXTEND ∨ lt = LETTER_TYPE_FORMAT then (tok, false)
             else ({ tok with prev_prev_letter := tok.prev_letter, prev_letter := lt }, false)) ∧
      (∀ c, letter_type tb c ≠ LETTER_TYPE_NONE ∧ letter_type tb c ≠ LETTER_TYPE_SOT ∧
        letter_type tb c ≠ LETTER_TYPE_EOT) :=
  ⟨letter_fns_spec_rule tok lt h1 h2 h3, uni_found_word_boundary_eq tok lt h1 h2 h3 hp,
    fun c => ⟨letter_type_ne_none tb c, letter_type_ne_sot tb c, letter_type_ne_eot tb c⟩⟩

/-- C16 at `lt = NUMERIC` after `1,` (history `NUMERIC`, `MIDNUM`): no boundary, WB11. -/
theorem letter_fns_rule_table_witness :
    (letter_fns.getD LETTER_TYPE_NUMERIC.ordinal letter_panic)
        { fresh 30 BOUNDARY_ALGORITHM_TR29 with
          prev_letter := LETTER_TYPE_MIDNUM, prev_prev_letter := LETTER_TYPE_NUMERIC } =
      .ok false :=
  (letter_fns_rule_table tables_latin1
    { fresh 30 BOUNDARY_ALGORITHM_TR29 with
      prev_letter := LETTER_TYPE_MIDNUM, prev_prev_letter := LETTER_TYPE_NUMERIC }
    LETTER_TYPE_NUMERIC (by decide) (by decide) (by decide) (by decide)).1

set_option maxRecDepth 100000 in
/-- C17. The TR29 finalize drops more than one code point when the last one
is multi-byte: with the buffer `ab·` (U+00B7 is `C2 B7`, a `MidLetter`) and
`prev_letter = MIDLETTER` the trim loop removes `B7` and `C2`, both have the high
bit set, and `len--` then removes `b`: the token is `a`, not `ab`. So the input
`ab· ` yields the token `a`. With a one-byte joiner, `ab: `, the token is `ab`. -/
theorem tr29_finalize_multibyte :
    valid_utf8 [0x61, 0x62, 0xC2, 0xB7] = true ∧
    spec_drop_last [0x61, 0x62, 0xC2, 0xB7] = [0x61, 0x62] ∧
    fts_tokenizer_generic_tr29_current_token
        { fresh 30 BOUNDARY_ALGORITHM_TR29 with
          token := [0x61, 0x62, 0xC2, 0xB7],
          prev_letter := LETTER_TYPE_MIDLETTER, prev_prev_letter := LETTER_TYPE_ALETTER } =
      .ok (fresh 30 BOUNDARY_ALGORITHM_TR29, [0x61]) ∧
    letter_type tables_latin1 0xB7 = LETTER_TYPE_MIDLETTER ∧
    tokenize tables_latin1 (fresh 30 BOUNDARY_ALGORITHM_TR29) [[0x61, 0x62, 0xC2, 0xB7, 0x20]] =
      .ok [[0x61]] ∧
    tokenize tables_latin1 (fresh 30 BOUNDARY_ALGORITHM_TR29) [[0x61, 0x62, 0x3A, 0x20]] =
      .ok [[0x61, 0x62]] :=
  ⟨by decide, by decide, by decide, by decide, by decide, by decide⟩

set_option maxRecDepth 100000 in
/-- C18. Both failures happen in TR29 mode on valid UTF-8 fed to a fresh
tokenizer. With `maxlen = 1` the input `a' ` leaves the buffer `a` (the
apostrophe is cut by the cap) with `prev_letter = APOSTROPHE`; the trim removes
`a` and the second `i_assert(len > 0)` fails. With `maxlen = 30` the input `é· `
leaves the buffer `C3 A9 C2 B7`, all bytes with the high bit set, and the trim
loop reads the byte before the buffer. -/
theorem tr29_finalize_faults :
    valid_utf8 [0x61, 0x27, 0x20] = true ∧
    fts_tokenizer_next tables_latin1 (fresh 1 BOUNDARY_ALGORITHM_TR29) [0x61, 0x27, 0x20] =
      .fault .assert_len ∧
    valid_utf8 [0xC3, 0xA9, 0xC2, 0xB7, 0x20] = true ∧
    fts_tokenizer_next tables_latin1 (fresh 30 BOUNDARY_ALGORITHM_TR29)
        [0xC3, 0xA9, 0xC2, 0xB7, 0x20] =
      .fault .read_before_buffer :=
  ⟨by decide, by decide, by decide, by decide⟩

/-- C19. In simple mode the history is not reset at the break that emits a
token: the call on `a' ` returns `TOKEN_READY` with the token `a` and leaves
`prev_letter = SINGLE_QUOTE`. The following call sees it: with `maxlen = 1`, on
`'b ` it returns the token `b` after `a' `, and no token after `a `, where the
history is `NONE`. -/
theorem simple_history_after_token (tb : Tables) :
    fts_tokenizer_next tb (fresh 30 BOUNDARY_ALGORITHM_SIMPLE) [0x61, 0x27, 0x20] =
      .ok ⟨{ fresh 30 BOUNDARY_ALGORITHM_SIMPLE with prev_letter := LETTER_TYPE_SINGLE_QUOTE },
        1, 3, [0x61]⟩ ∧
    fts_tokenizer_next tb (fresh 1 BOUNDARY_ALGORITHM_SIMPLE) [0x61, 0x27, 0x20] =
      .ok ⟨{ fresh 1 BOUNDARY_ALGORITHM_SIMPLE with prev_letter := LETTER_TYPE_SINGLE_QUOTE },
        1, 3, [0x61]⟩ ∧
    fts_tokenizer_next tb (fresh 1 BOUNDARY_ALGORITHM_SIMPLE) [0x61, 0x20] =
      .ok ⟨fresh 1 BOUNDARY_ALGORITHM_SIMPLE, 1, 2, [0x61]⟩ ∧
    fts_tokenizer_next tb
        { fresh 1 BOUNDARY_ALGORITHM_SIMPLE with prev_letter := LETTER_TYPE_SINGLE_QUOTE }
        [0x27, 0x62, 0x20] =
      .ok ⟨fresh 1 BOUNDARY_ALGORITHM_SIMPLE, 1, 3, [0x62]⟩ ∧
    fts_tokenizer_next tb (fresh 1 BOUNDARY_ALGORITHM_SIMPLE) [0x27, 0x62, 0x20] =
      .ok ⟨fresh 1 BOUNDARY_ALGORITHM_SIMPLE, 0, 3, []⟩ ∧
    tokenize tb (fresh 1 BOUNDARY_ALGORITHM_SIMPLE) [[0x61, 0x27, 0x20, 0x27, 0x62, 0x20]] =
      .ok [[0x61], [0x62]] ∧
    tokenize tb (fresh 1 BOUNDARY_ALGORITHM_SIMPLE) [[0x61, 0x20, 0x27, 0x62, 0x20]] =
      .ok [[0x61]] :=
  ⟨rfl, rfl, rfl, rfl, rfl, rfl, rfl⟩



/-! ### Code points at the head of a byte sequence -/

theorem is_continuation_ne_zero {b : Nat} (h : is_continuation b = true) : b ≠ 0 := by
  unfold is_continuation at h
  simp only [Bool.and_eq_true, decide_eq_true_eq] at h
  omega

/-- A decoded code point is read off the first `uni_utf8_char_bytes` bytes only,
and none of them is NUL unless the code point is U+0000. -/
theorem get_char_take {l : List Nat} {c : Nat} (h : uni_utf8_get_char_n l = some c) :
    uni_utf8_char_bytes (l.headD 0) ≤ l.length ∧
      (∀ rest, uni_utf8_get_char_n (l.take (uni_utf8_char_bytes (l.headD 0)) ++ rest) = some c) ∧
      (c ≠ 0 → ∀ b ∈ l.take (uni_utf8_char_bytes (l.headD 0)), b ≠ 0) := by
  cases l with
  | nil => simp [uni_utf8_get_char_n] at h
  | cons b0 r0 =>
    simp only [List.headD_cons]
    by_cases h1 : b0 < 0x80
    · have hk : uni_utf8_char_bytes b0 = 1 := by
        unfold uni_utf8_char_bytes; rw [if_pos (by omega)]
      simp only [uni_utf8_get_char_n, h1, if_true, Option.some.injEq] at h
      subst h
      rw [hk]
      refine ⟨by simp, fun rest => by simp [uni_utf8_get_char_n, h1], fun hc b hb => ?_⟩
      simp only [List.take_succ_cons, List.take_zero, List.mem_singleton] at hb
      rw [hb]; exact hc
    · by_cases h2 : b0 < 0xC2
      · simp [uni_utf8_get_char_n, h1, h2] at h
      · by_cases h3 : b0 < 0xE0
        · have hk : uni_utf8_char_bytes b0 = 2 := by
            unfold uni_utf8_char_bytes; rw [if_neg h2, if_pos h3]
          rw [hk]
          cases r0 with
          | nil => simp [uni_utf8_get_char_n, h1, h2, h3] at h
          | cons b1 r1 =>
            simp only [uni_utf8_get_char_n, h1, h2, h3, if_true, if_false] at h
            by_cases c1 : is_continuation b1 = true
            · simp only [c1, if_true] at h
              refine ⟨by simp, fun rest => ?_, fun _ b hb => ?_⟩
              · simp only [List.take_succ_cons, List.take_zero, List.cons_append, List.nil_append,
                  uni_utf8_get_char_n, h1, h2, h3, if_true, if_false, c1]
                exact h
              · simp only [List.take_succ_cons, List.take_zero, List.mem_cons,
                  List.mem_singleton, List.not_mem_nil, or_false] at hb
                rcases hb with hb | hb
                · omega
                · rw [hb]; exact is_continuation_ne_zero c1
            · simp [c1] at h
        · by_cases h4 : b0 < 0xF0
          · have hk : uni_utf8_char_bytes b0 = 3 := by
              unfold uni_utf8_char_bytes; rw [if_neg h2, if_neg h3, if_pos h4]
            rw [hk]
            rcases r0 with _ | ⟨b1, _ | ⟨b2, r2⟩⟩
            · simp [uni_utf8_get_char_n, h1, h2, h3, h4] at h
            · simp [uni_utf8_get_char_n, h1, h2, h3, h4] at h
            · simp only [uni_utf8_get_char_n, h1, h2, h3, h4, if_true, if_false] at h
              split_ifs at h with hc
              refine ⟨by simp, fun rest => ?_, fun _ b hb => ?_⟩
              · simp only [List.take_succ_cons, List.take_zero, List.cons_append, List.nil_append,
                  uni_utf8_get_char_n, h1, h2, h3, h4, if_true, if_false]
                rw [if_pos hc]
                exact h
              · simp only [Bool.and_eq_true] at hc
                simp only [List.take_succ_cons, List.take_zero, List.mem_cons,
                  List.mem_singleton, List.not_mem_nil, or_false] at hb
                rcases hb with hb | hb | hb
                · omega
                · rw [hb]; exact is_continuation_ne_zero hc.1.1.1
                · rw [hb]; exact is_continuation_ne_zero hc.1.1.2
          · by_cases h5 : b0 < 0xF5
            · have hk : uni_utf8_char_bytes b0 = 4 := by
                unfold uni_utf8_char_bytes; rw [if_neg h2, if_neg h3, if_neg h4, if_pos h5]
              rw [hk]
              rcases r0 with _ | ⟨b1, _ | ⟨b2, _ | ⟨b3, r3⟩⟩⟩
              · simp [uni_utf8_get_char_n, h1, h2, h3, h4, h5] at h
              · simp [uni_utf8_get_char_n, h1, h2, h3, h4, h5] at h
              · simp [uni_utf8_get_char_n, h1, h2, h3, h4, h5] at h
              · simp only [uni_utf8_get_char_n, h1, h2, h3, h4, h5, if_true, if_false] at h
                split_ifs at h with hc
                refine ⟨by simp, fun rest => ?_, fun _ b hb => ?_⟩
                · simp only [List.take_succ_cons, List.take_zero, List.cons_append,
                    List.nil_append, uni_utf8_get_char_n, h1, h2, h3, h4, h5, if_true, if_false]
                  rw [if_pos hc]
                  exact h
                · simp only [Bool.and_eq_true] at hc
                  simp only [List.take_succ_cons, List.take_zero, List.mem_cons,
                    List.mem_singleton, List.not_mem_nil, or_false] at hb
                  rcases hb with hb | hb | hb | hb
                  · omega
                  · rw [hb]; exact is_continuation_ne_zero hc.1.1.1.1
                  · rw [hb]; exact is_continuation_ne_zero hc.1.1.1.2
                  · rw [hb]; exact is_continuation_ne_zero hc.1.1.2
            · simp [uni_utf8_get_char_n, h1, h2, h3, h4, h5] at h



/-! ### Code points as chunks -/

theorem cp_has_iff {tb : Tables} {lt : LetterType} {q : List Nat} :
    cp_has tb lt q = true ↔
      ∃ c, uni_utf8_get_char_n q = some c ∧ q.length = uni_utf8_char_bytes (q.headD 0) ∧
        letter_type tb c = lt := by
  unfold cp_has
  cases uni_utf8_get_char_n q with
  | none => simp
  | some c => simp

theorem text_cp_iff {q : List Nat} :
    text_cp q = true ↔
      ∃ c, uni_utf8_get_char_n q = some c ∧ q.length = uni_utf8_char_bytes (q.headD 0) ∧
        IS_NONASCII_APOSTROPHE c = false ∧ c ≠ 0 := by
  unfold text_cp
  cases uni_utf8_get_char_n q with
  | none => simp
  | some c => simp [and_assoc]

/-- A whole code point in front of other bytes: what the decoder and the
length function see there. -/
theorem chunk_head {q : List Nat} {c : Nat} (h : uni_utf8_get_char_n q = some c)
    (hl : q.length = uni_utf8_char_bytes (q.headD 0)) (rest : List Nat) :
    q ≠ [] ∧ uni_utf8_get_char_n (q ++ rest) = some c ∧ (q ++ rest).headD 0 = q.headD 0 ∧
      (c ≠ 0 → ∀ b ∈ q, b ≠ 0) := by
  have hne : q ≠ [] := by
    intro hq
    rw [hq] at h
    simp [uni_utf8_get_char_n] at h
  obtain ⟨-, h2, h3⟩ := get_char_take h
  rw [← hl, List.take_length] at h2 h3
  refine ⟨hne, h2 rest, ?_, h3⟩
  cases q with
  | nil => exact absurd rfl hne
  | cons b r => rfl

theorem letter_type_apostrophe (tb : Tables) (c : Nat) (h : IS_APOSTROPHE c = true) :
    letter_type tb c = LETTER_TYPE_APOSTROPHE := by
  unfold letter_type
  rw [if_pos h]

theorem cp_has_text {tb : Tables} {lt : LetterType} {q : List Nat}
    (h0 : letter_type tb 0 = LETTER_TYPE_OTHER) (h : cp_has tb lt q = true)
    (h1 : lt ≠ LETTER_TYPE_APOSTROPHE) (h2 : lt ≠ LETTER_TYPE_OTHER) : text_cp q = true := by
  obtain ⟨c, hc, hl, hlt⟩ := cp_has_iff.mp h
  refine text_cp_iff.mpr ⟨c, hc, hl, ?_, ?_⟩
  · cases hn : IS_NONASCII_APOSTROPHE c
    · rfl
    · exfalso
      apply h1
      rw [← hlt]
      exact letter_type_apostrophe tb c (by simp [IS_APOSTROPHE, hn])
  · intro hz
    apply h2
    rw [← hlt, hz, h0]

theorem flatten_length_ge {R : List (List Nat)} (h : ∀ q ∈ R, q ≠ []) :
    R.length ≤ R.flatten.length := by
  induction R with
  | nil => simp
  | cons q R ih =>
    have h1 : q ≠ [] := h q (List.mem_cons_self _ _)
    have h2 := ih (fun x hx => h x (List.mem_cons_of_mem _ hx))
    have h3 : 1 ≤ q.length := List.length_pos.mpr h1
    simp only [List.flatten_cons, List.length_append, List.length_cons]
    omega

theorem drop_add_of_drop {data q rest : List Nat} {i : Nat} (h : data.drop i = q ++ rest) :
    data.drop (i + q.length) = rest := by
  rw [← List.drop_drop, h, List.drop_left]

theorem lt_length_of_drop {data q rest : List Nat} {i : Nat} (h : data.drop i = q ++ rest)
    (hq : q ≠ []) : i < data.length := by
  by_contra hlt
  rw [List.drop_eq_nil_of_le (by omega)] at h
  cases q with
  | nil => exact hq rfl
  | cons b r => simp at h

/-! ### The TR29 loop over whole code points -/

/-- One turn of the loop of `fts_tokenizer_generic_next_tr29` at a code point
`q` of category `lt`. -/
theorem next_tr29_loop_step {tb : Tables} {data q rest : List Nat} {lt : LetterType}
    (fuel i ss : Nat) (tok : generic_fts_tokenizer)
    (hd : data.drop i = q ++ rest) (hq : cp_has tb lt q = true) :
    next_tr29_loop tb data (fuel + 1) i ss tok =
      if tok.prev_letter == LETTER_TYPE_NONE && is_nontoken lt then
        if tok.token.length == 0 then next_tr29_loop tb data fuel (i + q.length) (i + q.length) tok
        else .fault .assert_used
      else
        (uni_found_word_boundary tok lt).bind fun r =>
          if r.2 then
            if i < ss || data.length < ss then .fault .assert_start_skip
            else
              (tok_append_truncated r.1 (span data ss i)).bind fun tok1 =>
                (fts_tokenizer_generic_tr29_current_token tok1).bind fun t =>
                  .ok ⟨t.1, 1, i + q.length, t.2⟩
          else next_tr29_loop tb data fuel (i + q.length) ss r.1 := by
  obtain ⟨c, hc, hl, hlt⟩ := cp_has_iff.mp hq
  obtain ⟨hne, hdec, hhead, -⟩ := chunk_head hc hl rest
  have hi : i < data.length := lt_length_of_drop hd hne
  have hg : data.getD i 0 = q.headD 0 := by
    rw [getD_eq_headD_drop, hd, hhead]
  rw [next_tr29_loop]
  simp only [if_pos hi, hd, hdec, hg, ← hl, hlt]

theorem next_tr29_loop_end (tb : Tables) (data : List Nat) (fuel i ss : Nat)
    (tok : generic_fts_tokenizer) (hi : data.length ≤ i) :
    next_tr29_loop tb data fuel i ss tok = next_tr29_finish data i ss tok := by
  cases fuel with
  | zero => rw [next_tr29_loop, if_neg (by omega)]
  | succ n => rw [next_tr29_loop, if_neg (by omega)]


theorem is_nontoken_false {lt : LetterType} (h : is_nontoken lt = false) :
    lt ≠ LETTER_TYPE_NONE ∧ lt ≠ LETTER_TYPE_SOT ∧ lt ≠ LETTER_TYPE_EOT ∧
      lt ≠ LETTER_TYPE_EXTEND ∧ lt ≠ LETTER_TYPE_FORMAT ∧ lt ≠ LETTER_TYPE_APOSTROPHE ∧
      lt ≠ LETTER_TYPE_OTHER := by
  cases lt <;> first | exact absurd h (by decide) | decide

/-- A code point of a token category that its rule does not break before:
the loop goes on, with the history updated. -/
theorem next_tr29_loop_quiet {tb : Tables} {data q rest : List Nat} {lt : LetterType}
    (fuel i ss : Nat) (tok : generic_fts_tokenizer)
    (hd : data.drop i = q ++ rest) (hq : cp_has tb lt q = true)
    (h1 : lt ≠ LETTER_TYPE_NONE) (h2 : lt ≠ LETTER_TYPE_SOT) (h3 : lt ≠ LETTER_TYPE_EOT)
    (h4 : lt ≠ LETTER_TYPE_EXTEND) (h5 : lt ≠ LETTER_TYPE_FORMAT)
    (hs : tok.prev_letter = LETTER_TYPE_NONE ∧ is_nontoken lt = false ∨
      tok.prev_letter ≠ LETTER_TYPE_NONE ∧
        spec_rule lt tok.prev_letter tok.prev_prev_letter = false) :
    next_tr29_loop tb data (fuel + 1) i ss tok =
      next_tr29_loop tb data fuel (i + q.length) ss (add_prev_letter tok lt) := by
  rw [next_tr29_loop_step fuel i ss tok hd hq]
  rcases hs with ⟨hp, hnt⟩ | ⟨hp, hr⟩
  · rw [if_neg (by simp [hnt]), uni_found_word_boundary_first tok lt hp,
      if_neg (by simp [h4, h5]), Outcome.bind_ok]
    simp [add_prev_letter, hp]
  · rw [if_neg (by simp [hp]), uni_found_word_boundary_eq tok lt h1 h2 h3 hp, hr,
      Outcome.bind_ok]
    simp [add_prev_letter, hp, h4, h5]

theorem add_prev_letter_frame (tok : generic_fts_tokenizer) (lt : LetterType) :
    (add_prev_letter tok lt).max_length = tok.max_length ∧
      (add_prev_letter tok lt).algorithm = tok.algorithm ∧
      (add_prev_letter tok lt).token = tok.token ∧
      (add_prev_letter tok lt).prev_letter = lt ∧
      (tok.prev_letter ≠ LETTER_TYPE_NONE →
        (add_prev_letter tok lt).prev_prev_letter = tok.prev_letter) := by
  unfold add_prev_letter
  split_ifs with h
  · exact ⟨rfl, rfl, rfl, rfl, fun _ => rfl⟩
  · refine ⟨rfl, rfl, rfl, rfl, fun hp => ?_⟩
    exact absurd (by simpa using hp) h

/-- A run of code points of one token category that continues after itself
(`ALETTER` after `ALETTER`, and so on): the loop passes the whole run with no
boundary and leaves the category as `prev_letter`. -/
theorem next_tr29_loop_run {tb : Tables} {data : List Nat} {lt : LetterType}
    (hnt : is_nontoken lt = false) (hself : ∀ pp, spec_rule lt lt pp = false) :
    ∀ (R : List (List Nat)) (q : List Nat) (i : Nat) (rest : List Nat)
      (tok : generic_fts_tokenizer),
      (∀ x ∈ q :: R, cp_has tb lt x = true) → data.drop i = (q :: R).flatten ++ rest →
      (tok.prev_letter = LETTER_TYPE_NONE ∨
        spec_rule lt tok.prev_letter tok.prev_prev_letter = false) →
      ∃ tok1 : generic_fts_tokenizer, tok1.max_length = tok.max_length ∧
        tok1.algorithm = tok.algorithm ∧ tok1.token = tok.token ∧ tok1.prev_letter = lt ∧
        ∀ fuel ss, next_tr29_loop tb data (fuel + (q :: R).length) i ss tok =
          next_tr29_loop tb data fuel (i + (q :: R).flatten.length) ss tok1 := by
  obtain ⟨h1, h2, h3, h4, h5, -, -⟩ := is_nontoken_false hnt
  intro R
  induction R with
  | nil =>
    intro q i rest tok hall hd hs
    obtain ⟨f1, f2, f3, f4, -⟩ := add_prev_letter_frame tok lt
    refine ⟨add_prev_letter tok lt, f1, f2, f3, f4, fun fuel ss => ?_⟩
    simp only [List.flatten_cons, List.flatten_nil, List.append_nil, List.length_singleton] at hd ⊢
    refine next_tr29_loop_quiet fuel i ss tok hd (hall q (List.mem_cons_self _ _)) h1 h2 h3 h4 h5 ?_
    by_cases hp : tok.prev_letter = LETTER_TYPE_NONE
    · exact Or.inl ⟨hp, hnt⟩
    · exact Or.inr ⟨hp, hs.resolve_left hp⟩
  | cons q2 R ih =>
    intro q i rest tok hall hd hs
    obtain ⟨f1, f2, f3, f4, -⟩ := add_prev_letter_frame tok lt
    have hd1 : data.drop i = q ++ ((q2 :: R).flatten ++ rest) := by
      rw [hd, List.flatten_cons, List.append_assoc]
    have hd2 := drop_add_of_drop hd1
    obtain ⟨tok1, g1, g2, g3, g4, g5⟩ := ih q2 (i + q.length) rest (add_prev_letter tok lt)
      (fun x hx => hall x (List.mem_cons_of_mem _ hx)) hd2 (Or.inr (by rw [f4]; exact hself _))
    refine ⟨tok1, g1.trans f1, g2.trans f2, g3.trans f3, g4, fun fuel ss => ?_⟩
    have hstep := next_tr29_loop_quiet (fuel + (q2 :: R).length) i ss tok hd1
      (hall q (List.mem_cons_self _ _)) h1 h2 h3 h4 h5
      (by
        by_cases hp : tok.prev_letter = LETTER_TYPE_NONE
        · exact Or.inl ⟨hp, hnt⟩
        · exact Or.inr ⟨hp, hs.resolve_left hp⟩)
    have hlen : (q :: q2 :: R).length = (q2 :: R).length + 1 := rfl
    rw [hlen, ← Nat.add_assoc, hstep, g5 fuel ss]
    simp only [List.flatten_cons, List.length_append, Nat.add_assoc]

/-- A run of code points of a non-token category met with no history: each is
skipped, and the pending span starts after the run. -/
theorem next_tr29_loop_skip {tb : Tables} {data : List Nat} {lt : LetterType}
    (hnt : is_nontoken lt = true) :
    ∀ (R : List (List Nat)) (i : Nat) (rest : List Nat) (tok : generic_fts_tokenizer),
      (∀ x ∈ R, cp_has tb lt x = true) → data.drop i = R.flatten ++ rest →
      tok.prev_letter = LETTER_TYPE_NONE → tok.token = [] →
      ∀ fuel, next_tr29_loop tb data (fuel + R.length) i i tok =
        next_tr29_loop tb data fuel (i + R.flatten.length) (i + R.flatten.length) tok := by
  intro R
  induction R with
  | nil =>
    intro i rest tok _ _ _ _ fuel
    rfl
  | cons q R ih =>
    intro i rest tok hall hd hp ht fuel
    have hd1 : data.drop i = q ++ (R.flatten ++ rest) := by
      rw [hd, List.flatten_cons, List.append_assoc]
    have hd2 := drop_add_of_drop hd1
    have hlen : (q :: R).length = R.length + 1 := rfl
    rw [hlen, ← Nat.add_assoc, next_tr29_loop_step _ i i tok hd1 (hall q (List.mem_cons_self _ _)),
      if_pos (by simp [hp, hnt]), if_pos (by simp [ht]),
      ih (i + q.length) rest tok (fun x hx => hall x (List.mem_cons_of_mem _ hx)) hd2 hp ht fuel]
    simp only [List.flatten_cons, List.length_append, Nat.add_assoc]



/-! ### Appending and emitting whole code points -/

theorem text_cp_chunk {q : List Nat} (h : text_cp q = true) (rest : List Nat) :
    q ≠ [] ∧ (q ++ rest).headD 0 = q.headD 0 ∧
      q.length = uni_utf8_char_bytes (q.headD 0) ∧ (∀ b ∈ q, b ≠ 0) ∧
      ∃ c, uni_utf8_get_char_n (q ++ rest) = some c ∧ IS_NONASCII_APOSTROPHE c = false := by
  obtain ⟨c, hc, hl, ha, hz⟩ := text_cp_iff.mp h
  obtain ⟨g1, g2, g3, g4⟩ := chunk_head hc hl rest
  exact ⟨g1, g3, hl, g4 hz, c, g2, ha⟩

theorem text_flatten_ne_zero {R : List (List Nat)} (h : ∀ q ∈ R, text_cp q = true) :
    ∀ b ∈ R.flatten, b ≠ 0 := by
  intro b hb
  obtain ⟨q, hq, hbq⟩ := List.mem_flatten.mp hb
  exact (text_cp_chunk (h q hq) []).2.2.2.1 b hbq

theorem text_flatten_length {R : List (List Nat)} (h : ∀ q ∈ R, text_cp q = true) :
    R.length ≤ R.flatten.length :=
  flatten_length_ge (fun q hq => (text_cp_chunk (h q hq) []).1)

/-- The loop of `tok_append_truncated` over whole code points without a
non-ASCII apostrophe, all of them within `append_len`: nothing is appended by
the loop itself. -/
theorem tok_append_loop_text (data : List Nat) :
    ∀ (R done : List (List Nat)) (fuel appended : Nat) (buf : List Nat),
      data = done.flatten ++ R.flatten → (∀ q ∈ R, text_cp q = true) → R.length ≤ fuel →
      tok_append_loop data data.length fuel done.flatten.length appended buf =
        .ok (appended, buf) := by
  intro R
  induction R with
  | nil =>
    intro done fuel appended buf hd _ _
    have hl : data.length = done.flatten.length := by rw [hd]; simp
    cases fuel with
    | zero => rw [tok_append_loop, if_neg (by omega)]
    | succ n => rw [tok_append_loop, if_neg (by omega)]
  | cons q R ih =>
    intro done fuel appended buf hd hall hf
    cases fuel with
    | zero => simp at hf
    | succ n =>
      have hdrop : data.drop done.flatten.length = q ++ R.flatten := by
        rw [hd, List.drop_left, List.flatten_cons]
      obtain ⟨hne, hhead, hl, -, c, hc, ha⟩ :=
        text_cp_chunk (hall q (List.mem_cons_self _ _)) R.flatten
      have hi : done.flatten.length < data.length := lt_length_of_drop hdrop hne
      have hg : data.getD done.flatten.length 0 = q.headD 0 := by
        rw [getD_eq_headD_drop, hdrop, hhead]
      have hnext : done.flatten.length + q.length = (done ++ [q]).flatten.length := by simp
      rw [tok_append_loop, if_pos hi]
      simp only [hdrop, hc, ha, Bool.false_eq_true, if_false, hg, ← hl]
      rw [hnext]
      exact ih (done ++ [q]) n appended buf (by rw [hd]; simp)
        (fun x hx => hall x (List.mem_cons_of_mem _ hx)) (by simpa using hf)

/-- The function `tok_append_truncated` on whole code points without a non-ASCII
apostrophe that fit under the cap: the span is appended as it is. -/
theorem tok_append_truncated_text (tok : generic_fts_tokenizer) (R : List (List Nat))
    (hall : ∀ q ∈ R, text_cp q = true)
    (hfit : tok.token.length + R.flatten.length ≤ tok.max_length) :
    tok_append_truncated tok R.flatten = .ok { tok with token := tok.token ++ R.flatten } := by
  unfold tok_append_truncated
  rw [if_neg (by omega)]
  have hmin : min R.flatten.length (tok.max_length - tok.token.length) = R.flatten.length := by
    omega
  simp only [hmin]
  have := tok_append_loop_text R.flatten R [] R.flatten.length 0 tok.token (by simp) hall
    (text_flatten_length hall)
  simp only [List.flatten_nil, List.length_nil] at this
  rw [this, Outcome.bind_ok]
  generalize R.flatten = sp
  by_cases hz : 0 < sp.length
  · simp only [hz, if_true, List.drop_zero, Nat.sub_zero, List.take_length]
  · have hnil : sp = [] := List.length_eq_zero.mp (by omega)
    simp [hnil]

theorem partial_strlen_text (data : List Nat) :
    ∀ (R done : List (List Nat)) (fuel : Nat),
      data = done.flatten ++ R.flatten → (∀ q ∈ R, text_cp q = true) → R.length ≤ fuel →
      uni_utf8_partial_strlen_n data fuel done.flatten.length = data.length := by
  intro R
  induction R with
  | nil =>
    intro done fuel hd _ _
    have hl : data.length = done.flatten.length := by rw [hd]; simp
    cases fuel with
    | zero => rw [uni_utf8_partial_strlen_n, hl]
    | succ n => rw [uni_utf8_partial_strlen_n, if_neg (by omega), hl]
  | cons q R ih =>
    intro done fuel hd hall hf
    cases fuel with
    | zero => simp at hf
    | succ n =>
      have hdrop : data.drop done.flatten.length = q ++ R.flatten := by
        rw [hd, List.drop_left, List.flatten_cons]
      obtain ⟨hne, hhead, hl, -, -⟩ :=
        text_cp_chunk (hall q (List.mem_cons_self _ _)) R.flatten
      have hi : done.flatten.length < data.length := lt_length_of_drop hdrop hne
      have hg : data.getD done.flatten.length 0 = q.headD 0 := by
        rw [getD_eq_headD_drop, hdrop, hhead]
      have hnext : done.flatten.length + q.length = (done ++ [q]).flatten.length := by simp
      have hle : done.flatten.length + q.length ≤ data.length := by
        rw [hd]; simp
      rw [uni_utf8_partial_strlen_n, if_pos hi, hg, ← hl, if_neg (by omega), hnext]
      exact ih (done ++ [q]) n (by rw [hd]; simp)
        (fun x hx => hall x (List.mem_cons_of_mem _ hx)) (by simpa using hf)

/-- The function `fts_uni_strndup` on whole code points other than U+0000
returns them all. -/
theorem fts_uni_strndup_text (R : List (List Nat)) (hall : ∀ q ∈ R, text_cp q = true)
    (hne : R ≠ []) : fts_uni_strndup R.flatten = .ok R.flatten := by
  unfold fts_uni_strndup
  have hp := partial_strlen_text R.flatten R [] R.flatten.length (by simp) hall
    (text_flatten_length hall)
  simp only [List.flatten_nil, List.length_nil] at hp
  have hpos : 0 < R.flatten.length := by
    have := text_flatten_length hall
    have : 0 < R.length := List.length_pos.mpr hne
    omega
  simp only [hp, hpos, if_true, t_strndup, List.take_length]
  congr 1
  rw [List.takeWhile_eq_self_iff]
  intro b hb
  simpa using text_flatten_ne_zero hall b hb

/-- The function `fts_tokenizer_generic_tr29_current_token` on a buffer of whole
code points, when the last one is no joiner to drop: the buffer is the token. -/
theorem tr29_current_token_text (tok : generic_fts_tokenizer) (R : List (List Nat))
    (hall : ∀ q ∈ R, text_cp q = true) (hne : R ≠ []) (ht : tok.token = R.flatten)
    (hp : is_one_past_end tok = false) :
    fts_tokenizer_generic_tr29_current_token tok =
      .ok ({ tok with prev_prev_letter := LETTER_TYPE_NONE, prev_letter := LETTER_TYPE_NONE,
                      token := [] }, R.flatten) := by
  unfold fts_tokenizer_generic_tr29_current_token
  have hpos : 0 < R.flatten.length := by
    have := text_flatten_length hall
    have : 0 < R.length := List.length_pos.mpr hne
    omega
  simp only [hp, Bool.false_eq_true, if_false, Outcome.bind_ok, ht, hpos, if_true,
    List.take_length, fts_uni_strndup_text R hall hne]



/-! ### C12: a joiner between two runs -/

theorem span_all (data : List Nat) : span data 0 data.length = data := by
  simp [span]

/-- The end of a call whose whole chunk is pending, made of whole code points
that fit under the cap: they are appended and the call returns NEED_MORE. -/
theorem next_tr29_finish_text (R : List (List Nat)) (tok : generic_fts_tokenizer)
    (hall : ∀ q ∈ R, text_cp q = true) (hne : R ≠ []) (ht : tok.token = [])
    (hfit : R.flatten.length ≤ tok.max_length) :
    next_tr29_finish R.flatten R.flatten.length 0 tok =
      .ok ⟨{ tok with token := R.flatten }, 0, R.flatten.length, []⟩ := by
  have hpos : 0 < R.flatten.length := by
    have := text_flatten_length hall
    have : 0 < R.length := List.length_pos.mpr hne
    omega
  unfold next_tr29_finish
  rw [if_neg (by simp), span_all,
    tok_append_truncated_text tok R hall (by rw [ht]; simpa using hfit), Outcome.bind_ok, ht]
  rw [if_neg]
  · rfl
  · simp only [Bool.and_eq_true, beq_iff_eq, not_and]
    intro h
    omega

/-- A flush with whole code points in the buffer, the last one no joiner to
drop: the buffer is emitted and the handle is as new. -/
theorem next_tr29_flush_text (tb : Tables) (R : List (List Nat)) (tok : generic_fts_tokenizer)
    (hall : ∀ q ∈ R, text_cp q = true) (hne : R ≠ []) (ht : tok.token = R.flatten)
    (hfit : R.flatten.length ≤ tok.max_length) (hp : is_one_past_end tok = false) :
    fts_tokenizer_generic_next_tr29 tb tok [] =
      .ok ⟨{ tok with prev_prev_letter := LETTER_TYPE_NONE, prev_letter := LETTER_TYPE_NONE,
                      token := [] }, 1, 0, R.flatten⟩ := by
  have hpos : 0 < R.flatten.length := by
    have := text_flatten_length hall
    have : 0 < R.length := List.length_pos.mpr hne
    omega
  have happ : tok_append_truncated tok [] = .ok tok := by
    unfold tok_append_truncated
    rw [if_neg (by rw [ht]; omega)]
    simp [tok_append_loop]
  unfold fts_tokenizer_generic_next_tr29
  rw [next_tr29_loop_end tb [] _ 0 0 tok (by simp)]
  unfold next_tr29_finish
  have hc : ((([] : List Nat).length == 0) && decide (tok.token.length > 0)) = true := by
    rw [ht]; simpa using hpos
  rw [if_neg (by simp), span_self, happ, Outcome.bind_ok, if_pos hc,
    tr29_current_token_text tok R hall hne ht hp, Outcome.bind_ok]

/-- A call with `size == 0` on an empty buffer returns NEED_MORE and changes nothing. -/
theorem next_tr29_idle (tb : Tables) (tok : generic_fts_tokenizer) (ht : tok.token = []) :
    fts_tokenizer_generic_next_tr29 tb tok [] = .ok ⟨tok, 0, 0, []⟩ := by
  have happ : tok_append_truncated tok [] = .ok tok := by
    unfold tok_append_truncated
    rw [if_neg (by rw [ht]; simp)]
    simp [tok_append_loop]
  unfold fts_tokenizer_generic_next_tr29
  rw [next_tr29_loop_end tb [] _ 0 0 tok (by simp)]
  unfold next_tr29_finish
  rw [if_neg (by simp), span_self, happ, Outcome.bind_ok, if_neg (by simp [ht])]

/-- Two runs of a category `lt` joined by one code point of a category `jt`
that the rules keep inside (`ALETTER`, `APOSTROPHE` or `NUMERIC`, `MIDNUM`): the
call passes all of it without a boundary and returns NEED_MORE with the whole
chunk in the buffer. -/
theorem tr29_joined_call {tb : Tables} {lt jt : LetterType}
    (hnt : is_nontoken lt = false) (hself : ∀ pp, spec_rule lt lt pp = false)
    (hj : ∀ pp, spec_rule jt lt pp = false) (hback : spec_rule lt jt lt = false)
    (j1 : jt ≠ LETTER_TYPE_NONE) (j2 : jt ≠ LETTER_TYPE_SOT) (j3 : jt ≠ LETTER_TYPE_EOT)
    (j4 : jt ≠ LETTER_TYPE_EXTEND) (j5 : jt ≠ LETTER_TYPE_FORMAT)
    (m : Nat) (A1 A2 : List (List Nat)) (a b J : List Nat)
    (hA1 : ∀ x ∈ a :: A1, cp_has tb lt x = true) (hJ : cp_has tb jt J = true)
    (hA2 : ∀ x ∈ b :: A2, cp_has tb lt x = true)
    (htext : ∀ x ∈ (a :: A1) ++ [J] ++ (b :: A2), text_cp x = true)
    (hfit : ((a :: A1) ++ [J] ++ (b :: A2)).flatten.length ≤ m) :
    ∃ tok1 : generic_fts_tokenizer, tok1.prev_letter = lt ∧ tok1.max_length = m ∧
      tok1.algorithm = BOUNDARY_ALGORITHM_TR29 ∧
      tok1.token = ((a :: A1) ++ [J] ++ (b :: A2)).flatten ∧
      fts_tokenizer_generic_next_tr29 tb (fresh m BOUNDARY_ALGORITHM_TR29)
          ((a :: A1) ++ [J] ++ (b :: A2)).flatten =
        .ok ⟨tok1, 0, ((a :: A1) ++ [J] ++ (b :: A2)).flatten.length, []⟩ := by
  obtain ⟨h1, -, -, -, -, -, -⟩ := is_nontoken_false hnt
  generalize hR : (a :: A1) ++ [J] ++ (b :: A2) = R at htext hfit ⊢
  have hRne : R ≠ [] := by rw [← hR]; simp
  have hdata : R.flatten = (a :: A1).flatten ++ (J ++ (b :: A2).flatten) := by
    rw [← hR]; simp
  have hlen : R.flatten.length =
      (a :: A1).flatten.length + J.length + (b :: A2).flatten.length := by
    rw [hdata]; simp only [List.length_append]; omega
  have hcount : R.length = (a :: A1).length + 1 + (b :: A2).length := by
    rw [← hR]; simp only [List.length_append, List.length_singleton]
  -- the first run
  have hd0 : R.flatten.drop 0 = (a :: A1).flatten ++ (J ++ (b :: A2).flatten) := by
    rw [List.drop_zero, hdata]
  obtain ⟨t1, a1, a2, a3, a4, run1⟩ := next_tr29_loop_run hnt hself A1 a 0 _
    (fresh m BOUNDARY_ALGORITHM_TR29) hA1 hd0 (Or.inl rfl)
  -- the joiner
  have hd1 := drop_add_of_drop hd0
  obtain ⟨b1, b2, b3, b4, b5⟩ := add_prev_letter_frame t1 jt
  have step := fun fuel => next_tr29_loop_quiet fuel (0 + (a :: A1).flatten.length) 0 t1 hd1 hJ
    j1 j2 j3 j4 j5 (Or.inr ⟨by rw [a4]; exact h1, by rw [a4]; exact hj _⟩)
  -- the second run
  have hd2 : R.flatten.drop (0 + (a :: A1).flatten.length + J.length) =
      (b :: A2).flatten ++ [] := by
    rw [drop_add_of_drop hd1, List.append_nil]
  obtain ⟨t3, c1, c2, c3, c4, run2⟩ := next_tr29_loop_run hnt hself A2 b _ _
    (add_prev_letter t1 jt) hA2 hd2
    (Or.inr (by rw [b4, b5 (by rw [a4]; exact h1), a4]; exact hback))
  have e1 : t3.max_length = m := by rw [c1, b1, a1]; rfl
  have e2 : t3.algorithm = BOUNDARY_ALGORITHM_TR29 := by rw [c2, b2, a2]; rfl
  have e3 : t3.token = [] := by rw [c3, b3, a3]; rfl
  refine ⟨{ t3 with token := R.flatten }, c4, e1, e2, rfl, ?_⟩
  obtain ⟨e, he⟩ : ∃ e, R.flatten.length = e + (b :: A2).length + 1 + (a :: A1).length :=
    ⟨R.flatten.length - R.length, by have := text_flatten_length htext; omega⟩
  unfold fts_tokenizer_generic_next_tr29
  have hfuel : next_tr29_loop tb R.flatten R.flatten.length 0 0 (fresh m BOUNDARY_ALGORITHM_TR29) =
      next_tr29_loop tb R.flatten (e + (b :: A2).length + 1 + (a :: A1).length) 0 0
        (fresh m BOUNDARY_ALGORITHM_TR29) := by rw [← he]
  rw [hfuel, run1, step, run2,
    next_tr29_loop_end tb _ _ _ _ _ (by rw [hlen]; omega)]
  have hi : 0 + (a :: A1).flatten.length + J.length + (b :: A2).flatten.length =
      R.flatten.length := by rw [hlen]; omega
  rw [hi]
  exact next_tr29_finish_text R t3 htext hRne e3 (by rw [e1]; exact hfit)


theorem feed_succ (tb : Tables) (fuel : Nat) (tok : generic_fts_tokenizer) (data : List Nat) :
    feed tb (fuel + 1) tok data =
      (fts_tokenizer_next tb tok data).bind fun r =>
        if r.ret == 1 then
          (feed tb fuel r.tok (data.drop r.skip)).bind fun p => .ok (p.1, r.token :: p.2)
        else .ok (r.tok, []) := rfl

theorem next_tr29_eq (tb : Tables) (tok : generic_fts_tokenizer) (data : List Nat)
    (h : tok.algorithm = BOUNDARY_ALGORITHM_TR29) :
    fts_tokenizer_next tb tok data = fts_tokenizer_generic_next_tr29 tb tok data := by
  unfold fts_tokenizer_next
  rw [h]

/-- The whole protocol on two runs and their joiner: NEED_MORE on the chunk,
then the flush emits the chunk as one token. -/
theorem tr29_joined_tokenize {tb : Tables} (lt jt : LetterType)
    (hnt : is_nontoken lt = false) (hself : ∀ pp, spec_rule lt lt pp = false)
    (hj : ∀ pp, spec_rule jt lt pp = false) (hback : spec_rule lt jt lt = false)
    (j1 : jt ≠ LETTER_TYPE_NONE) (j2 : jt ≠ LETTER_TYPE_SOT) (j3 : jt ≠ LETTER_TYPE_EOT)
    (j4 : jt ≠ LETTER_TYPE_EXTEND) (j5 : jt ≠ LETTER_TYPE_FORMAT)
    (hend : ∀ tok : generic_fts_tokenizer, tok.prev_letter = lt → is_one_past_end tok = false)
    (m : Nat) (A1 A2 : List (List Nat)) (J : List Nat) (hA1 : A1 ≠ []) (hA2 : A2 ≠ [])
    (hrun : ∀ x ∈ A1 ++ A2, cp_has tb lt x = true) (hJ : cp_has tb jt J = true)
    (htext : ∀ x ∈ A1 ++ [J] ++ A2, text_cp x = true)
    (hfit : (A1.flatten ++ J ++ A2.flatten).length ≤ m) :
    ∃ tok1 : generic_fts_tokenizer,
      fts_tokenizer_next tb (fresh m BOUNDARY_ALGORITHM_TR29) (A1.flatten ++ J ++ A2.flatten) =
        .ok ⟨tok1, 0, (A1.flatten ++ J ++ A2.flatten).length, []⟩ ∧
      tok1.token = A1.flatten ++ J ++ A2.flatten ∧
      fts_tokenizer_next tb tok1 [] =
        .ok ⟨fresh m BOUNDARY_ALGORITHM_TR29, 1, 0, A1.flatten ++ J ++ A2.flatten⟩ ∧
      tokenize tb (fresh m BOUNDARY_ALGORITHM_TR29) [A1.flatten ++ J ++ A2.flatten] =
        .ok [A1.flatten ++ J ++ A2.flatten] := by
  obtain ⟨a, A1, rfl⟩ := List.exists_cons_of_ne_nil hA1
  obtain ⟨b, A2, rfl⟩ := List.exists_cons_of_ne_nil hA2
  have hflat : ((a :: A1) ++ [J] ++ (b :: A2)).flatten =
      (a :: A1).flatten ++ J ++ (b :: A2).flatten := by simp
  rw [← hflat] at hfit ⊢
  obtain ⟨tok1, p1, p2, p3, p4, p5⟩ := tr29_joined_call hnt hself hj hback j1 j2 j3 j4 j5 m A1 A2
    a b J (fun x hx => hrun x (List.mem_append_left _ hx)) hJ
    (fun x hx => hrun x (List.mem_append_right _ hx)) htext hfit
  have hre : fts_tokenizer_generic_reset tok1 = fresh m BOUNDARY_ALGORITHM_TR29 := by
    rw [← p2, ← p3]; rfl
  have c1 : fts_tokenizer_next tb (fresh m BOUNDARY_ALGORITHM_TR29)
      ((a :: A1) ++ [J] ++ (b :: A2)).flatten =
      .ok ⟨tok1, 0, ((a :: A1) ++ [J] ++ (b :: A2)).flatten.length, []⟩ := by
    rw [next_tr29_eq tb _ _ rfl, p5]
  have c2 : fts_tokenizer_next tb tok1 [] =
      .ok ⟨fresh m BOUNDARY_ALGORITHM_TR29, 1, 0, ((a :: A1) ++ [J] ++ (b :: A2)).flatten⟩ := by
    rw [next_tr29_eq tb _ _ p3,
      next_tr29_flush_text tb _ tok1 htext (by simp) p4 (by rw [p2]; exact hfit) (hend tok1 p1),
      ← hre]
    rfl
  have c3 : fts_tokenizer_next tb (fresh m BOUNDARY_ALGORITHM_TR29) [] =
      .ok ⟨fresh m BOUNDARY_ALGORITHM_TR29, 0, 0, []⟩ := by
    rw [next_tr29_eq tb _ _ rfl, next_tr29_idle tb _ rfl]
  refine ⟨tok1, c1, p4, c2, ?_⟩
  unfold tokenize feed_chunks feed_chunk
  have b0 : ((0 : Nat) == 1) = false := rfl
  have b1 : ((1 : Nat) == 1) = true := rfl
  rw [feed_succ, c1]
  simp only [Outcome.bind_ok, feed_chunks, List.length_nil, Nat.zero_add, b0,
    Bool.false_eq_true, if_false, List.append_nil, List.nil_append]
  rw [feed_succ, c2]
  simp only [Outcome.bind_ok, List.drop_zero, b1, if_true]
  rw [feed_succ, c3]
  simp only [Outcome.bind_ok, b0, Bool.false_eq_true, if_false]

theorem cp_has_apostrophe (tb : Tables) : cp_has tb LETTER_TYPE_APOSTROPHE [0x27] = true :=
  cp_has_iff.mpr ⟨0x27, rfl, rfl, letter_type_apostrophe tb _ rfl⟩

/-- C12. In TR29 mode one joiner between two runs of the same kind stays in the
token. The input is a non-empty run `A1` of code points, a joiner `J`, and a
non-empty run `A2`, where the runs are `ALETTER` and `J` is the apostrophe
`0x27`, or the runs are `NUMERIC` and `J` is one `MIDNUM` code point; its byte
length is at most `maxlen`. Fed to a fresh tokenizer, the call returns NEED_MORE
with all of the input consumed and held in the buffer, and the `size == 0` flush
returns the whole input as the one token. A token is a C string, so the tables
must leave U+0000 in no category (`OTHER`), as Unicode does. -/
theorem tr29_joiner_kept (tb : Tables) (maxlen : Nat) (lt : LetterType)
    (A1 A2 : List (List Nat)) (J : List Nat)
    (h0 : letter_type tb 0 = LETTER_TYPE_OTHER) (hA1 : A1 ≠ []) (hA2 : A2 ≠ [])
    (hrun : ∀ q ∈ A1 ++ A2, cp_has tb lt q = true)
    (hkind : (lt = LETTER_TYPE_ALETTER ∧ J = [0x27]) ∨
      (lt = LETTER_TYPE_NUMERIC ∧ cp_has tb LETTER_TYPE_MIDNUM J = true))
    (hfit : (A1.flatten ++ J ++ A2.flatten).length ≤ maxlen) :
    ∃ tok1 : generic_fts_tokenizer,
      fts_tokenizer_next tb (fresh maxlen BOUNDARY_ALGORITHM_TR29)
          (A1.flatten ++ J ++ A2.flatten) =
        .ok ⟨tok1, 0, (A1.flatten ++ J ++ A2.flatten).length, []⟩ ∧
      tok1.token = A1.flatten ++ J ++ A2.flatten ∧
      fts_tokenizer_next tb tok1 [] =
        .ok ⟨fresh maxlen BOUNDARY_ALGORITHM_TR29, 1, 0, A1.flatten ++ J ++ A2.flatten⟩ ∧
      tokenize tb (fresh maxlen BOUNDARY_ALGORITHM_TR29) [A1.flatten ++ J ++ A2.flatten] =
        .ok [A1.flatten ++ J ++ A2.flatten] := by
  rcases hkind with ⟨hlt, hJ⟩ | ⟨hlt, hJ⟩
  · subst hlt
    subst hJ
    refine tr29_joined_tokenize LETTER_TYPE_ALETTER LETTER_TYPE_APOSTROPHE (by decide)
      (fun pp => by cases pp <;> rfl) (fun pp => by cases pp <;> rfl) (by decide) (by decide)
      (by decide) (by decide) (by decide) (by decide)
      (fun tok hp => by simp [is_one_past_end, hp]) maxlen A1 A2 _ hA1 hA2 hrun
      (cp_has_apostrophe tb) ?_ hfit
    intro x hx
    simp only [List.mem_append, List.mem_singleton] at hx
    rcases hx with (hx | hx) | hx
    · exact cp_has_text h0 (hrun x (List.mem_append_left _ hx)) (by decide) (by decide)
    · rw [hx]; rfl
    · exact cp_has_text h0 (hrun x (List.mem_append_right _ hx)) (by decide) (by decide)
  · subst hlt
    refine tr29_joined_tokenize LETTER_TYPE_NUMERIC LETTER_TYPE_MIDNUM (by decide)
      (fun pp => by cases pp <;> rfl) (fun pp => by cases pp <;> rfl) (by decide) (by decide)
      (by decide) (by decide) (by decide) (by decide)
      (fun tok hp => by simp [is_one_past_end, hp]) maxlen A1 A2 _ hA1 hA2 hrun hJ ?_ hfit
    intro x hx
    simp only [List.mem_append, List.mem_singleton] at hx
    rcases hx with (hx | hx) | hx
    · exact cp_has_text h0 (hrun x (List.mem_append_left _ hx)) (by decide) (by decide)
    · rw [hx]; exact cp_has_text h0 hJ (by decide) (by decide)
    · exact cp_has_text h0 (hrun x (List.mem_append_right _ hx)) (by decide) (by decide)

set_option maxRecDepth 100000 in
/-- C12 at `can't` and at `1,000`, with the Latin-1 tables and `maxlen = 30`. -/
theorem tr29_joiner_kept_witness :
    tokenize tables_latin1 (fresh 30 BOUNDARY_ALGORITHM_TR29) [[0x63, 0x61, 0x6E, 0x27, 0x74]] =
        .ok [[0x63, 0x61, 0x6E, 0x27, 0x74]] ∧
      tokenize tables_latin1 (fresh 30 BOUNDARY_ALGORITHM_TR29) [[0x31, 0x2C, 0x30, 0x30, 0x30]] =
        .ok [[0x31, 0x2C, 0x30, 0x30, 0x30]] :=
  ⟨(tr29_joiner_kept tables_latin1 30 LETTER_TYPE_ALETTER [[0x63], [0x61], [0x6E]] [[0x74]]
      [0x27] (by decide) (by decide) (by decide) (by decide) (Or.inl ⟨rfl, rfl⟩)
      (by decide)).elim (fun _ h => h.2.2.2),
    (tr29_joiner_kept tables_latin1 30 LETTER_TYPE_NUMERIC [[0x31]] [[0x30], [0x30], [0x30]]
      [0x2C] (by decide) (by decide) (by decide) (by decide) (Or.inr ⟨rfl, by decide⟩)
      (by decide)).elim (fun _ h => h.2.2.2)⟩



/-! ### C13: a Katakana run and what follows it -/

theorem cp_has_ne_nil {tb : Tables} {lt : LetterType} {q : List Nat}
    (h : cp_has tb lt q = true) : q ≠ [] := by
  obtain ⟨c, hc, hl, -⟩ := cp_has_iff.mp h
  exact (chunk_head hc hl []).1

theorem span_append_left (w rest : List Nat) : span (w ++ rest) 0 w.length = w := by
  simp [span]

/-- A call on code points of a non-token category only, with nothing pending:
all are skipped and the call returns NEED_MORE. -/
theorem next_tr29_skip_all {tb : Tables} {lt : LetterType} (hnt : is_nontoken lt = true)
    (R : List (List Nat)) (tok : generic_fts_tokenizer)
    (hall : ∀ x ∈ R, cp_has tb lt x = true)
    (hp : tok.prev_letter = LETTER_TYPE_NONE) (ht : tok.token = []) :
    fts_tokenizer_generic_next_tr29 tb tok R.flatten = .ok ⟨tok, 0, R.flatten.length, []⟩ := by
  have happ : tok_append_truncated tok [] = .ok tok := by
    unfold tok_append_truncated
    rw [if_neg (by rw [ht]; simp)]
    simp [tok_append_loop]
  obtain ⟨e, he⟩ : ∃ e, R.flatten.length = e + R.length :=
    ⟨R.flatten.length - R.length, by
      have := flatten_length_ge (fun q hq => cp_has_ne_nil (hall q hq)); omega⟩
  unfold fts_tokenizer_generic_next_tr29
  have hfuel : next_tr29_loop tb R.flatten R.flatten.length 0 0 tok =
      next_tr29_loop tb R.flatten (e + R.length) 0 0 tok := by rw [← he]
  rw [hfuel, next_tr29_loop_skip hnt R 0 [] tok hall (by simp) hp ht e,
    next_tr29_loop_end tb _ _ _ _ _ (by omega)]
  unfold next_tr29_finish
  rw [if_neg (by simp), span_self, happ, Outcome.bind_ok, if_neg (by simp [ht]), Nat.zero_add]

/-- A run of one token category followed by a code point that always breaks:
the call returns the run as the token and consumes the breaking code point. -/
theorem next_tr29_run_then_break {tb : Tables} (lt bt : LetterType)
    (hnt : is_nontoken lt = false) (hself : ∀ pp, spec_rule lt lt pp = false)
    (hbreak : ∀ pp, spec_rule bt lt pp = true)
    (b1 : bt ≠ LETTER_TYPE_NONE) (b2 : bt ≠ LETTER_TYPE_SOT) (b3 : bt ≠ LETTER_TYPE_EOT)
    (hend : ∀ tok : generic_fts_tokenizer, tok.prev_letter = lt → is_one_past_end tok = false)
    (m : Nat) (K : List (List Nat)) (k o rest : List Nat)
    (hK : ∀ x ∈ k :: K, cp_has tb lt x = true) (ho : cp_has tb bt o = true)
    (htext : ∀ x ∈ k :: K, text_cp x = true) (hfit : (k :: K).flatten.length ≤ m) :
    fts_tokenizer_generic_next_tr29 tb (fresh m BOUNDARY_ALGORITHM_TR29)
        ((k :: K).flatten ++ (o ++ rest)) =
      .ok ⟨fresh m BOUNDARY_ALGORITHM_TR29, 1, (k :: K).flatten.length + o.length,
        (k :: K).flatten⟩ := by
  obtain ⟨h1, -, -, -, -, -, -⟩ := is_nontoken_false hnt
  generalize hdata : (k :: K).flatten ++ (o ++ rest) = data
  have hd0 : data.drop 0 = (k :: K).flatten ++ (o ++ rest) := by rw [List.drop_zero, hdata]
  obtain ⟨t1, a1, a2, a3, a4, run1⟩ := next_tr29_loop_run hnt hself K k 0 _
    (fresh m BOUNDARY_ALGORITHM_TR29) hK hd0 (Or.inl rfl)
  have hd1 := drop_add_of_drop hd0
  have hone : 1 ≤ o.length := List.length_pos.mpr (cp_has_ne_nil ho)
  have hcnt := text_flatten_length htext
  have hlen : data.length = (k :: K).flatten.length + o.length + rest.length := by
    rw [← hdata]; simp only [List.length_append]; omega
  obtain ⟨e, he⟩ : ∃ e, data.length = e + 1 + (k :: K).length :=
    ⟨data.length - 1 - (k :: K).length, by omega⟩
  have e1 : t1.max_length = m := by rw [a1]; rfl
  have e2 : t1.algorithm = BOUNDARY_ALGORITHM_TR29 := by rw [a2]; rfl
  have e3 : t1.token = [] := by rw [a3]; rfl
  have hp1 : t1.prev_letter ≠ LETTER_TYPE_NONE := by rw [a4]; exact h1
  have hsp : span data 0 (0 + (k :: K).flatten.length) = (k :: K).flatten := by
    rw [← hdata, Nat.zero_add, span_append_left]
  have hre : fts_tokenizer_generic_reset t1 = fresh m BOUNDARY_ALGORITHM_TR29 := by
    rw [← e1, ← e2]; rfl
  unfold fts_tokenizer_generic_next_tr29
  have hfuel : next_tr29_loop tb data data.length 0 0 (fresh m BOUNDARY_ALGORITHM_TR29) =
      next_tr29_loop tb data (e + 1 + (k :: K).length) 0 0
        (fresh m BOUNDARY_ALGORITHM_TR29) := by rw [← he]
  rw [hfuel, run1, next_tr29_loop_step e _ 0 t1 hd1 ho, if_neg (by simp [hp1]),
    uni_found_word_boundary_eq t1 bt b1 b2 b3 hp1, a4, hbreak, if_pos rfl, Outcome.bind_ok]
  simp only [if_true]
  rw [if_neg (by simp), hsp,
    tok_append_truncated_text t1 (k :: K) htext (by rw [e3, e1]; simpa using hfit),
    Outcome.bind_ok,
    tr29_current_token_text { t1 with token := t1.token ++ (k :: K).flatten } (k :: K) htext
      (by simp) (by rw [e3]; rfl) (hend _ a4),
    Outcome.bind_ok, Nat.zero_add, ← hre]
  rfl

set_option maxRecDepth 1000000 in
/-- C13, as stated, fails on `カタカナです` (with the tables extended to
U+3040..U+30FF and `maxlen = 30`): the four Katakana letters are one token, the
Hiragana letters `で` and `す` are `OTHER` and give no token; the claim expects
the three tokens `カタカナ`, `で`, `す`. -/
theorem katakana_hiragana_one_token :
    letter_type tables_kana 0x30AB = LETTER_TYPE_KATAKANA ∧
    letter_type tables_kana 0x3067 = LETTER_TYPE_OTHER ∧
    letter_type tables_kana 0x3059 = LETTER_TYPE_OTHER ∧
    tokenize tables_kana (fresh 30 BOUNDARY_ALGORITHM_TR29)
        [[0xE3, 0x82, 0xAB, 0xE3, 0x82, 0xBF, 0xE3, 0x82, 0xAB, 0xE3, 0x83, 0x8A,
          0xE3, 0x81, 0xA7, 0xE3, 0x81, 0x99]] =
      .ok [[0xE3, 0x82, 0xAB, 0xE3, 0x82, 0xBF, 0xE3, 0x82, 0xAB, 0xE3, 0x83, 0x8A]] ∧
    tokenize tables_kana (fresh 30 BOUNDARY_ALGORITHM_TR29)
        [[0xE3, 0x82, 0xAB, 0xE3, 0x82, 0xBF, 0xE3, 0x82, 0xAB, 0xE3, 0x83, 0x8A,
          0xE3, 0x81, 0xA7, 0xE3, 0x81, 0x99]] ≠
      .ok [[0xE3, 0x82, 0xAB, 0xE3, 0x82, 0xBF, 0xE3, 0x82, 0xAB, 0xE3, 0x83, 0x8A],
        [0xE3, 0x81, 0xA7], [0xE3, 0x81, 0x99]] := by
  refine ⟨?_, ?_, ?_, ?_, ?_⟩ <;> decide


/-- C13, amended. In TR29 mode code points of category `OTHER` form no token:
for a non-empty run `K` of `KATAKANA` code points of at most `maxlen` bytes
followed by one or more `OTHER` code points `O`, the first call on a fresh
tokenizer returns the Katakana run as a token, with the first `OTHER` code point
consumed as the boundary, and feeding the input and flushing emits that one
token and nothing else. The tables must leave U+0000 in no category. -/
theorem tr29_katakana_then_other (tb : Tables) (maxlen : Nat) (K O : List (List Nat))
    (h0 : letter_type tb 0 = LETTER_TYPE_OTHER) (hK : K ≠ []) (hO : O ≠ [])
    (hk : ∀ q ∈ K, cp_has tb LETTER_TYPE_KATAKANA q = true)
    (ho : ∀ q ∈ O, cp_has tb LETTER_TYPE_OTHER q = true)
    (hfit : K.flatten.length ≤ maxlen) :
    fts_tokenizer_next tb (fresh maxlen BOUNDARY_ALGORITHM_TR29) (K.flatten ++ O.flatten) =
        .ok ⟨fresh maxlen BOUNDARY_ALGORITHM_TR29, 1, K.flatten.length + (O.headD []).length,
          K.flatten⟩ ∧
      tokenize tb (fresh maxlen BOUNDARY_ALGORITHM_TR29) [K.flatten ++ O.flatten] =
        .ok [K.flatten] := by
  obtain ⟨k, K, rfl⟩ := List.exists_cons_of_ne_nil hK
  obtain ⟨o, O, rfl⟩ := List.exists_cons_of_ne_nil hO
  have htext : ∀ x ∈ k :: K, text_cp x = true :=
    fun x hx => cp_has_text h0 (hk x hx) (by decide) (by decide)
  have hfo : (o :: O).flatten = o ++ O.flatten := List.flatten_cons
  have c1 : fts_tokenizer_next tb (fresh maxlen BOUNDARY_ALGORITHM_TR29)
      ((k :: K).flatten ++ (o :: O).flatten) =
      .ok ⟨fresh maxlen BOUNDARY_ALGORITHM_TR29, 1, (k :: K).flatten.length + o.length,
        (k :: K).flatten⟩ := by
    rw [next_tr29_eq tb _ _ rfl, hfo]
    exact next_tr29_run_then_break LETTER_TYPE_KATAKANA LETTER_TYPE_OTHER (by decide)
      (fun pp => by cases pp <;> rfl) (fun pp => by cases pp <;> rfl) (by decide) (by decide)
      (by decide) (fun tok hp => by simp [is_one_past_end, hp]) maxlen K k o O.flatten hk
      (ho o (List.mem_cons_self _ _)) htext hfit
  have c2 : fts_tokenizer_next tb (fresh maxlen BOUNDARY_ALGORITHM_TR29) O.flatten =
      .ok ⟨fresh maxlen BOUNDARY_ALGORITHM_TR29, 0, O.flatten.length, []⟩ := by
    rw [next_tr29_eq tb _ _ rfl]
    exact next_tr29_skip_all (by decide) O _ (fun x hx => ho x (List.mem_cons_of_mem _ hx))
      rfl rfl
  have c3 : fts_tokenizer_next tb (fresh maxlen BOUNDARY_ALGORITHM_TR29) [] =
      .ok ⟨fresh maxlen BOUNDARY_ALGORITHM_TR29, 0, 0, []⟩ := by
    rw [next_tr29_eq tb _ _ rfl, next_tr29_idle tb _ rfl]
  refine ⟨c1, ?_⟩
  have hdrop : ((k :: K).flatten ++ (o :: O).flatten).drop ((k :: K).flatten.length + o.length) =
      O.flatten := by
    rw [hfo]
    exact drop_add_of_drop (List.drop_left _ _)
  have b0 : ((0 : Nat) == 1) = false := rfl
  have b1 : ((1 : Nat) == 1) = true := rfl
  unfold tokenize feed_chunks feed_chunk
  rw [feed_succ, c1]
  simp only [Outcome.bind_ok, b1, if_true, hdrop]
  rw [feed_succ, c2]
  simp only [Outcome.bind_ok, feed_chunks, List.length_nil, Nat.zero_add, b0,
    Bool.false_eq_true, if_false, List.append_nil, List.nil_append]
  rw [feed_succ, c3]
  simp only [Outcome.bind_ok, b0, Bool.false_eq_true, if_false, List.append_nil]

set_option maxRecDepth 1000000 in
/-- C13 amended, at `カタカナです` with `maxlen = 30`. -/
theorem tr29_katakana_then_other_witness :
    tokenize tables_kana (fresh 30 BOUNDARY_ALGORITHM_TR29)
        [[[0xE3, 0x82, 0xAB], [0xE3, 0x82, 0xBF], [0xE3, 0x82, 0xAB], [0xE3, 0x83, 0x8A]].flatten ++
          [[0xE3, 0x81, 0xA7], [0xE3, 0x81, 0x99]].flatten] =
      .ok [[[0xE3, 0x82, 0xAB], [0xE3, 0x82, 0xBF], [0xE3, 0x82, 0xAB],
        [0xE3, 0x83, 0x8A]].flatten] :=
  (tr29_katakana_then_other tables_kana 30
    [[0xE3, 0x82, 0xAB], [0xE3, 0x82, 0xBF], [0xE3, 0x82, 0xAB], [0xE3, 0x83, 0x8A]]
    [[0xE3, 0x81, 0xA7], [0xE3, 0x81, 0x99]] (by decide) (by decide) (by decide) (by decide)
    (by decide) (by decide)).2



/-! ### C20: what the buffer and the tokens begin with -/

/-- The loop of `tok_append_truncated`, with an invariant that may use the code
point decoded at `pos`. -/
theorem tok_append_loop_decoded (data : List Nat) (append_len : Nat)
    (P : Nat × List Nat → Prop) (I : Nat → Nat → List Nat → Prop)
    (hfold : ∀ pos appended buf c, I pos appended buf → pos < append_len →
      uni_utf8_get_char_n (data.drop pos) = some c → IS_NONASCII_APOSTROPHE c = true →
      I (pos + uni_utf8_char_bytes (data.getD pos 0)) (pos + 1) (buf ++ data.take pos ++ [0x27]))
    (hkeep : ∀ pos appended buf c, I pos appended buf → pos < append_len →
      uni_utf8_get_char_n (data.drop pos) = some c → IS_NONASCII_APOSTROPHE c = false →
      I (pos + uni_utf8_char_bytes (data.getD pos 0)) appended buf)
    (hend : ∀ pos appended buf, I pos appended buf → P (appended, buf)) :
    ∀ fuel pos appended buf, append_len ≤ pos + fuel → I pos appended buf →
      (tok_append_loop data append_len fuel pos appended buf).ensures P := by
  intro fuel
  induction fuel with
  | zero =>
    intro pos appended buf hf hI
    simp only [tok_append_loop]
    rw [if_neg (by omega)]
    exact hend _ _ _ hI
  | succ n ih =>
    intro pos appended buf hf hI
    simp only [tok_append_loop]
    by_cases hlt : pos < append_len
    · rw [if_pos hlt]
      have hb := uni_utf8_char_bytes_pos (data.getD pos 0)
      cases hdec : uni_utf8_get_char_n (List.drop pos data) with
      | none => trivial
      | some c =>
        simp only []
        cases ha : IS_NONASCII_APOSTROPHE c
        · simp only [Bool.false_eq_true, if_false]
          exact ih _ _ _ (by omega) (hkeep _ _ _ c hI hlt hdec ha)
        · simp only [if_true]
          exact ih _ _ _ (by omega) (hfold _ _ _ c hI hlt hdec ha)
    · rw [if_neg hlt]
      exact hend _ _ _ hI

/-- What `tok_append_truncated` appends: the first `append_len` bytes of the
span when no apostrophe was folded, and otherwise something that begins with the
first code point of the span unless that is a non-ASCII apostrophe. -/
theorem tok_append_truncated_shape (tok : generic_fts_tokenizer) (sp : List Nat) :
    (tok_append_truncated tok sp).ensures (fun t =>
      t.max_length = tok.max_length ∧ t.algorithm = tok.algorithm ∧
      t.prev_letter = tok.prev_letter ∧ t.prev_prev_letter = tok.prev_prev_letter ∧
      ∃ X, t.token = tok.token ++ X ∧
        (X = sp.take (min sp.length (tok.max_length - tok.token.length)) ∨
          (0 < min sp.length (tok.max_length - tok.token.length) ∧
            ∀ c0, uni_utf8_get_char_n sp = some c0 → IS_NONASCII_APOSTROPHE c0 = false →
              ∃ Z, X = sp.take (uni_utf8_char_bytes (sp.headD 0)) ++ Z))) := by
  unfold tok_append_truncated
  by_cases hmax : tok.max_length < tok.token.length
  · rw [if_pos hmax]; trivial
  · rw [if_neg hmax]
    simp only []
    generalize hal : min sp.length (tok.max_length - tok.token.length) = al
    have hk0 : sp.getD 0 0 = sp.headD 0 := by rw [getD_eq_headD_drop, List.drop_zero]
    refine Outcome.ensures_bind
      (Q := fun r => (r.1 = 0 ∧ r.2 = tok.token) ∨
        (0 < al ∧ ∃ Y, r.2 = tok.token ++ Y ∧
          ∀ c0, uni_utf8_get_char_n sp = some c0 → IS_NONASCII_APOSTROPHE c0 = false →
            ∃ Z, Y = sp.take (uni_utf8_char_bytes (sp.headD 0)) ++ Z)) ?_ ?_
    · refine tok_append_loop_decoded sp al _
        (fun pos appended buf => (pos = 0 ∨ uni_utf8_char_bytes (sp.headD 0) ≤ pos) ∧
          ((appended = 0 ∧ buf = tok.token) ∨
            (0 < al ∧ ∃ Y, buf = tok.token ++ Y ∧
              ∀ c0, uni_utf8_get_char_n sp = some c0 → IS_NONASCII_APOSTROPHE c0 = false →
                ∃ Z, Y = sp.take (uni_utf8_char_bytes (sp.headD 0)) ++ Z)))
        ?_ ?_ ?_ al 0 0 tok.token (by omega) ⟨Or.inl rfl, Or.inl ⟨rfl, rfl⟩⟩
      · -- an apostrophe is folded at `pos`
        intro pos appended buf c hI hlt hdec ha
        obtain ⟨hpos, hbuf⟩ := hI
        refine ⟨?_, Or.inr ⟨by omega, ?_⟩⟩
        · rcases hpos with h | h
          · right; rw [h, hk0]; omega
          · right; omega
        · rcases hpos with h | h
          · -- the span begins with the apostrophe
            subst h
            rw [List.drop_zero] at hdec
            rcases hbuf with ⟨-, hb⟩ | ⟨-, Y, hY, -⟩
            · refine ⟨sp.take 0 ++ [0x27], by rw [hb, List.append_assoc], ?_⟩
              intro c0 hc0 hn
              rw [hdec] at hc0
              cases hc0
              rw [ha] at hn
              cases hn
            · refine ⟨Y ++ sp.take 0 ++ [0x27], by rw [hY]; simp, ?_⟩
              intro c0 hc0 hn
              rw [hdec] at hc0
              cases hc0
              rw [ha] at hn
              cases hn
          · rcases hbuf with ⟨-, hb⟩ | ⟨-, Y, hY, hZ⟩
            · refine ⟨sp.take pos ++ [0x27], by rw [hb, List.append_assoc], ?_⟩
              intro c0 _ _
              refine ⟨(sp.take pos).drop (uni_utf8_char_bytes (sp.headD 0)) ++ [0x27], ?_⟩
              rw [← List.append_assoc]
              congr 1
              have : sp.take (uni_utf8_char_bytes (sp.headD 0)) =
                  (sp.take pos).take (uni_utf8_char_bytes (sp.headD 0)) := by
                rw [List.take_take, Nat.min_eq_left h]
              rw [this, List.take_append_drop]
            · refine ⟨Y ++ sp.take pos ++ [0x27], by rw [hY]; simp, ?_⟩
              intro c0 hc0 hn
              obtain ⟨Z, hZ'⟩ := hZ c0 hc0 hn
              exact ⟨Z ++ sp.take pos ++ [0x27], by rw [hZ']; simp⟩
      · intro pos appended buf c hI hlt hdec ha
        obtain ⟨hpos, hbuf⟩ := hI
        refine ⟨?_, hbuf⟩
        rcases hpos with h | h
        · right; rw [h, hk0]; omega
        · right; omega
      · intro pos appended buf hI
        exact hI.2
    · rintro ⟨appended, buf⟩ hQ
      simp only at hQ
      rcases hQ with ⟨ha, hb⟩ | ⟨hpos, Y, hY, hZ⟩
      · subst ha; subst hb
        by_cases hz : 0 < al
        · simp only [hz, if_true, Outcome.ensures_ok, true_and, List.drop_zero, Nat.sub_zero]
          exact ⟨_, rfl, Or.inl rfl⟩
        · simp only [hz, if_false, Outcome.ensures_ok, true_and]
          refine ⟨[], by simp, Or.inl ?_⟩
          have : al = 0 := by omega
          rw [this, List.take_zero]
      · by_cases hz : appended < al
        · simp only [hz, if_true, Outcome.ensures_ok, true_and]
          refine ⟨Y ++ List.take (al - appended) (List.drop appended sp), by rw [hY]; simp,
            Or.inr ⟨hpos, ?_⟩⟩
          intro c0 hc0 hn
          obtain ⟨Z, hZ'⟩ := hZ c0 hc0 hn
          exact ⟨Z ++ List.take (al - appended) (List.drop appended sp), by rw [hZ']; simp⟩
        · simp only [hz, if_false, Outcome.ensures_ok, true_and]
          exact ⟨Y, hY, Or.inr ⟨hpos, hZ⟩⟩


theorem starts_with_token_cp_iff {tb : Tables} {l : List Nat} :
    starts_with_token_cp tb l = true ↔
      ∃ c, uni_utf8_get_char_n l = some c ∧ is_nontoken (letter_type tb c) = false := by
  unfold starts_with_token_cp
  cases uni_utf8_get_char_n l with
  | none => simp
  | some c => simp

theorem get_char_append_right {l : List Nat} {c : Nat} (h : uni_utf8_get_char_n l = some c)
    (X : List Nat) : uni_utf8_get_char_n (l ++ X) = some c := by
  have h2 := (get_char_take h).2.1 (l.drop (uni_utf8_char_bytes (l.headD 0)) ++ X)
  rwa [← List.append_assoc, List.take_append_drop] at h2

theorem get_char_of_take {l : List Nat} {c : Nat} (h : uni_utf8_get_char_n l = some c)
    {n : Nat} (hn : uni_utf8_char_bytes (l.headD 0) ≤ n) :
    uni_utf8_get_char_n (l.take n) = some c := by
  have h2 := (get_char_take h).2.1 ((l.take n).drop (uni_utf8_char_bytes (l.headD 0)))
  have h3 : l.take (uni_utf8_char_bytes (l.headD 0)) =
      (l.take n).take (uni_utf8_char_bytes (l.headD 0)) := by
    rw [List.take_take, Nat.min_eq_left hn]
  rwa [h3, List.take_append_drop] at h2

theorem token_cp_plain {tb : Tables} {c : Nat} (h : is_nontoken (letter_type tb c) = false) :
    IS_NONASCII_APOSTROPHE c = false := by
  cases hn : IS_NONASCII_APOSTROPHE c
  · rfl
  · rw [letter_type_apostrophe tb c (by simp [IS_APOSTROPHE, hn])] at h
    exact absurd h (by decide)

theorem token_cp_ne_zero {tb : Tables} {c : Nat} (h0 : is_nontoken (letter_type tb 0) = true)
    (h : is_nontoken (letter_type tb c) = false) : c ≠ 0 := by
  intro hc
  rw [hc, h0] at h
  cases h

/-- The buffer after `tok_append_truncated`, when the span appended to an empty
buffer is empty or begins with a code point of a token category. -/
theorem tok_append_truncated_head (tb : Tables) (tok : generic_fts_tokenizer) (sp : List Nat)
    (hinv : tr29_head_inv tb tok)
    (hsp : tok.token = [] → sp = [] ∨ starts_with_token_cp tb sp = true) :
    (tok_append_truncated tok sp).ensures (fun t =>
      t.max_length = tok.max_length ∧ t.algorithm = tok.algorithm ∧
      t.prev_letter = tok.prev_letter ∧ t.prev_prev_letter = tok.prev_prev_letter ∧
      tr29_head_inv tb t) := by
  refine Outcome.ensures_mono (tok_append_truncated_shape tok sp) ?_
  rintro t ⟨f1, f2, f3, f4, X, hX, hshape⟩
  refine ⟨f1, f2, f3, f4, ?_⟩
  unfold tr29_head_inv
  rw [f1, hX]
  rcases hinv with hnil | hstart | ⟨l, c, hc, hnt, hcut, hl⟩
  · -- the buffer was empty
    rw [hnil, List.nil_append]
    rw [hnil] at hshape
    simp only [List.length_nil, Nat.sub_zero] at hshape
    rcases hsp hnil with hs | hs
    · left
      rcases hshape with h | ⟨h, -⟩
      · rw [h, hs]; simp
      · rw [hs] at h; simp at h
    · right
      obtain ⟨c, hc, hnt⟩ := starts_with_token_cp_iff.mp hs
      obtain ⟨hk, hpre, -⟩ := get_char_take hc
      rcases hshape with h | ⟨-, h⟩
      · by_cases hkm : uni_utf8_char_bytes (sp.headD 0) ≤ min sp.length tok.max_length
        · left
          rw [h]
          exact starts_with_token_cp_iff.mpr ⟨c, get_char_of_take hc hkm, hnt⟩
        · right
          refine ⟨sp, c, hc, hnt, by omega, ?_⟩
          rw [h]
          congr 1
          omega
      · left
        obtain ⟨Z, hZ⟩ := h c hc (token_cp_plain hnt)
        rw [hZ]
        exact starts_with_token_cp_iff.mpr ⟨c, hpre Z, hnt⟩
  · right; left
    obtain ⟨c, hc, hnt⟩ := starts_with_token_cp_iff.mp hstart
    exact starts_with_token_cp_iff.mpr ⟨c, get_char_append_right hc X, hnt⟩
  · right; right
    have hk := (get_char_take hc).1
    have hlen : tok.token.length = tok.max_length := by
      rw [hl, List.length_take]; omega
    rw [hlen, Nat.sub_self, Nat.min_zero] at hshape
    rcases hshape with h | ⟨h, -⟩
    · rw [h, List.take_zero, List.append_nil]
      exact ⟨l, c, hc, hnt, hcut, hl⟩
    · omega

theorem uni_utf8_partial_strlen_n_ge (l : List Nat) :
    ∀ fuel i, i ≤ uni_utf8_partial_strlen_n l fuel i := by
  intro fuel
  induction fuel with
  | zero => intro i; simp [uni_utf8_partial_strlen_n]
  | succ n ih =>
    intro i
    simp only [uni_utf8_partial_strlen_n]
    split_ifs
    · exact le_refl _
    · exact le_trans (Nat.le_add_right _ _) (ih _)
    · exact le_refl _

theorem partial_strlen_cut (data : List Nat) (fuel : Nat) (hne : 0 < data.length)
    (hcut : data.length < uni_utf8_char_bytes (data.getD 0 0)) :
    uni_utf8_partial_strlen_n data fuel 0 = 0 := by
  cases fuel with
  | zero => rfl
  | succ n => rw [uni_utf8_partial_strlen_n, if_pos hne, if_pos (by omega)]

/-- The function `fts_uni_strndup` on the first `n` bytes of a sequence that
begins with a whole code point other than U+0000: the result begins with that
code point, or the assertion `pos > 0` fails. -/
theorem fts_uni_strndup_head {l : List Nat} {c : Nat} (hc : uni_utf8_get_char_n l = some c)
    (hz : c ≠ 0) (n : Nat) :
    (fts_uni_strndup (l.take n)).ensures (fun tk => uni_utf8_get_char_n tk = some c) := by
  obtain ⟨hk, hpre, hnz⟩ := get_char_take hc
  have hkpos := uni_utf8_char_bytes_pos (l.headD 0)
  have hlne : l ≠ [] := by
    intro h
    rw [h] at hc
    simp [uni_utf8_get_char_n] at hc
  unfold fts_uni_strndup
  simp only []
  by_cases hn : uni_utf8_char_bytes (l.headD 0) ≤ n
  · -- the first code point is whole
    have hdlen : uni_utf8_char_bytes (l.headD 0) ≤ (l.take n).length := by
      rw [List.length_take]; omega
    have hhead : (l.take n).getD 0 0 = l.headD 0 := by
      cases l with
      | nil => exact absurd rfl hlne
      | cons b r =>
        cases n with
        | zero => omega
        | succ m => rfl
    have hpos : uni_utf8_char_bytes (l.headD 0) ≤
        uni_utf8_partial_strlen_n (l.take n) (l.take n).length 0 := by
      obtain ⟨f, hf⟩ : ∃ f, (l.take n).length = f + 1 := ⟨(l.take n).length - 1, by omega⟩
      rw [hf, uni_utf8_partial_strlen_n, if_pos (by omega), hhead, if_neg (by omega)]
      have := uni_utf8_partial_strlen_n_ge (l.take n) f (0 + uni_utf8_char_bytes (l.headD 0))
      omega
    generalize uni_utf8_partial_strlen_n (l.take n) (l.take n).length 0 = pos at hpos
    rw [if_pos (by omega)]
    simp only [Outcome.ensures_ok, t_strndup]
    have hsplit : (l.take n).take pos =
        l.take (uni_utf8_char_bytes (l.headD 0)) ++
          ((l.take n).take pos).drop (uni_utf8_char_bytes (l.headD 0)) := by
      have : l.take (uni_utf8_char_bytes (l.headD 0)) =
          ((l.take n).take pos).take (uni_utf8_char_bytes (l.headD 0)) := by
        rw [List.take_take, List.take_take, Nat.min_eq_left hpos, Nat.min_eq_left hn]
      rw [this, List.take_append_drop]
    rw [hsplit, List.takeWhile_append_of_pos (fun b hb => by simpa using hnz hz b hb)]
    exact hpre _
  · -- the first code point is cut: `pos` is 0
    have hlen : (l.take n).length = n := by rw [List.length_take]; omega
    cases n with
    | zero => simp [uni_utf8_partial_strlen_n]
    | succ m =>
      have hhead : (l.take (m + 1)).getD 0 0 = l.headD 0 := by
        cases l with
        | nil => exact absurd rfl hlne
        | cons b r => rfl
      rw [partial_strlen_cut _ _ (by omega) (by rw [hhead]; omega)]
      simp

/-- The token `fts_tokenizer_generic_tr29_current_token` returns begins with a
code point of a token category when the buffer does; a buffer that is empty or
holds a code point cut by the cap makes it stop in an assertion. -/
theorem tr29_current_token_head (tb : Tables) (tok : generic_fts_tokenizer)
    (h0 : is_nontoken (letter_type tb 0) = true) (hinv : tr29_head_inv tb tok) :
    (fts_tokenizer_generic_tr29_current_token tok).ensures (fun r =>
      starts_with_token_cp tb r.2 = true ∧
      r.1 = { tok with prev_prev_letter := LETTER_TYPE_NONE, prev_letter := LETTER_TYPE_NONE,
                       token := [] }) := by
  unfold fts_tokenizer_generic_tr29_current_token
  refine Outcome.ensures_bind (Q := fun _ => True) ?_ ?_
  · split_ifs
    · refine Outcome.ensures_bind (tr29_trim_loop_ensures _ _) ?_
      intro len _
      split_ifs <;> trivial
    · trivial
  · intro len _
    by_cases hlen : len > 0
    · rw [if_pos hlen]
      rcases hinv with hnil | hstart | ⟨l, c, hc, hnt, hcut, hl⟩
      · rw [hnil]
        simp [fts_uni_strndup, uni_utf8_partial_strlen_n]
      · obtain ⟨c, hc, hnt⟩ := starts_with_token_cp_iff.mp hstart
        refine Outcome.ensures_bind (fts_uni_strndup_head hc (token_cp_ne_zero h0 hnt) len) ?_
        intro tk htk
        exact ⟨starts_with_token_cp_iff.mpr ⟨c, htk, hnt⟩, rfl⟩
      · rw [hl, List.take_take]
        refine Outcome.ensures_bind (fts_uni_strndup_head hc (token_cp_ne_zero h0 hnt) _) ?_
        intro tk htk
        exact ⟨starts_with_token_cp_iff.mpr ⟨c, htk, hnt⟩, rfl⟩
    · rw [if_neg hlen]
      trivial


theorem span_head_inv {tb : Tables} {data : List Nat} {i ss : Nat} {tok : generic_fts_tokenizer}
    (hH : tr29_head_loop_inv tb data i ss tok) (hnil : tok.token = []) :
    span data ss i = [] ∨ starts_with_token_cp tb (span data ss i) = true := by
  obtain ⟨-, -, -, h4⟩ := hH
  obtain ⟨hn, hp⟩ := h4 hnil
  by_cases hprev : tok.prev_letter = LETTER_TYPE_NONE
  · left
    rw [hn hprev, span_self]
  · right
    obtain ⟨hs, hk⟩ := hp hprev
    obtain ⟨c, hc, hnt⟩ := starts_with_token_cp_iff.mp hs
    unfold span
    exact starts_with_token_cp_iff.mpr ⟨c, get_char_of_take hc (by omega), hnt⟩

theorem next_tr29_finish_head (tb : Tables) (data : List Nat) (i ss : Nat)
    (tok : generic_fts_tokenizer) (h0 : is_nontoken (letter_type tb 0) = true)
    (hH : tr29_head_loop_inv tb data i ss tok) :
    (next_tr29_finish data i ss tok).ensures
      (fun r => (r.ret = 1 → starts_with_token_cp tb r.token = true) ∧ tr29_head_inv tb r.tok) := by
  unfold next_tr29_finish
  split_ifs
  · trivial
  · refine Outcome.ensures_bind
      (tok_append_truncated_head tb tok _ hH.2.2.1 (span_head_inv hH)) ?_
    rintro tok1 ⟨-, -, -, -, hinv⟩
    split_ifs
    · refine Outcome.ensures_bind (tr29_current_token_head tb tok1 h0 hinv) ?_
      rintro ⟨t2, tk⟩ ⟨htk, ht2⟩
      simp only at htk ht2
      subst ht2
      exact ⟨fun _ => htk, Or.inl rfl⟩
    · exact ⟨fun h => absurd h (by simp), hinv⟩

/-- The loop of `fts_tokenizer_generic_next_tr29` keeps the buffer beginning
with a code point of a token category, and a token it returns begins with one. -/
theorem next_tr29_loop_head (tb : Tables) (data : List Nat)
    (h0 : is_nontoken (letter_type tb 0) = true) :
    ∀ fuel i ss tok, data.length ≤ i + fuel → tr29_head_loop_inv tb data i ss tok →
      (next_tr29_loop tb data fuel i ss tok).ensures
        (fun r => (r.ret = 1 → starts_with_token_cp tb r.token = true) ∧
          tr29_head_inv tb r.tok) := by
  intro fuel
  induction fuel with
  | zero =>
    intro i ss tok hf hH
    simp only [next_tr29_loop]
    rw [if_neg (by omega)]
    exact next_tr29_finish_head tb data i ss tok h0 hH
  | succ n ih =>
    intro i ss tok hf hH
    simp only [next_tr29_loop]
    by_cases hlt : i < data.length
    · rw [if_pos hlt]
      have hb := uni_utf8_char_bytes_pos (data.getD i 0)
      cases hdec : uni_utf8_get_char_n (List.drop i data) with
      | none => trivial
      | some c =>
        simp only []
        obtain ⟨hmax, hs, hinv, hempty⟩ := hH
        by_cases hskip : (tok.prev_letter == LETTER_TYPE_NONE &&
            is_nontoken (letter_type tb c)) = true
        · -- a leading non-token code point is skipped
          rw [if_pos hskip]
          simp only [Bool.and_eq_true, beq_iff_eq] at hskip
          by_cases hused : (tok.token.length == 0) = true
          · rw [if_pos hused]
            refine ih _ _ _ (by omega) ⟨hmax, le_refl _, hinv, ?_⟩
            intro _
            exact ⟨fun _ => rfl, fun hne => absurd hskip.1 hne⟩
          · rw [if_neg hused]
            trivial
        · rw [if_neg hskip]
          simp only [Bool.and_eq_true, beq_iff_eq, not_and] at hskip
          refine Outcome.ensures_bind (uni_found_word_boundary_ensures _ _) ?_
          rintro ⟨t, found⟩ ⟨hT, hF⟩
          simp only at hT hF
          by_cases hfound : found = true
          · -- a boundary: the span is appended and the token returned
            simp only [hfound, if_true]
            obtain ⟨ht, hprev⟩ := hT hfound
            subst ht
            split_ifs with hassert
            · trivial
            · refine Outcome.ensures_bind
                (tok_append_truncated_head tb t _ hinv
                  (span_head_inv ⟨hmax, hs, hinv, hempty⟩)) ?_
              rintro tok1 ⟨-, -, -, -, hinv1⟩
              refine Outcome.ensures_bind (tr29_current_token_head tb tok1 h0 hinv1) ?_
              rintro ⟨t2, tk⟩ ⟨htk, ht2⟩
              simp only at htk ht2
              subst ht2
              exact ⟨fun _ => htk, Or.inl rfl⟩
          · -- no boundary: the history moves on
            have hfound' : found = false := by simpa using hfound
            simp only [hfound', Bool.false_eq_true, if_false]
            obtain ⟨hm, ha, htok, hext, hnext⟩ := hF hfound'
            refine ih _ _ _ (by omega) ⟨by rw [hm]; exact hmax, by omega, ?_, ?_⟩
            · unfold tr29_head_inv
              rw [htok, hm]
              exact hinv
            · intro htnil
              rw [htok] at htnil
              obtain ⟨hn, hnn⟩ := hempty htnil
              have hold : tok.prev_letter ≠ LETTER_TYPE_NONE →
                  starts_with_token_cp tb (data.drop ss) = true ∧
                    ss + uni_utf8_char_bytes ((data.drop ss).headD 0) ≤
                      i + uni_utf8_char_bytes (data.getD i 0) := by
                intro hp
                obtain ⟨q1, q2⟩ := hnn hp
                exact ⟨q1, by omega⟩
              have hnew : tok.prev_letter = LETTER_TYPE_NONE →
                  starts_with_token_cp tb (data.drop ss) = true ∧
                    ss + uni_utf8_char_bytes ((data.drop ss).headD 0) ≤
                      i + uni_utf8_char_bytes (data.getD i 0) := by
                intro hp
                have hnt : is_nontoken (letter_type tb c) = false := by
                  simpa using hskip hp
                rw [hn hp, ← getD_eq_headD_drop]
                exact ⟨starts_with_token_cp_iff.mpr ⟨c, hdec, hnt⟩, le_refl _⟩
              have hboth : starts_with_token_cp tb (data.drop ss) = true ∧
                  ss + uni_utf8_char_bytes ((data.drop ss).headD 0) ≤
                    i + uni_utf8_char_bytes (data.getD i 0) := by
                by_cases hp : tok.prev_letter = LETTER_TYPE_NONE
                · exact hnew hp
                · exact hold hp
              by_cases hx : letter_type tb c = LETTER_TYPE_EXTEND ∨
                  letter_type tb c = LETTER_TYPE_FORMAT
              · have := hext hx
                subst this
                have hpne : t.prev_letter ≠ LETTER_TYPE_NONE := by
                  intro hp
                  have := hskip hp
                  rcases hx with hx | hx <;> rw [hx] at this <;> exact absurd this (by decide)
                exact ⟨fun hp => absurd hp hpne, fun _ => hboth⟩
              · have hpl := hnext hx
                have hpne : t.prev_letter ≠ LETTER_TYPE_NONE := by
                  rw [hpl]; exact letter_type_ne_none tb c
                exact ⟨fun hp => absurd hp hpne, fun _ => hboth⟩
    · rw [if_neg hlt]
      exact next_tr29_finish_head tb data i ss tok h0 ⟨hH.1, hH.2.1, hH.2.2.1, hH.2.2.2⟩



theorem tr29_head_call {tb : Tables} {tok : generic_fts_tokenizer} {data : List Nat}
    {r : next_result} (h0 : is_nontoken (letter_type tb 0) = true)
    (hinv : tr29_inv tok) (hhead : tr29_head_inv tb tok)
    (hn : fts_tokenizer_generic_next_tr29 tb tok data = .ok r) :
    (r.ret = 1 → starts_with_token_cp tb r.token = true) ∧ tr29_head_inv tb r.tok := by
  obtain ⟨i1, -, i3⟩ := hinv
  have hH : tr29_head_loop_inv tb data 0 0 tok :=
    ⟨i1, le_refl _, hhead, fun hnil => ⟨fun _ => rfl, fun hne => absurd hnil (i3 hne)⟩⟩
  exact (Outcome.ensures_iff.mp (next_tr29_loop_head tb data h0 _ _ _ _ (by omega) hH)).2 _ hn

theorem reachable_tr29_head_inv {tb : Tables} {settings : List (String × String)}
    {tok0 tok : generic_fts_tokenizer}
    (h0 : is_nontoken (letter_type tb 0) = true)
    (hc : fts_tokenizer_generic_create settings = .ok tok0)
    (hr : Reachable tb tok0 tok) (ha : tok.algorithm = BOUNDARY_ALGORITHM_TR29) :
    tr29_head_inv tb tok := by
  obtain ⟨-, ht, -, -⟩ := create_ok hc
  induction hr with
  | created => exact Or.inl ht
  | after_reset hr _ => exact Or.inl rfl
  | after_next data hr hn ih =>
    rename_i tk r
    have hpost := (Outcome.ensures_iff.mp (fts_tokenizer_next_post tb _ data)).2 _ hn
    have ha' : tk.algorithm = BOUNDARY_ALGORITHM_TR29 := by rw [← hpost.2.2]; exact ha
    rw [next_tr29_eq tb _ _ ha'] at hn
    exact (tr29_head_call h0 (reachable_tr29_inv h0 hc hr ha') (ih ha') hn).2

theorem is_nontoken_false_iff (lt : LetterType) :
    is_nontoken lt = false ↔
      lt ∈ [LETTER_TYPE_REGIONAL_INDICATOR, LETTER_TYPE_KATAKANA, LETTER_TYPE_HEBREW_LETTER,
        LETTER_TYPE_ALETTER, LETTER_TYPE_NUMERIC] := by
  cases lt <;> decide

/-- C20. Leading non-token skipping in TR29 mode. On a handle that `create`
made for the TR29 algorithm, in any state it has reached since through calls of
`next` on any chunks and through `reset`, a call of `next` that returns
TOKEN_READY returns a token that begins with the bytes of a code point whose
category is `REGIONAL_INDICATOR`, `KATAKANA`, `HEBREW_LETTER`, `ALETTER` or
`NUMERIC`; and before and after every call the buffer is empty or begins with
such a code point, whole or cut by the cap, so no code point of another category
that was met with `prev_letter == NONE` is in front of it. A token is a C
string, so the tables must give U+0000 no token category. -/
theorem tr29_token_head (tb : Tables) (settings : List (String × String))
    (tok0 tok : generic_fts_tokenizer) (data : List Nat) (r : next_result)
    (h0 : is_nontoken (letter_type tb 0) = true)
    (hc : fts_tokenizer_generic_create settings = .ok tok0)
    (ha : tok0.algorithm = BOUNDARY_ALGORITHM_TR29)
    (hr : Reachable tb tok0 tok)
    (hn : fts_tokenizer_next tb tok data = .ok r) :
    (r.ret = 1 → ∃ c, uni_utf8_get_char_n r.token = some c ∧
      letter_type tb c ∈ [LETTER_TYPE_REGIONAL_INDICATOR, LETTER_TYPE_KATAKANA,
        LETTER_TYPE_HEBREW_LETTER, LETTER_TYPE_ALETTER, LETTER_TYPE_NUMERIC]) ∧
      tr29_head_inv tb tok ∧ tr29_head_inv tb r.tok := by
  have ha' : tok.algorithm = BOUNDARY_ALGORITHM_TR29 := by
    rw [(reachable_frame hr).2]; exact ha
  have hhead := reachable_tr29_head_inv h0 hc hr ha'
  rw [next_tr29_eq tb _ _ ha'] at hn
  obtain ⟨h1, h2⟩ := tr29_head_call h0 (reachable_tr29_inv h0 hc hr ha') hhead hn
  refine ⟨fun hret => ?_, hhead, h2⟩
  obtain ⟨c, hc1, hc2⟩ := starts_with_token_cp_iff.mp (h1 hret)
  exact ⟨c, hc1, (is_nontoken_false_iff _).mp hc2⟩

set_option maxRecDepth 100000 in
/-- C20 at the input `, ab ` with the Latin-1 tables: the comma and the space in
front are skipped and the token is `ab`. -/
theorem tr29_token_head_witness :
    fts_tokenizer_next tables_latin1 (fresh 30 BOUNDARY_ALGORITHM_TR29)
        [0x2C, 0x20, 0x61, 0x62, 0x20] =
      .ok ⟨fresh 30 BOUNDARY_ALGORITHM_TR29, 1, 5, [0x61, 0x62]⟩ ∧
    ∃ c, uni_utf8_get_char_n [0x61, 0x62] = some c ∧
      letter_type tables_latin1 c ∈ [LETTER_TYPE_REGIONAL_INDICATOR, LETTER_TYPE_KATAKANA,
        LETTER_TYPE_HEBREW_LETTER, LETTER_TYPE_ALETTER, LETTER_TYPE_NUMERIC] :=
  ⟨by decide,
    (tr29_token_head tables_latin1 [("algorithm", "tr29")] (fresh 30 BOUNDARY_ALGORITHM_TR29)
      (fresh 30 BOUNDARY_ALGORITHM_TR29) [0x2C, 0x20, 0x61, 0x62, 0x20]
      ⟨fresh 30 BOUNDARY_ALGORITHM_TR29, 1, 5, [0x61, 0x62]⟩ (by decide) rfl rfl
      Reachable.created (by decide)).1 rfl⟩



/-! ### C21: the panic entries of `letter_fns` -/

theorem letter_type_eq_apostrophe (tb : Tables) (c : Nat) :
    letter_type tb c = LETTER_TYPE_APOSTROPHE ↔ IS_APOSTROPHE c = true := by
  constructor
  · intro h
    by_contra hn
    revert h
    unfold letter_type
    rw [if_neg hn]
    repeat (refine ite_ne_of_ne (by decide) ?_)
    decide
  · exact letter_type_apostrophe tb c

theorem is_apostrophe_iff (c : Nat) :
    IS_APOSTROPHE c = true ↔ c = 0x27 ∨ c = 0x2019 ∨ c = 0xFF07 := by
  simp [IS_APOSTROPHE, IS_NONASCII_APOSTROPHE]

/-- The function `uni_found_word_boundary` at a category that `letter_type`
returned: the rule consulted returns, and the call returns. -/
theorem uni_found_word_boundary_ok (tb : Tables) (tok : generic_fts_tokenizer) (c : Nat) :
    ∃ found : Bool, (found = true → tok.prev_letter ≠ LETTER_TYPE_NONE) ∧
      uni_found_word_boundary tok (letter_type tb c) =
        .ok (if found then (tok, true)
             else if letter_type tb c = LETTER_TYPE_EXTEND ∨
                 letter_type tb c = LETTER_TYPE_FORMAT then (tok, false)
             else (add_prev_letter tok (letter_type tb c), false)) := by
  by_cases hp : tok.prev_letter = LETTER_TYPE_NONE
  · refine ⟨false, by simp, ?_⟩
    rw [uni_found_word_boundary_first tok _ hp]
    simp [add_prev_letter, hp]
  · refine ⟨spec_rule (letter_type tb c) tok.prev_letter tok.prev_prev_letter, fun _ => hp, ?_⟩
    rw [uni_found_word_boundary_eq tok _ (letter_type_ne_none tb c) (letter_type_ne_sot tb c)
      (letter_type_ne_eot tb c) hp]
    have hp2 : (tok.prev_letter != LETTER_TYPE_NONE) = true := by simpa using hp
    simp [add_prev_letter, hp2]

theorem tok_append_loop_fault (data : List Nat) (append_len : Nat) :
    ∀ fuel pos appended buf f,
      tok_append_loop data append_len fuel pos appended buf = .fault f → f = .unreached := by
  intro fuel
  induction fuel with
  | zero =>
    intro pos appended buf f h
    simp only [tok_append_loop] at h
    split_ifs at h
  | succ n ih =>
    intro pos appended buf f h
    simp only [tok_append_loop] at h
    by_cases hlt : pos < append_len
    · rw [if_pos hlt] at h
      cases hdec : uni_utf8_get_char_n (List.drop pos data) with
      | none =>
        rw [hdec] at h
        simp only [Outcome.fault.injEq] at h
        exact h.symm
      | some c =>
        rw [hdec] at h
        simp only [] at h
        by_cases ha : IS_NONASCII_APOSTROPHE c = true
        · rw [if_pos ha] at h
          exact ih _ _ _ _ h
        · rw [if_neg ha] at h
          exact ih _ _ _ _ h
    · rw [if_neg hlt] at h
      cases h

theorem tok_append_truncated_fault (tok : generic_fts_tokenizer) (sp : List Nat) (f : Fault)
    (h : tok_append_truncated tok sp = .fault f) : tr29_other_fault f = true := by
  unfold tok_append_truncated at h
  by_cases hmax : tok.max_length < tok.token.length
  · rw [if_pos hmax] at h
    cases h
    rfl
  · rw [if_neg hmax] at h
    simp only [] at h
    cases hl : tok_append_loop sp (min sp.length (tok.max_length - tok.token.length))
        (min sp.length (tok.max_length - tok.token.length)) 0 0 tok.token with
    | ok r =>
      rw [hl, Outcome.bind_ok] at h
      split_ifs at h
    | fault g =>
      rw [hl, Outcome.bind_fault] at h
      cases h
      rw [tok_append_loop_fault _ _ _ _ _ _ _ hl]
      rfl
    | out_of_fuel =>
      rw [hl, Outcome.bind_out_of_fuel] at h
      cases h

theorem tr29_trim_loop_fault (data : List Nat) :
    ∀ len f, tr29_trim_loop data len = .fault f → f = .read_before_buffer := by
  intro len
  induction len with
  | zero =>
    intro f h
    simp only [tr29_trim_loop, Outcome.fault.injEq] at h
    exact h.symm
  | succ n ih =>
    intro f h
    simp only [tr29_trim_loop] at h
    split_ifs at h
    exact ih f h

theorem tr29_current_token_fault (tok : generic_fts_tokenizer) (f : Fault)
    (h : fts_tokenizer_generic_tr29_current_token tok = .fault f) :
    tr29_other_fault f = true := by
  unfold fts_tokenizer_generic_tr29_current_token at h
  have key : ∀ len : Nat, (if len > 0 then
      (fts_uni_strndup (tok.token.take len)).bind fun token_r =>
        Outcome.ok ({ tok with prev_prev_letter := LETTER_TYPE_NONE,
                               prev_letter := LETTER_TYPE_NONE, token := [] }, token_r)
      else Outcome.fault Fault.assert_len) = .fault f → tr29_other_fault f = true := by
    intro len hk
    by_cases hlen : len > 0
    · rw [if_pos hlen] at hk
      unfold fts_uni_strndup at hk
      simp only [] at hk
      split_ifs at hk
      · simp [Outcome.bind] at hk
      · simp only [Outcome.bind_fault, Outcome.fault.injEq] at hk
        rw [← hk]; rfl
    · rw [if_neg hlen] at hk
      cases hk
      rfl
  by_cases hp : is_one_past_end tok = true
  · rw [if_pos hp] at h
    cases ht : tr29_trim_loop tok.token tok.token.length with
    | ok len =>
      rw [ht, Outcome.bind_ok] at h
      by_cases hl : len > 0
      · rw [if_pos hl, Outcome.bind_ok] at h
        exact key _ h
      · rw [if_neg hl, Outcome.bind_fault] at h
        cases h
        rfl
    | fault g =>
      rw [ht] at h
      simp only [Outcome.bind_fault, Outcome.fault.injEq] at h
      rw [← h, tr29_trim_loop_fault _ _ _ ht]
      rfl
    | out_of_fuel =>
      rw [ht] at h
      simp [Outcome.bind] at h
  · rw [if_neg hp, Outcome.bind_ok] at h
    exact key _ h

theorem next_tr29_finish_fault (data : List Nat) (i ss : Nat) (tok : generic_fts_tokenizer)
    (f : Fault) (h : next_tr29_finish data i ss tok = .fault f) :
    tr29_other_fault f = true := by
  unfold next_tr29_finish at h
  split_ifs at h with h1
  · cases h; rfl
  · cases ha : tok_append_truncated tok (span data ss i) with
    | ok tok1 =>
      rw [ha, Outcome.bind_ok] at h
      split_ifs at h
      cases hc : fts_tokenizer_generic_tr29_current_token tok1 with
      | ok t => rw [hc, Outcome.bind_ok] at h; cases h
      | fault g =>
        rw [hc, Outcome.bind_fault] at h
        cases h
        exact tr29_current_token_fault _ _ hc
      | out_of_fuel => rw [hc, Outcome.bind_out_of_fuel] at h; cases h
    | fault g =>
      rw [ha, Outcome.bind_fault] at h
      cases h
      exact tok_append_truncated_fault _ _ _ ha
    | out_of_fuel => rw [ha, Outcome.bind_out_of_fuel] at h; cases h

/-- A call of the TR29 `next` stops, if in a fault at all, in one of its
assertions: never in `letter_panic`. -/
theorem next_tr29_loop_fault (tb : Tables) (data : List Nat) :
    ∀ fuel i ss tok f, next_tr29_loop tb data fuel i ss tok = .fault f →
      tr29_other_fault f = true ∨ f = .assert_used := by
  intro fuel
  induction fuel with
  | zero =>
    intro i ss tok f h
    simp only [next_tr29_loop] at h
    split_ifs at h
    exact Or.inl (next_tr29_finish_fault _ _ _ _ _ h)
  | succ n ih =>
    intro i ss tok f h
    simp only [next_tr29_loop] at h
    by_cases hlt : i < data.length
    · rw [if_pos hlt] at h
      cases hdec : uni_utf8_get_char_n (List.drop i data) with
      | none =>
        rw [hdec] at h
        cases h
        exact Or.inl rfl
      | some c =>
        rw [hdec] at h
        simp only [] at h
        by_cases hskip : (tok.prev_letter == LETTER_TYPE_NONE &&
            is_nontoken (letter_type tb c)) = true
        · rw [if_pos hskip] at h
          by_cases hused : (tok.token.length == 0) = true
          · rw [if_pos hused] at h
            exact ih _ _ _ _ h
          · rw [if_neg hused] at h
            cases h
            exact Or.inr rfl
        · rw [if_neg hskip] at h
          obtain ⟨found, -, hu⟩ := uni_found_word_boundary_ok tb tok c
          rw [hu, Outcome.bind_ok] at h
          cases found with
          | true =>
            simp only [if_true] at h
            split_ifs at h with hassert
            · cases h; exact Or.inl rfl
            · cases ha : tok_append_truncated tok (span data ss i) with
              | ok tok1 =>
                rw [ha, Outcome.bind_ok] at h
                cases hc : fts_tokenizer_generic_tr29_current_token tok1 with
                | ok t => rw [hc, Outcome.bind_ok] at h; cases h
                | fault g =>
                  rw [hc, Outcome.bind_fault] at h
                  cases h
                  exact Or.inl (tr29_current_token_fault _ _ hc)
                | out_of_fuel => rw [hc, Outcome.bind_out_of_fuel] at h; cases h
              | fault g =>
                rw [ha, Outcome.bind_fault] at h
                cases h
                exact Or.inl (tok_append_truncated_fault _ _ _ ha)
              | out_of_fuel => rw [ha, Outcome.bind_out_of_fuel] at h; cases h
          | false =>
            simp only [Bool.false_eq_true, if_false] at h
            by_cases hx : letter_type tb c = LETTER_TYPE_EXTEND ∨
                letter_type tb c = LETTER_TYPE_FORMAT
            · rw [if_pos hx] at h
              simp only [Bool.false_eq_true, if_false] at h
              exact ih _ _ _ _ h
            · rw [if_neg hx] at h
              simp only [Bool.false_eq_true, if_false] at h
              exact ih _ _ _ _ h
    · rw [if_neg hlt] at h
      exact Or.inl (next_tr29_finish_fault _ _ _ _ _ h)


/-- C21. The panic entries of the rule table are unreachable. For every code
point `c` and whatever the property tables hold, `letter_type(c)` is none of
`NONE`, `SOT`, `EOT`, the three values (ordinals 0, 17 and 18) whose entry in
`letter_fns` is `letter_panic`, and its ordinal is inside the table; it is
`APOSTROPHE` exactly when `c` is U+0027, U+2019 or U+FF07. So the function
dispatched through `letter_fns[lt]` returns, `uni_found_word_boundary` returns,
and no call of `fts_tokenizer_generic_next_tr29`, on any state and any data,
stops in `letter_panic`. -/
theorem letter_panic_unreachable (tb : Tables) (c : Nat) (tok : generic_fts_tokenizer)
    (data : List Nat) :
    (letter_type tb c ≠ LETTER_TYPE_NONE ∧ letter_type tb c ≠ LETTER_TYPE_SOT ∧
        letter_type tb c ≠ LETTER_TYPE_EOT) ∧
      ((letter_type tb c).ordinal ≠ 0 ∧ (letter_type tb c).ordinal ≠ 17 ∧
        (letter_type tb c).ordinal ≠ 18 ∧ (letter_type tb c).ordinal < letter_fns.length) ∧
      (letter_fns.getD 0 letter_panic tok = .fault .letter_panic ∧
        letter_fns.getD 17 letter_panic tok = .fault .letter_panic ∧
        letter_fns.getD 18 letter_panic tok = .fault .letter_panic) ∧
      (letter_type tb c = LETTER_TYPE_APOSTROPHE ↔ c = 0x27 ∨ c = 0x2019 ∨ c = 0xFF07) ∧
      (∃ b, (letter_fns.getD (letter_type tb c).ordinal letter_panic) tok = .ok b) ∧
      (∃ r, uni_found_word_boundary tok (letter_type tb c) = .ok r) ∧
      fts_tokenizer_generic_next_tr29 tb tok data ≠ .fault .letter_panic := by
  have h1 := letter_type_ne_none tb c
  have h2 := letter_type_ne_sot tb c
  have h3 := letter_type_ne_eot tb c
  refine ⟨⟨h1, h2, h3⟩, ?_, ⟨rfl, rfl, rfl⟩,
    (letter_type_eq_apostrophe tb c).trans (is_apostrophe_iff c),
    ⟨_, letter_fns_spec_rule tok _ h1 h2 h3⟩, ?_, ?_⟩
  · generalize letter_type tb c = lt at h1 h2 h3
    cases lt <;> first
      | exact absurd rfl h1 | exact absurd rfl h2 | exact absurd rfl h3 | decide
  · obtain ⟨found, -, hu⟩ := uni_found_word_boundary_ok tb tok c
    exact ⟨_, hu⟩
  · intro h
    unfold fts_tokenizer_generic_next_tr29 at h
    rcases next_tr29_loop_fault tb data _ _ _ _ _ h with hf | hf
    · exact absurd hf (by decide)
    · exact absurd hf (by decide)

set_option maxRecDepth 100000 in
/-- C21 at the three apostrophes and at `a`, with the Latin-1 tables. -/
theorem letter_panic_unreachable_witness :
    letter_type tables_latin1 0x27 = LETTER_TYPE_APOSTROPHE ∧
      letter_type tables_latin1 0x2019 = LETTER_TYPE_APOSTROPHE ∧
      letter_type tables_latin1 0xFF07 = LETTER_TYPE_APOSTROPHE ∧
      letter_type tables_latin1 0x61 ≠ LETTER_TYPE_APOSTROPHE :=
  ⟨(letter_panic_unreachable tables_latin1 0x27 (fresh 30 BOUNDARY_ALGORITHM_TR29)
      []).2.2.2.1.mpr (by decide),
    (letter_panic_unreachable tables_latin1 0x2019 (fresh 30 BOUNDARY_ALGORITHM_TR29)
      []).2.2.2.1.mpr (by decide),
    (letter_panic_unreachable tables_latin1 0xFF07 (fresh 30 BOUNDARY_ALGORITHM_TR29)
      []).2.2.2.1.mpr (by decide),
    fun h => absurd ((letter_panic_unreachable tables_latin1 0x61
      (fresh 30 BOUNDARY_ALGORITHM_TR29) []).2.2.2.1.mp h) (by decide)⟩



/-! ### C22: the code point at a boundary -/

theorem Outcome.ensures_self {α : Type} {x : Outcome α} {P : α → Prop} (h : x.ensures P) :
    x.ensures (fun a => x = .ok a ∧ P a) := by
  cases x with
  | ok a => exact ⟨rfl, h⟩
  | fault e => trivial
  | out_of_fuel => exact h

/-- A call of the TR29 `next` that returns TOKEN_READY on a non-empty chunk
found a boundary at a code point `c` at some offset `k`: the token is made of
the buffer and the span `data[start_skip .. k)` in front of `c`, the skip count
is the offset after `c`, and buffer and history are reset. -/
theorem next_tr29_loop_boundary (tb : Tables) (data : List Nat) (tok0 : generic_fts_tokenizer) :
    ∀ fuel i ss tok, data.length ≤ i + fuel → tok.token = tok0.token →
      tok.max_length = tok0.max_length → tok.algorithm = tok0.algorithm →
      (next_tr29_loop tb data fuel i ss tok).ensures (fun r => r.ret = 1 → data ≠ [] →
        ∃ (k c start_skip : Nat) (t0 t1 : generic_fts_tokenizer),
          k < data.length ∧ start_skip ≤ k ∧
          uni_utf8_get_char_n (data.drop k) = some c ∧
          r.skip = k + uni_utf8_char_bytes (data.getD k 0) ∧
          t0.token = tok0.token ∧ t0.max_length = tok0.max_length ∧
          t0.algorithm = tok0.algorithm ∧
          uni_found_word_boundary t0 (letter_type tb c) = .ok (t0, true) ∧
          tok_append_truncated t0 (span data start_skip k) = .ok t1 ∧
          fts_tokenizer_generic_tr29_current_token t1 = .ok (r.tok, r.token) ∧
          r.tok = fts_tokenizer_generic_reset t1) := by
  have hfinish : ∀ i ss tok, (next_tr29_finish data i ss tok).ensures (fun r =>
      r.ret = 1 → data ≠ [] → ∃ (k c start_skip : Nat) (t0 t1 : generic_fts_tokenizer),
          k < data.length ∧ start_skip ≤ k ∧
          uni_utf8_get_char_n (data.drop k) = some c ∧
          r.skip = k + uni_utf8_char_bytes (data.getD k 0) ∧
          t0.token = tok0.token ∧ t0.max_length = tok0.max_length ∧
          t0.algorithm = tok0.algorithm ∧
          uni_found_word_boundary t0 (letter_type tb c) = .ok (t0, true) ∧
          tok_append_truncated t0 (span data start_skip k) = .ok t1 ∧
          fts_tokenizer_generic_tr29_current_token t1 = .ok (r.tok, r.token) ∧
          r.tok = fts_tokenizer_generic_reset t1) := by
    intro i ss tok
    unfold next_tr29_finish
    split_ifs
    · trivial
    · refine Outcome.ensures_bind (tok_append_truncated_ensures _ _) ?_
      intro tok1 _
      by_cases hflush : (data.length == 0 && decide (tok1.token.length > 0)) = true
      · rw [if_pos hflush]
        refine Outcome.ensures_bind (tr29_current_token_ensures _) ?_
        intro t _ _ hne
        simp only [Bool.and_eq_true, beq_iff_eq] at hflush
        exact absurd (List.length_eq_zero.mp hflush.1) hne
      · rw [if_neg hflush]
        intro hret
        exact absurd hret (by simp)
  intro fuel
  induction fuel with
  | zero =>
    intro i ss tok hf _ _ _
    simp only [next_tr29_loop]
    rw [if_neg (by omega)]
    exact hfinish i ss tok
  | succ n ih =>
    intro i ss tok hf ht hm hal
    simp only [next_tr29_loop]
    by_cases hlt : i < data.length
    · rw [if_pos hlt]
      have hb := uni_utf8_char_bytes_pos (data.getD i 0)
      cases hdec : uni_utf8_get_char_n (List.drop i data) with
      | none => trivial
      | some c =>
        simp only []
        by_cases hskip : (tok.prev_letter == LETTER_TYPE_NONE &&
            is_nontoken (letter_type tb c)) = true
        · rw [if_pos hskip]
          by_cases hused : (tok.token.length == 0) = true
          · rw [if_pos hused]
            exact ih _ _ _ (by omega) ht hm hal
          · rw [if_neg hused]
            trivial
        · rw [if_neg hskip]
          refine Outcome.ensures_bind
            (Outcome.ensures_self (uni_found_word_boundary_ensures _ _)) ?_
          rintro ⟨t, found⟩ ⟨hu, hT, hF⟩
          simp only at hT hF
          by_cases hfound : found = true
          · simp only [hfound, if_true]
            obtain ⟨htt, -⟩ := hT hfound
            subst htt
            subst hfound
            by_cases hassert : (decide (i < ss) || decide (data.length < ss)) = true
            · rw [if_pos hassert]
              trivial
            · rw [if_neg hassert]
              have hss : ss ≤ i := by
                simp only [Bool.or_eq_true, decide_eq_true_eq, not_or, not_lt] at hassert
                exact hassert.1
              refine Outcome.ensures_bind
                (Outcome.ensures_self (tok_append_truncated_ensures _ _)) ?_
              rintro tok1 ⟨ha, -⟩
              refine Outcome.ensures_bind
                (Outcome.ensures_self (tr29_current_token_ensures _)) ?_
              rintro ⟨t2, tk⟩ ⟨hc, ht2, -⟩
              simp only at ht2
              intro _ _
              exact ⟨i, c, ss, t, tok1, hlt, hss, hdec, rfl, ht, hm, hal, hu, ha, hc, ht2⟩
          · have hfound' : found = false := by simpa using hfound
            simp only [hfound', Bool.false_eq_true, if_false]
            obtain ⟨hm2, ha2, htok, -, -⟩ := hF hfound'
            exact ih _ _ _ (by omega) (htok.trans ht) (hm2.trans hm) (ha2.trans hal)
    · rw [if_neg hlt]
      exact hfinish i ss tok


set_option maxRecDepth 100000 in
/-- C22. In TR29 mode the code point at which a boundary is declared is
consumed and discarded. Whenever `fts_tokenizer_generic_next_tr29` returns
TOKEN_READY on a chunk of `size > 0`, there is a code point `c` at an offset `k`
of the chunk where `uni_found_word_boundary` returned true; the skip count is
the offset just after `c`; the token is what
`fts_tokenizer_generic_tr29_current_token` makes of the buffer with the span
`data[start_skip .. k)` appended, so the bytes of `c` are not in it; and the
buffer is left empty and both history slots `NONE`, so `c` is not kept for the
next call either. This holds also when `c` has a token category: with the tables
extended to the Hebrew block, the input `אab` (categories `HEBREW_LETTER`,
`ALETTER`, `ALETTER`) gives the tokens `א` and `b`, and the letter `a` is in no
token. -/
theorem tr29_boundary_consumed (tb : Tables) (tok : generic_fts_tokenizer) (data : List Nat)
    (r : next_result) (hn : fts_tokenizer_generic_next_tr29 tb tok data = .ok r)
    (hret : r.ret = 1) (hne : data ≠ []) :
    (∃ (k c start_skip : Nat) (t0 t1 : generic_fts_tokenizer),
        k < data.length ∧ start_skip ≤ k ∧
        uni_utf8_get_char_n (data.drop k) = some c ∧
        r.skip = k + uni_utf8_char_bytes (data.getD k 0) ∧
        t0.token = tok.token ∧ t0.max_length = tok.max_length ∧
        t0.algorithm = tok.algorithm ∧
        uni_found_word_boundary t0 (letter_type tb c) = .ok (t0, true) ∧
        tok_append_truncated t0 (span data start_skip k) = .ok t1 ∧
        fts_tokenizer_generic_tr29_current_token t1 = .ok (r.tok, r.token) ∧
        r.tok = fts_tokenizer_generic_reset t1) ∧
      (r.tok.token = [] ∧ r.tok.prev_letter = LETTER_TYPE_NONE ∧
        r.tok.prev_prev_letter = LETTER_TYPE_NONE) ∧
      (letter_type tables_hebrew 0x5D0 = LETTER_TYPE_HEBREW_LETTER ∧
        letter_type tables_hebrew 0x61 = LETTER_TYPE_ALETTER ∧
        letter_type tables_hebrew 0x62 = LETTER_TYPE_ALETTER ∧
        valid_utf8 [0xD7, 0x90, 0x61, 0x62] = true ∧
        fts_tokenizer_generic_next_tr29 tables_hebrew (fresh 30 BOUNDARY_ALGORITHM_TR29)
            [0xD7, 0x90, 0x61, 0x62] =
          .ok ⟨fresh 30 BOUNDARY_ALGORITHM_TR29, 1, 3, [0xD7, 0x90]⟩ ∧
        tokenize tables_hebrew (fresh 30 BOUNDARY_ALGORITHM_TR29) [[0xD7, 0x90, 0x61, 0x62]] =
          .ok [[0xD7, 0x90], [0x62]] ∧
        ∀ t ∈ [[0xD7, 0x90], [0x62]], (0x61 : Nat) ∉ t) := by
  have key := (Outcome.ensures_iff.mp
    (next_tr29_loop_boundary tb data tok data.length 0 0 tok (by omega) rfl rfl rfl)).2 r hn
    hret hne
  refine ⟨key, ?_, ?_⟩
  · obtain ⟨k, c, ss, t0, t1, -, -, -, -, -, -, -, -, -, -, hreset⟩ := key
    rw [hreset]
    exact ⟨rfl, rfl, rfl⟩
  · refine ⟨?_, ?_, ?_, ?_, ?_, ?_, ?_⟩ <;> decide

set_option maxRecDepth 100000 in
/-- C22 at the input `אab`: the boundary is at `a`, offset 2, the skip count is
3, and the token `א` is made of the span in front of `a`. -/
theorem tr29_boundary_consumed_witness :
    fts_tokenizer_generic_next_tr29 tables_hebrew (fresh 30 BOUNDARY_ALGORITHM_TR29)
        [0xD7, 0x90, 0x61, 0x62] =
      .ok ⟨fresh 30 BOUNDARY_ALGORITHM_TR29, 1, 3, [0xD7, 0x90]⟩ ∧
    ∃ (k c start_skip : Nat) (t0 t1 : generic_fts_tokenizer),
      k < [0xD7, 0x90, 0x61, 0x62].length ∧ start_skip ≤ k ∧
      uni_utf8_get_char_n (([0xD7, 0x90, 0x61, 0x62] : List Nat).drop k) = some c ∧
      3 = k + uni_utf8_char_bytes (([0xD7, 0x90, 0x61, 0x62] : List Nat).getD k 0) ∧
      t0.token = [] ∧ t0.max_length = 30 ∧ t0.algorithm = BOUNDARY_ALGORITHM_TR29 ∧
      uni_found_word_boundary t0 (letter_type tables_hebrew c) = .ok (t0, true) ∧
      tok_append_truncated t0 (span [0xD7, 0x90, 0x61, 0x62] start_skip k) = .ok t1 ∧
      fts_tokenizer_generic_tr29_current_token t1 =
        .ok (fresh 30 BOUNDARY_ALGORITHM_TR29, [0xD7, 0x90]) ∧
      fresh 30 BOUNDARY_ALGORITHM_TR29 = fts_tokenizer_generic_reset t1 :=
  ⟨by decide,
    (tr29_boundary_consumed tables_hebrew (fresh 30 BOUNDARY_ALGORITHM_TR29)
      [0xD7, 0x90, 0x61, 0x62] ⟨fresh 30 BOUNDARY_ALGORITHM_TR29, 1, 3, [0xD7, 0x90]⟩
      (by decide) rfl (by decide)).1⟩



/-! ### C23: buffer and history between calls -/

theorem Outcome.ensures_within_bind {α β : Type} {x : Outcome α} {f : α → Outcome β}
    {S : Fault → Prop} {Q : α → Prop} {P : β → Prop} (hx : x.ensures_within S Q)
    (hf : ∀ a, Q a → (f a).ensures_within S P) : (x.bind f).ensures_within S P := by
  cases x with
  | ok a => exact hf a hx
  | fault e => exact hx
  | out_of_fuel => exact hx

theorem Outcome.ensures_within_of {α : Type} {x : Outcome α} {S : Fault → Prop} {P : α → Prop}
    (hP : x.ensures P) (hS : ∀ f, x = .fault f → S f) : x.ensures_within S P := by
  cases x with
  | ok a => exact hP
  | fault e => exact hS e rfl
  | out_of_fuel => exact hP

theorem Outcome.ensures_within_iff {α : Type} {x : Outcome α} {S : Fault → Prop}
    {P : α → Prop} :
    x.ensures_within S P ↔
      x ≠ .out_of_fuel ∧ (∀ f, x = .fault f → S f) ∧ ∀ a, x = .ok a → P a := by
  cases x with
  | ok a => simp [Outcome.ensures_within]
  | fault e => simp [Outcome.ensures_within]
  | out_of_fuel => simp [Outcome.ensures_within]

/-- What `tok_append_truncated` does to the emptiness of the buffer. -/
theorem tok_append_truncated_state (tok : generic_fts_tokenizer) (sp : List Nat) :
    (tok_append_truncated tok sp).ensures_within (fun f => tr29_other_fault f = true) (fun t =>
      t.max_length = tok.max_length ∧ t.algorithm = tok.algorithm ∧
      t.prev_letter = tok.prev_letter ∧ t.prev_prev_letter = tok.prev_prev_letter ∧
      (sp = [] → t.token = tok.token) ∧ (tok.token ≠ [] → t.token ≠ []) ∧
      (sp ≠ [] → tok.token.length < tok.max_length → t.token ≠ [])) := by
  refine Outcome.ensures_within_of ?_ (tok_append_truncated_fault tok sp)
  by_cases hsp : sp = []
  · subst hsp
    refine Outcome.ensures_mono (tok_append_truncated_nil tok) ?_
    intro t ht
    subst ht
    exact ⟨rfl, rfl, rfl, rfl, fun _ => rfl, fun h => h, fun h => absurd rfl h⟩
  · refine Outcome.ensures_mono (tok_append_truncated_ensures tok sp) ?_
    rintro t ⟨h1, h2, h3, h4, -, X, hX, -, hXne⟩
    refine ⟨h1, h2, h3, h4, fun h => absurd h hsp, fun hne => ?_, fun _ hroom => ?_⟩
    · rw [hX]
      intro h
      exact hne (List.append_eq_nil.mp h).1
    · rw [hX]
      intro h
      exact hXne hsp hroom (List.append_eq_nil.mp h).2

theorem tr29_current_token_state (tok : generic_fts_tokenizer) :
    (fts_tokenizer_generic_tr29_current_token tok).ensures_within
      (fun f => tr29_other_fault f = true)
      (fun r => r.1 = fts_tokenizer_generic_reset tok) := by
  refine Outcome.ensures_within_of ?_ (tr29_current_token_fault tok)
  refine Outcome.ensures_mono (tr29_current_token_ensures tok) ?_
  rintro r ⟨h, -⟩
  rw [h]
  rfl

theorem tr29_state_inv_reset (tok : generic_fts_tokenizer) (hm : 1 ≤ tok.max_length) :
    tr29_state_inv (fts_tokenizer_generic_reset tok) :=
  ⟨hm, ⟨fun _ => rfl, fun _ => rfl⟩, fun h => absurd rfl h⟩

theorem next_tr29_finish_state (data : List Nat) (i ss : Nat) (tok : generic_fts_tokenizer)
    (hJ : tr29_state_loop_inv data i ss tok) :
    (next_tr29_finish data i ss tok).ensures_within (fun f => tr29_other_fault f = true)
      (fun r => tr29_state_inv r.tok) := by
  obtain ⟨hmax, hs, hi, hpp, hnone, hsome⟩ := hJ
  unfold next_tr29_finish
  by_cases hassert : (decide (i < ss) || decide (data.length < ss)) = true
  · rw [if_pos hassert]
    rfl
  · rw [if_neg hassert]
    refine Outcome.ensures_within_bind (tok_append_truncated_state _ _) ?_
    rintro tok1 ⟨h1, h2, h3, h4, hnil, hkeep, hnew⟩
    by_cases hflush : (data.length == 0 && decide (tok1.token.length > 0)) = true
    · rw [if_pos hflush]
      refine Outcome.ensures_within_bind (tr29_current_token_state _) ?_
      rintro ⟨t2, tk⟩ ht2
      simp only at ht2
      subst ht2
      exact tr29_state_inv_reset tok1 (by rw [h1]; exact hmax)
    · rw [if_neg hflush]
      refine ⟨by rw [h1]; exact hmax, ⟨fun ht1 => ?_, fun hp => ?_⟩, by rw [h3, h4]; exact hpp⟩
      · show tok1.prev_letter = LETTER_TYPE_NONE
        rw [h3]
        by_contra hp
        rcases hsome hp with hne | hlt
        · exact hkeep hne ht1
        · by_cases hne : tok.token = []
          · exact hnew (span_head data hlt (by omega)).1 (by rw [hne]; exact hmax) ht1
          · exact hkeep hne ht1
      · show tok1.token = []
        rw [h3] at hp
        obtain ⟨ht, hss⟩ := hnone hp
        rw [hnil (by rw [hss, span_self]), ht]

/-- The loop of `fts_tokenizer_generic_next_tr29` keeps buffer and history in
step, and the assertion of its leading-skip branch holds. -/
theorem next_tr29_loop_state (tb : Tables) (data : List Nat) :
    ∀ fuel i ss tok, data.length ≤ i + fuel → tr29_state_loop_inv data i ss tok →
      (next_tr29_loop tb data fuel i ss tok).ensures_within
        (fun f => tr29_other_fault f = true) (fun r => tr29_state_inv r.tok) := by
  intro fuel
  induction fuel with
  | zero =>
    intro i ss tok hf hJ
    simp only [next_tr29_loop]
    rw [if_neg (by omega)]
    exact next_tr29_finish_state data i ss tok hJ
  | succ n ih =>
    intro i ss tok hf hJ
    simp only [next_tr29_loop]
    by_cases hlt : i < data.length
    · rw [if_pos hlt]
      have hb := uni_utf8_char_bytes_pos (data.getD i 0)
      cases hdec : uni_utf8_get_char_n (List.drop i data) with
      | none => rfl
      | some c =>
        simp only []
        obtain ⟨hcb, -⟩ := uni_utf8_get_char_n_some hdec
        rw [← getD_eq_headD_drop] at hcb
        simp only [List.length_drop] at hcb
        have hi' : i + uni_utf8_char_bytes (data.getD i 0) ≤ data.length := by omega
        obtain ⟨hmax, hs, hi, hpp, hnone, hsome⟩ := hJ
        by_cases hskip : (tok.prev_letter == LETTER_TYPE_NONE &&
            is_nontoken (letter_type tb c)) = true
        · -- a leading non-token code point: the buffer is empty
          rw [if_pos hskip]
          simp only [Bool.and_eq_true, beq_iff_eq] at hskip
          obtain ⟨ht, -⟩ := hnone hskip.1
          rw [if_pos (by simp [ht])]
          exact ih _ _ _ (by omega) ⟨hmax, le_refl _, hi', hpp, fun _ => ⟨ht, rfl⟩,
            fun hp => absurd hskip.1 hp⟩
        · rw [if_neg hskip]
          simp only [Bool.and_eq_true, beq_iff_eq, not_and] at hskip
          obtain ⟨found, hfp, hu⟩ := uni_found_word_boundary_ok tb tok c
          rw [hu, Outcome.bind_ok]
          cases found with
          | true =>
            simp only [if_true]
            by_cases hassert : (decide (i < ss) || decide (data.length < ss)) = true
            · rw [if_pos hassert]
              rfl
            · rw [if_neg hassert]
              refine Outcome.ensures_within_bind (tok_append_truncated_state _ _) ?_
              rintro tok1 ⟨h1, -⟩
              refine Outcome.ensures_within_bind (tr29_current_token_state _) ?_
              rintro ⟨t2, tk⟩ ht2
              simp only at ht2
              subst ht2
              exact tr29_state_inv_reset tok1 (by rw [h1]; exact hmax)
          | false =>
            simp only [Bool.false_eq_true, if_false]
            by_cases hx : letter_type tb c = LETTER_TYPE_EXTEND ∨
                letter_type tb c = LETTER_TYPE_FORMAT
            · rw [if_pos hx]
              simp only [Bool.false_eq_true, if_false]
              have hpne : tok.prev_letter ≠ LETTER_TYPE_NONE := by
                intro hp
                have := hskip hp
                rcases hx with hx | hx <;> rw [hx] at this <;> exact absurd this (by decide)
              refine ih _ _ _ (by omega) ⟨hmax, by omega, hi', hpp,
                fun hp => absurd hp hpne, fun hp => ?_⟩
              rcases hsome hp with h | h
              · exact Or.inl h
              · exact Or.inr (by omega)
            · rw [if_neg hx]
              simp only [Bool.false_eq_true, if_false]
              obtain ⟨f1, -, f3, f4, -⟩ := add_prev_letter_frame tok (letter_type tb c)
              have hpne : (add_prev_letter tok (letter_type tb c)).prev_letter ≠
                  LETTER_TYPE_NONE := by
                rw [f4]; exact letter_type_ne_none tb c
              exact ih _ _ _ (by omega) ⟨by rw [f1]; exact hmax, by omega, hi',
                fun _ => hpne, fun hp => absurd hp hpne, fun _ => Or.inr (by omega)⟩
    · rw [if_neg hlt]
      exact next_tr29_finish_state data i ss tok hJ


theorem tr29_state_call (tb : Tables) {tok : generic_fts_tokenizer} (data : List Nat)
    (hinv : tr29_state_inv tok) :
    (fts_tokenizer_generic_next_tr29 tb tok data).ensures_within
      (fun f => tr29_other_fault f = true) (fun r => tr29_state_inv r.tok) := by
  obtain ⟨hm, hiff, hpp⟩ := hinv
  exact next_tr29_loop_state tb data _ _ _ _ (by omega)
    ⟨hm, le_refl _, Nat.zero_le _, hpp, fun hp => ⟨hiff.mpr hp, rfl⟩,
      fun hp => Or.inl (fun ht => hp (hiff.mp ht))⟩

theorem reachable_tr29_state_inv {tb : Tables} {settings : List (String × String)}
    {tok0 tok : generic_fts_tokenizer}
    (hc : fts_tokenizer_generic_create settings = .ok tok0)
    (hr : Reachable tb tok0 tok) (ha : tok.algorithm = BOUNDARY_ALGORITHM_TR29) :
    tr29_state_inv tok := by
  obtain ⟨hm, ht, hp, hpp⟩ := create_ok hc
  induction hr with
  | created => exact ⟨hm, ⟨fun _ => hp, fun _ => ht⟩, fun h => absurd hpp h⟩
  | after_reset hr _ =>
    refine tr29_state_inv_reset _ ?_
    rw [(reachable_frame hr).1]
    exact hm
  | after_next data hr hn ih =>
    rename_i tk r
    have hpost := (Outcome.ensures_iff.mp (fts_tokenizer_next_post tb _ data)).2 _ hn
    have ha' : tk.algorithm = BOUNDARY_ALGORITHM_TR29 := by rw [← hpost.2.2]; exact ha
    rw [next_tr29_eq tb _ _ ha'] at hn
    exact (Outcome.ensures_within_iff.mp (tr29_state_call tb data (ih ha'))).2.2 _ hn

/-- C23. The TR29 state invariant. On a handle that `create` made for the TR29
algorithm (so `maxlen >= 1`), in the state `create` or `reset` left and after
every completed call of `next` on any chunks, the token buffer is empty exactly
when `prev_letter` is `NONE`, and `prev_prev_letter` is only set when
`prev_letter` is; and the next call, whatever its data, does not stop in
`i_assert(tok->token->used == 0)` of the leading-skip branch (nor in
`letter_panic`, nor by the model's loop bound). -/
theorem tr29_state_invariant (tb : Tables) (settings : List (String × String))
    (tok0 tok : generic_fts_tokenizer) (data : List Nat)
    (hc : fts_tokenizer_generic_create settings = .ok tok0)
    (ha : tok0.algorithm = BOUNDARY_ALGORITHM_TR29)
    (hr : Reachable tb tok0 tok) :
    (tok.token = [] ↔ tok.prev_letter = LETTER_TYPE_NONE) ∧
      (tok.prev_prev_letter ≠ LETTER_TYPE_NONE → tok.prev_letter ≠ LETTER_TYPE_NONE) ∧
      fts_tokenizer_next tb tok data ≠ .fault .assert_used ∧
      fts_tokenizer_next tb tok data ≠ .fault .letter_panic ∧
      fts_tokenizer_next tb tok data ≠ .out_of_fuel := by
  have ha' : tok.algorithm = BOUNDARY_ALGORITHM_TR29 := by
    rw [(reachable_frame hr).2]; exact ha
  have hinv := reachable_tr29_state_inv hc hr ha'
  obtain ⟨h1, h2, -⟩ := Outcome.ensures_within_iff.mp (tr29_state_call tb data hinv)
  rw [next_tr29_eq tb _ _ ha']
  refine ⟨hinv.2.1, hinv.2.2, fun h => ?_, fun h => ?_, h1⟩
  · exact absurd (h2 _ h) (by decide)
  · exact absurd (h2 _ h) (by decide)

set_option maxRecDepth 100000 in
/-- C23 at the state after the chunk `ab`, which returned NEED_MORE: the buffer
holds `ab` and the history is `ALETTER`, `ALETTER`. -/
theorem tr29_state_invariant_witness :
    fts_tokenizer_next tables_latin1 (fresh 30 BOUNDARY_ALGORITHM_TR29) [0x61, 0x62] =
        .ok ⟨{ fresh 30 BOUNDARY_ALGORITHM_TR29 with
                token := [0x61, 0x62], prev_letter := LETTER_TYPE_ALETTER,
                prev_prev_letter := LETTER_TYPE_ALETTER }, 0, 2, []⟩ ∧
      (([0x61, 0x62] : List Nat) = [] ↔ LETTER_TYPE_ALETTER = LETTER_TYPE_NONE) ∧
      fts_tokenizer_next tables_latin1
          { fresh 30 BOUNDARY_ALGORITHM_TR29 with
            token := [0x61, 0x62], prev_letter := LETTER_TYPE_ALETTER,
            prev_prev_letter := LETTER_TYPE_ALETTER } [0x20] ≠ .fault .assert_used :=
  have h := tr29_state_invariant tables_latin1 [("algorithm", "tr29")]
    (fresh 30 BOUNDARY_ALGORITHM_TR29)
    { fresh 30 BOUNDARY_ALGORITHM_TR29 with
      token := [0x61, 0x62], prev_letter := LETTER_TYPE_ALETTER,
      prev_prev_letter := LETTER_TYPE_ALETTER } [0x20] rfl rfl
    (Reachable.after_next [0x61, 0x62] Reachable.created
      (by decide : fts_tokenizer_next tables_latin1 (fresh 30 BOUNDARY_ALGORITHM_TR29)
        [0x61, 0x62] = .ok ⟨{ fresh 30 BOUNDARY_ALGORITHM_TR29 with
                token := [0x61, 0x62], prev_letter := LETTER_TYPE_ALETTER,
                prev_prev_letter := LETTER_TYPE_ALETTER }, 0, 2, []⟩))
  ⟨by decide, h.1, h.2.2.1⟩



/-! ### C8: progress of a call with `size > 0` -/

set_option maxRecDepth 100000 in
/-- C8. Progress fails on the code, because a call of `next` with `size > 0` on
valid UTF-8 need not return. In the simple algorithm with `maxlen = 1`, which
`create` accepts, the first call on `é` followed by a space (`C3 A9 20`) stops
in `i_assert(pos > 0)` of `fts_uni_strndup`. In the TR29 algorithm with
`maxlen = 1` the first call on `a' ` stops in `i_assert(len > 0)`, and with the
default `maxlen = 30` the first call on `é· ` (`C3 A9 C2 B7 20`) reads the byte
before the buffer. What holds is the rest of the claim: a call with `size > 0`
that returns, from any state, returns TOKEN_READY with a skip count of at least 1
and an empty buffer, or NEED_MORE with the whole chunk consumed; the model's
loop bound never ends a call, and the caller's loop over a chunk, which advances
by the skip count, ends. -/
theorem sized_call_aborts :
    (valid_utf8 [0xC3, 0xA9, 0x20] = true ∧
      fts_tokenizer_generic_create [("maxlen", "1")] =
        .ok (fresh 1 BOUNDARY_ALGORITHM_SIMPLE) ∧
      fts_tokenizer_next tables_latin1 (fresh 1 BOUNDARY_ALGORITHM_SIMPLE) [0xC3, 0xA9, 0x20] =
        .fault .assert_pos) ∧
    (valid_utf8 [0x61, 0x27, 0x20] = true ∧
      fts_tokenizer_generic_create [("maxlen", "1"), ("algorithm", "tr29")] =
        .ok (fresh 1 BOUNDARY_ALGORITHM_TR29) ∧
      fts_tokenizer_next tables_latin1 (fresh 1 BOUNDARY_ALGORITHM_TR29) [0x61, 0x27, 0x20] =
        .fault .assert_len) ∧
    (valid_utf8 [0xC3, 0xA9, 0xC2, 0xB7, 0x20] = true ∧
      fts_tokenizer_generic_create [("algorithm", "tr29")] =
        .ok (fresh 30 BOUNDARY_ALGORITHM_TR29) ∧
      fts_tokenizer_next tables_latin1 (fresh 30 BOUNDARY_ALGORITHM_TR29)
          [0xC3, 0xA9, 0xC2, 0xB7, 0x20] =
        .fault .read_before_buffer) ∧
    (∀ (tb : Tables) (tok : generic_fts_tokenizer) (data : List Nat), 0 < data.length →
      fts_tokenizer_next tb tok data ≠ .out_of_fuel ∧
      feed_chunk tb tok data ≠ .out_of_fuel ∧
      ∀ r, fts_tokenizer_next tb tok data = .ok r →
        (r.ret = 1 ∧ 1 ≤ r.skip ∧ r.tok.token = []) ∨ (r.ret = 0 ∧ data.length ≤ r.skip)) := by
  refine ⟨⟨by decide, rfl, by decide⟩, ⟨by decide, rfl, by decide⟩,
    ⟨by decide, rfl, by decide⟩, ?_⟩
  intro tb tok data hsize
  obtain ⟨h1, h2⟩ := Outcome.ensures_iff.mp (fts_tokenizer_next_post tb tok data)
  obtain ⟨-, h3⟩ := Outcome.ensures_iff.mp (fts_tokenizer_next_ready tb tok data)
  refine ⟨h1, (Outcome.ensures_iff.mp (feed_chunk_ensures tb tok data)).1, fun r hr => ?_⟩
  have hne : data ≠ [] := by
    intro h; rw [h] at hsize; simp at hsize
  rcases (h2 r hr).1 with h | h
  · obtain ⟨q1, q2⟩ := h3 r hr h
    exact Or.inl ⟨h, q2 hne, q1⟩
  · exact Or.inr h


end Fts
